import Mathlib

/-!
Verification of the Topology_Project core: the toy-codebase generator
(`src/gen.py`), the call-graph extractor and the mutation engine
(`src/code_analysis.py`).

Source text is modelled at the level of its parse: a `Stmt` is the parsed
form of a generated or hand-written Python statement, and a `SourceText`
is a list of physical lines, each either a parsed code line, a comment
(discarded by `ast.parse`, reproduced by nothing in `ast.unparse`), or a
line that does not tokenize (making the whole text unparseable).
Randomness (`random.choice`, `random.randint`, `random.random`,
`random.shuffle`, `random.gauss`) is modelled by an oracle `Rng`
providing a stream of draws consumed one counter position at a time.
-/

namespace TopoProj

/-- Assignment target: a bare name (`x = ...`) or anything else
(tuple/subscript/attribute targets, which carry no call expressions in the
modelled fragment). -/
inductive Target where
  | tname (id : String)
  | tother
deriving Repr

/-- Parsed Python expressions, to the precision the analyzers inspect:
bare names, calls, attribute access, atomic constants, and a generic
container for every other expression node (BinOp, IfExp, displays,
f-strings, comparisons, ...) whose children are traversed in order by
`ast.NodeVisitor.generic_visit`. -/
inductive Expr where
  | ename (id : String)
  | ecall (func : Expr) (args : List Expr)
  | eattr (value : Expr) (attrName : String)
  | econst
  | egroup (children : List Expr)
deriving Repr

/-- Parsed Python statements inspected by the analyzers: function and
class definitions, assignments, expression statements, `return`, `if`,
`for`, and `pass`-like leaves (incl. `import` lines). -/
inductive Stmt where
  | functionDef (name : String) (body : List Stmt)
  | classDef (name : String) (body : List Stmt)
  | assign (targets : List Target) (value : Expr)
  | exprStmt (e : Expr)
  | ret (e : Expr)
  | sif (cond : Expr) (thn : List Stmt) (els : List Stmt)
  | sfor (iter : Expr) (body : List Stmt)
  | spass
deriving Repr

/-- A physical line of source text: a parsed code line, a comment line
(dropped by `ast.parse`, never re-emitted by `ast.unparse`), or a line
that fails to tokenize (making the whole text raise at `ast.parse`). -/
inductive Line where
  | code (s : Stmt)
  | comment
  | bad
deriving Repr

/-- Source text handed to the analyzers, as a list of lines. -/
abbrev SourceText := List Line

/-- The error `ast.parse` raises on unparseable input. -/
inductive SyntaxErr where
  | syntaxError
deriving Repr, DecidableEq

/-- Model of `ast.parse`: fails iff some line is unparseable, otherwise
returns the statements of the code lines in order. -/
def ast_parse (s : SourceText) : Except SyntaxErr (List Stmt) :=
  if s.any (fun l => match l with | .bad => true | _ => false) then
    .error .syntaxError
  else
    .ok (s.filterMap (fun l => match l with | .code st => some st | _ => none))

/-- Model of `ast.unparse`: emits one code line per statement; comments
and formatting of the original text are not reproduced. -/
def ast_unparse (tree : List Stmt) : SourceText := tree.map .code

/-- Association-list lookup (Python `dict.get` / `in`). -/
def lookupA {κ α : Type} [DecidableEq κ] : List (κ × α) → κ → Option α
  | [], _ => none
  | (k', v) :: rest, k => if k' = k then some v else lookupA rest k

/-- Association-list write (Python `d[k] = v`): replaces the value in
place if the key exists (keeping its position, as Python dicts keep
insertion order), else appends. -/
def dinsert {κ α : Type} [DecidableEq κ] : List (κ × α) → κ → α → List (κ × α)
  | [], k, v => [(k, v)]
  | (k', v') :: rest, k, v =>
      if k' = k then (k, v) :: rest else (k', v') :: dinsert rest k v

/-! ## The call-graph extractor (`extract_graph`, `GraphBuilder`) -/

/-- The mutable state of `GraphBuilder`: node-kind table (insertion
order), edge list, per-container instance-binding maps, current context,
and the class-nesting stack (head = innermost). -/
structure GState where
  nodeTypes : List (String × String)
  edges : List (String × String)
  instanceMaps : List (String × List (String × String))
  current : Option String
  classStack : List String
deriving Repr, DecidableEq

/-- The edge-recording part of `GraphBuilder.visit_Call`, evaluated on
the call's `func` expression when a current context exists (it does not
recurse into children; `generic_visit` does that separately). -/
def callEdgeLogic (st : GState) (cur : String) : Expr → GState
  | .ename id =>
      let callee := if id = "run" ∧ st.classStack ≠ [] then st.classStack.headD "" else id
      if (lookupA st.nodeTypes callee).isSome then
        { st with edges := st.edges ++ [(callee, cur)] }
      else st
  | .eattr v attrName =>
      if attrName = "run" then
        let fromMap : Option String :=
          match v with
          | .ename inst => lookupA ((lookupA st.instanceMaps cur).getD []) inst
          | _ => none
        let parentCls : Option String :=
          match fromMap with
          | some c => some c
          | none => if st.classStack ≠ [] then some (st.classStack.headD "") else none
        match parentCls with
        | some p =>
            if (lookupA st.nodeTypes p).isSome then
              { st with edges := st.edges ++ [(p, cur)] }
            else st
        | none => st
      else st
  | _ => st

/-- The instance-binding part of `GraphBuilder.visit_Assign` (before the
`generic_visit` recursion). -/
def assignBindLogic (st : GState) (targets : List Target) (value : Expr) : GState :=
  match st.current, targets, value with
  | some cur, [.tname t], .ecall (.ename cls) _ =>
      if lookupA st.nodeTypes cls = some "class" then
        let m := (lookupA st.instanceMaps cur).getD []
        { st with instanceMaps := dinsert st.instanceMaps cur (dinsert m t cls) }
      else st
  | _, _, _ => st

mutual
/-- `GraphBuilder.visit` dispatch on an expression node: `visit_Call`
for calls, `generic_visit` for everything else. -/
def visitExpr (st : GState) : Expr → GState
  | .ename _ => st
  | .econst => st
  | .eattr v _ => visitExpr st v
  | .egroup es => visitExprList st es
  | .ecall f args =>
      match st.current with
      | none =>
          -- `if not self.current: return self.generic_visit(node)`
          visitExprList (visitExpr st f) args
      | some cur =>
          let st1 := callEdgeLogic st cur f
          visitExprList (visitExpr st1 f) args

/-- Visit the children of an expression list in order. -/
def visitExprList (st : GState) : List Expr → GState
  | [] => st
  | e :: es => visitExprList (visitExpr st e) es
end

mutual
/-- `GraphBuilder.visit` dispatch on a statement node. -/
def visitStmt (st : GState) : Stmt → GState
  | .functionDef name body =>
      if st.classStack ≠ [] then
        -- method inside a class: no new node, keep the class as context
        visitStmtList st body
      else
        let st1 := { st with
          nodeTypes := dinsert st.nodeTypes name "function",
          current := some name,
          instanceMaps := dinsert st.instanceMaps name [] }
        let st2 := visitStmtList st1 body
        { st2 with current := st.current }
  | .classDef name body =>
      let st1 := { st with
        nodeTypes := dinsert st.nodeTypes name "class",
        classStack := name :: st.classStack,
        current := some name,
        instanceMaps := dinsert st.instanceMaps name [] }
      let st2 := visitStmtList st1 body
      { st2 with current := st.current, classStack := st2.classStack.tail }
  | .assign targets value =>
      let st1 := assignBindLogic st targets value
      visitExpr st1 value
  | .exprStmt e => visitExpr st e
  | .ret e => visitExpr st e
  | .sif cond thn els => visitStmtList (visitStmtList (visitExpr st cond) thn) els
  | .sfor iter body => visitStmtList (visitExpr st iter) body
  | .spass => st

/-- Visit a list of statements in order. -/
def visitStmtList (st : GState) : List Stmt → GState
  | [] => st
  | s :: ss => visitStmtList (visitStmt st s) ss
end

/-- Initial `GraphBuilder` state. -/
def initGState : GState := ⟨[], [], [], none, []⟩

/-- Run `GraphBuilder` over a parsed module. -/
def buildGraph (tree : List Stmt) : GState := visitStmtList initGState tree

/-- Node names of the extracted graph, in registration order
(`list(builder.node_types.keys())`). -/
def extractNodes (tree : List Stmt) : List String := (buildGraph tree).nodeTypes.map (·.1)

/-- Edges of the extracted graph, as (from, to) = (parent, child) pairs
(the `{"from": parent, "to": child}` dicts). -/
def extractEdges (tree : List Stmt) : List (String × String) := (buildGraph tree).edges

/-- `extract_graph`: parse, then build; a parse failure propagates (there
is no handler around `ast.parse`). -/
def extract_graph (s : SourceText) :
    Except SyntaxErr (List String × List (String × String)) :=
  match ast_parse s with
  | .error e => .error e
  | .ok tree => .ok (extractNodes tree, extractEdges tree)

/-! ## The mutation engine (`modify_codebase`) -/

/-- Oracle for Python's global `random` source: `stream` supplies one
draw per consumed counter position; `shuffleFn` supplies the result of
`random.shuffle` (a permutation of its input for any real seed). -/
structure Rng where
  stream : Nat → Nat
  shuffleFn : Nat → List Nat → List Nat

/-- A well-formed oracle: `random.shuffle` always permutes its input. -/
def Rng.WF (r : Rng) : Prop := ∀ k l, (r.shuffleFn k l).Perm l

/-- The all-zeros oracle (one concrete seed's worth of behavior). -/
def rng0 : Rng := ⟨fun _ => 0, fun _ l => l⟩

theorem rng0_wf : Rng.WF rng0 := fun _ _ => List.Perm.refl _

mutual
/-- `FunctionCollector.visit`: collect module-level function names
(excluding `main` and `run`); `in_class` counts enclosing classes. -/
def collectCand (inClass : Nat) : Stmt → List String
  | .functionDef n b =>
      (if inClass = 0 ∧ n ≠ "main" ∧ n ≠ "run" then [n] else []) ++ collectCandList inClass b
  | .classDef _ b => collectCandList (inClass + 1) b
  | .assign _ _ => []
  | .exprStmt _ => []
  | .ret _ => []
  | .sif _ t e => collectCandList inClass t ++ collectCandList inClass e
  | .sfor _ b => collectCandList inClass b
  | .spass => []

/-- Collect candidates from a statement list. -/
def collectCandList (inClass : Nat) : List Stmt → List String
  | [] => []
  | s :: ss => collectCand inClass s ++ collectCandList inClass ss
end

/-- The candidate pool: the collected name set as a list
(`pool = list(candidate_names)`, modelled as first-occurrence dedup). -/
def candPool (tree : List Stmt) : List String := (collectCandList 0 tree).dedup

/-- The rewrite decision of `CallRewriter.visit_Call` on a call's `func`
node: if the change budget is not exhausted and the call is a bare-name
call to a pool function with at least one different pool member
available, pick a uniformly chosen different member, increment the
applied count, and consume one draw. -/
def decideRw (r : Rng) (pool : List String) (limit : Nat) (f : Expr) (made rk : Nat) :
    Option String × Nat × Nat :=
  if made ≥ limit then (none, made, rk)
  else
    match f with
    | .ename id =>
        if id ∈ pool then
          let choices := pool.filter (· ≠ id)
          if choices.isEmpty then (none, made, rk)
          else (some (choices.getD (r.stream rk % choices.length) ""), made + 1, rk + 1)
        else (none, made, rk)
    | _ => (none, made, rk)

mutual
/-- `CallRewriter.visit` on an expression: rewrite the call target if
applicable, then `generic_visit` the children (the rewritten `func` is a
`Name`, on which the transformer is a no-op, so recursing on the original
`func` is equivalent). -/
def rwExpr (r : Rng) (pool : List String) (limit : Nat) :
    Expr → Nat → Nat → Expr × Nat × Nat
  | .ename i, made, rk => (.ename i, made, rk)
  | .econst, made, rk => (.econst, made, rk)
  | .eattr v a, made, rk =>
      let (v', m', k') := rwExpr r pool limit v made rk
      (.eattr v' a, m', k')
  | .egroup es, made, rk =>
      let (es', m', k') := rwExprList r pool limit es made rk
      (.egroup es', m', k')
  | .ecall f args, made, rk =>
      let (d, m1, k1) := decideRw r pool limit f made rk
      let (f1, m2, k2) := rwExpr r pool limit f m1 k1
      let fFinal := match d with | some nid => Expr.ename nid | none => f1
      let (args1, m3, k3) := rwExprList r pool limit args m2 k2
      (.ecall fFinal args1, m3, k3)

/-- Rewrite an expression list in order. -/
def rwExprList (r : Rng) (pool : List String) (limit : Nat) :
    List Expr → Nat → Nat → List Expr × Nat × Nat
  | [], made, rk => ([], made, rk)
  | e :: es, made, rk =>
      let (e', m1, k1) := rwExpr r pool limit e made rk
      let (es', m2, k2) := rwExprList r pool limit es m1 k1
      (e' :: es', m2, k2)
end

mutual
/-- `CallRewriter.visit` on a statement (no statement visitor is defined,
so this is `generic_visit` rebuilding children in order). -/
def rwStmt (r : Rng) (pool : List String) (limit : Nat) :
    Stmt → Nat → Nat → Stmt × Nat × Nat
  | .functionDef n b, made, rk =>
      let (b', m', k') := rwStmtList r pool limit b made rk
      (.functionDef n b', m', k')
  | .classDef n b, made, rk =>
      let (b', m', k') := rwStmtList r pool limit b made rk
      (.classDef n b', m', k')
  | .assign targets value, made, rk =>
      let (v', m', k') := rwExpr r pool limit value made rk
      (.assign targets v', m', k')
  | .exprStmt e, made, rk =>
      let (e', m', k') := rwExpr r pool limit e made rk
      (.exprStmt e', m', k')
  | .ret e, made, rk =>
      let (e', m', k') := rwExpr r pool limit e made rk
      (.ret e', m', k')
  | .sif c t e, made, rk =>
      let (c', m1, k1) := rwExpr r pool limit c made rk
      let (t', m2, k2) := rwStmtList r pool limit t m1 k1
      let (e', m3, k3) := rwStmtList r pool limit e m2 k2
      (.sif c' t' e', m3, k3)
  | .sfor it b, made, rk =>
      let (it', m1, k1) := rwExpr r pool limit it made rk
      let (b', m2, k2) := rwStmtList r pool limit b m1 k1
      (.sfor it' b', m2, k2)
  | .spass, made, rk => (.spass, made, rk)

/-- Rewrite a statement list in order. -/
def rwStmtList (r : Rng) (pool : List String) (limit : Nat) :
    List Stmt → Nat → Nat → List Stmt × Nat × Nat
  | [], made, rk => ([], made, rk)
  | s :: ss, made, rk =>
      let (s', m1, k1) := rwStmt r pool limit s made rk
      let (ss', m2, k2) := rwStmtList r pool limit ss m1 k1
      (s' :: ss', m2, k2)
end

/-- `modify_codebase(code_str, num_changes)`: parse (a failure
propagates), collect the candidate pool, return the input unchanged with
0 changes if fewer than two candidates exist, else rewrite up to
`num_changes` call sites and unparse. `rk` is the oracle counter. -/
def modify_codebase (s : SourceText) (num_changes : Nat) (r : Rng) (rk : Nat) :
    Except SyntaxErr (SourceText × Nat) :=
  match ast_parse s with
  | .error e => .error e
  | .ok tree =>
      let pool := candPool tree
      if pool.length < 2 then .ok (s, 0)
      else
        let (tree', made, _) := rwStmtList r pool num_changes tree 0 rk
        .ok (ast_unparse tree', made)

/-! ## The generator (`gen.py`) -/

/-- The fixed catalog of value kinds (`DATA_TYPES`). -/
def DATA_TYPES : List String :=
  ["int", "float", "list", "dict", "tuple", "set", "str", "complex", "bool"]

/-- One random draw interpreted as `random.randint(lo, hi)`. -/
def Rng.randint (r : Rng) (k lo hi : Nat) : Nat × Nat :=
  (lo + r.stream k % (hi + 1 - lo), k + 1)

/-- One random draw interpreted as `random.choice(l)` (callers only use
nonempty lists, so the default is never selected). -/
def Rng.choice {α : Type} [Inhabited α] (r : Rng) (k : Nat) (l : List α) : α × Nat :=
  (l.getD (r.stream k % l.length) default, k + 1)

/-- One random draw interpreted as the boolean outcome of
`random.random() < p`; quantifying over streams covers every outcome a
real seed can produce for `p` strictly between 0 and 1. -/
def Rng.coin (r : Rng) (k : Nat) : Bool × Nat :=
  (r.stream k % 2 == 0, k + 1)

/-- One random draw interpreted as `max(1, int(random.gauss(μ, σ)))`:
the truncated gauss draw ranges over all integers and the clamp maps
that onto 1, 2, 3, ..., exactly the range of `max 1` over an arbitrary
natural draw. -/
def Rng.gaussLen (r : Rng) (k : Nat) : Nat × Nat :=
  (max 1 (r.stream k), k + 1)

/-- The expression `parameter`. -/
def pm : Expr := .ename "parameter"

/-- Bare-name call `f(args)`. -/
def bcall (f : String) (args : List Expr) : Expr := .ecall (.ename f) args

/-- Attribute call `recv.m(args)`. -/
def acall (recv : Expr) (m : String) (args : List Expr) : Expr :=
  .ecall (.eattr recv m) args

/-- The entries of `TRANSFORMATIONS_MAP`, keyed by (input, output) type
pairs, with each snippet `result = <rhs>` represented by its parsed
right-hand side. -/
def TRANSFORMATIONS_LIST : List ((String × String) × List Expr) :=
  [(("bool", "int"), [.egroup [pm, .econst, .econst], bcall "int" [pm]]),
   (("bool", "float"), [.egroup [pm, .econst, .econst]]),
   (("bool", "str"), [.egroup [pm, .econst, .econst]]),
   (("bool", "bool"), [.egroup [pm]]),
   (("int", "int"), [.egroup [pm, acall (.ename "random") "randint" [.econst, .econst]],
      .egroup [pm, .econst], bcall "abs" [pm]]),
   (("int", "float"), [.egroup [bcall "float" [pm], acall (.ename "random") "randint" [.econst, .econst]],
      acall (.ename "math") "sqrt" [bcall "abs" [pm]]]),
   (("int", "str"), [.egroup [bcall "str" [pm], .econst]]),
   (("int", "complex"), [bcall "complex" [pm, .egroup [pm, .econst]]]),
   (("float", "float"), [acall (.ename "math") "sin" [pm], .egroup [pm, .econst]]),
   (("float", "int"), [bcall "int" [bcall "round" [pm]]]),
   (("float", "complex"), [bcall "complex" [pm, .egroup [pm, .econst]]]),
   (("list", "int"), [bcall "len" [pm],
      .egroup [bcall "sum" [pm],
        bcall "all" [.egroup [bcall "isinstance" [.ename "x", .egroup [.ename "int", .ename "float"]], pm]],
        bcall "len" [pm]]]),
   (("list", "float"), [.egroup [.egroup [bcall "sum" [pm], bcall "len" [pm]],
      .egroup [bcall "len" [pm], .econst], .econst]]),
   (("list", "list"), [.egroup [pm]]),
   (("list", "str"), [acall .econst "join" [.egroup [bcall "str" [.ename "x"], pm]]]),
   (("list", "set"), [bcall "set" [pm]]),
   (("dict", "list"), [bcall "list" [acall pm "keys" []]]),
   (("dict", "int"), [bcall "len" [pm]]),
   (("dict", "str"), [.egroup [bcall "list" [acall pm "keys" []]]]),
   (("tuple", "list"), [bcall "list" [pm]]),
   (("tuple", "int"), [bcall "len" [pm]]),
   (("set", "int"), [bcall "len" [pm]]),
   (("set", "str"), [acall .econst "join" [.egroup [bcall "str" [.ename "x"], bcall "sorted" [pm]]]]),
   (("str", "list"), [bcall "list" [pm]]),
   (("str", "int"), [bcall "len" [pm]]),
   (("str", "set"), [bcall "set" [pm]]),
   (("str", "float"), [bcall "float" [bcall "len" [pm]]]),
   (("str", "str"), [acall pm "upper" []]),
   (("complex", "float"), [bcall "abs" [pm]]),
   (("complex", "int"), [bcall "int" [bcall "abs" [pm]]])]

/-- `TRANSFORMATIONS_MAP.get((input_type, output_type))`. -/
def TRANSFORMATIONS_MAP (it ot : String) : Option (List Expr) :=
  lookupA TRANSFORMATIONS_LIST (it, ot)

/-- The name rendered by an f-string hole `{output_type}` used in call
position (a `None` value would render as the constant `None`). -/
def otName (ot : Option String) : Expr :=
  match ot with
  | some s => .ename s
  | none => .econst

/-- The fallback branch of `get_random_transformation_code` for pairs
absent from the map. -/
def fallbackTransform (it ot : Option String) : Expr :=
  match it with
  | some "bool" =>
      if ot = some "dict" then .egroup [pm]
      else .ecall (otName ot) [.egroup [pm]]
  | some "int" => .ecall (otName ot) [pm]
  | some "float" => .ecall (otName ot) [pm]
  | some "complex" => .ecall (otName ot) [pm]
  | some "str" =>
      if ot = some "dict" then .egroup [pm, bcall "len" [pm]]
      else .ecall (otName ot) [.egroup [pm]]
  | some "list" =>
      if ot = some "dict" then .egroup [.egroup [bcall "enumerate" [pm]]]
      else .ecall (otName ot) [pm]
  | some "dict" =>
      if ot = some "list" ∨ ot = some "tuple" ∨ ot = some "set" then
        .ecall (otName ot) [acall pm "keys" []]
      else bcall "str" [pm]
  | some "tuple" => .ecall (otName ot) [pm]
  | some "set" =>
      if ot = some "dict" then .egroup [pm]
      else .ecall (otName ot) [pm]
  | _ => .econst

/-- `get_random_transformation_code`: a mapped pair draws one choice; the
fallback draws nothing. Returns the parsed right-hand side of the
`result = ...` snippet. -/
def get_random_transformation_code (it ot : Option String) (r : Rng) (k : Nat) :
    Expr × Nat :=
  match it, ot with
  | some i, some o =>
      match TRANSFORMATIONS_MAP i o with
      | some snips => (snips.getD (r.stream k % snips.length) .econst, k + 1)
      | none => (fallbackTransform (some i) (some o), k)
  | _, _ => (fallbackTransform it ot, k)

/-- `generate_random_literal`, with the draws each branch consumes; the
only literal containing a call is `complex(3, 4)`. -/
def generate_random_literal (dt : Option String) (r : Rng) (k : Nat) : Expr × Nat :=
  if dt = some "int" then (.econst, k + 1)
  else if dt = some "float" then (.econst, k + 1)
  else if dt = some "list" then (.egroup [.econst, .econst, .econst], k)
  else if dt = some "dict" then (.egroup [.econst, .econst], k)
  else if dt = some "tuple" then (.egroup [.econst, .econst], k)
  else if dt = some "set" then (.egroup [.econst, .econst, .econst], k)
  else if dt = some "str" then (.econst, k + 5)
  else if dt = some "complex" then (bcall "complex" [.econst, .econst], k)
  else if dt = some "bool" then (.econst, k + 1)
  else (.econst, k)

/-- The lowercase alphabet (`string.ascii_lowercase`). -/
def asciiLowercase : List Char := "abcdefghijklmnopqrstuvwxyz".toList

/-- `generate_random_string(length)`: one draw per character. -/
def generate_random_string (r : Rng) : Nat → Nat → String × Nat
  | 0, k => ("", k)
  | n + 1, k =>
      let c := asciiLowercase.getD (r.stream k % 26) 'a'
      let (rest, k') := generate_random_string r n (k + 1)
      (String.mk (c :: rest.toList), k')

/-- `generate_random_filler_lines`: each line is `name = <int literal>`
(one five-letter name, one `randint` draw). -/
def generate_random_filler_lines (r : Rng) : Nat → Nat → List Stmt × Nat
  | 0, k => ([], k)
  | n + 1, k =>
      let (v, k1) := generate_random_string r 5 k
      let k2 := k1 + 1
      let (rest, k3) := generate_random_filler_lines r n k2
      (Stmt.assign [.tname v] .econst :: rest, k3)

/-- `generate_branching_code_snippet`: each block is an `if`/`else` with
constant condition and string-constant assignments. -/
def generate_branching_code_snippet (r : Rng) : Nat → Nat → List Stmt × Nat
  | 0, k => ([], k)
  | n + 1, k =>
      let (v, k1) := generate_random_string r 5 k
      let k2 := k1 + 1                                 -- randint(0, 10) in the condition
      let (_, k3) := generate_random_string r 5 k2     -- then-branch string
      let (_, k4) := generate_random_string r 5 k3     -- else-branch string
      let (rest, k5) := generate_branching_code_snippet r n k4
      (Stmt.sif (.egroup [.econst, .econst])
        [.assign [.tname v] .econst] [.assign [.tname v] .econst] :: rest, k5)

/-- `generate_loop_code_snippet`: each block is
`for v in range(randint(1,5)): pass`. -/
def generate_loop_code_snippet (r : Rng) : Nat → Nat → List Stmt × Nat
  | 0, k => ([], k)
  | n + 1, k =>
      let (_, k1) := generate_random_string r 5 k
      let k2 := k1 + 1                                 -- randint(1, 5)
      let (rest, k3) := generate_loop_code_snippet r n k2
      (Stmt.sfor (bcall "range" [.econst]) [.spass] :: rest, k3)

/-- One generated node record
`(object_name, object_type, input_type, output_type)`. -/
structure NodeInfo where
  name : String
  kind : String
  input_type : Option String
  output_type : Option String
deriving Repr, DecidableEq

/-- Default for out-of-range node lookups (never reached on the
generator's own data). -/
def dfltNode : NodeInfo := ⟨"", "", none, none⟩

/-- The statements emitted for one dependency call inside a body. -/
def depCallStmts (node : NodeInfo) (it : Option String) (r : Rng) (k : Nat) :
    List Stmt × Nat :=
  if node.kind = "function" then
    if node.input_type = it then
      ([.exprStmt (bcall node.name [pm])], k)
    else
      let (lit, k1) := generate_random_literal node.input_type r k
      ([.exprStmt (bcall node.name [lit])], k1)
  else
    let (iv, k1) := generate_random_string r 5 k
    if node.input_type = it then
      ([.assign [.tname iv] (bcall node.name []),
        .exprStmt (acall (.ename iv) "run" [pm])], k1)
    else
      let (lit, k2) := generate_random_literal node.input_type r k1
      ([.assign [.tname iv] (bcall node.name []),
        .exprStmt (acall (.ename iv) "run" [lit])], k2)

/-- The dependency-call section of `generate_method_body`. -/
def depSection (deps : List Nat) (nodeList : List NodeInfo) (it : Option String)
    (r : Rng) (k : Nat) : List Stmt × Nat :=
  match deps with
  | [] => ([], k)
  | d :: ds =>
      let (s1, k1) := depCallStmts (nodeList.getD d dfltNode) it r k
      let (s2, k2) := depSection ds nodeList it r k1
      (s1 ++ s2, k2)

/-- `generate_method_body`: filler lines, branching, loops, one call per
dependency, the transformation snippet, and `return result`. -/
def generate_method_body (it ot : Option String)
    (filler_line_count branching_count loop_count : Nat)
    (deps : List Nat) (nodeList : List NodeInfo) (r : Rng) (k : Nat) :
    List Stmt × Nat :=
  let (fill, k1) := generate_random_filler_lines r filler_line_count k
  let (brs, k2) := generate_branching_code_snippet r branching_count k1
  let (lps, k3) := generate_loop_code_snippet r loop_count k2
  let (dcs, k4) := depSection deps nodeList it r k3
  let (rhs, k5) := get_random_transformation_code it ot r k4
  (fill ++ brs ++ lps ++ dcs ++ [.assign [.tname "result"] rhs, .ret (.ename "result")], k5)

/-! ### Topology generator (`build_adjacency_list`) -/

/-- `adjacency_list[child].append(parent)`. -/
def addParent (adj : List (List Nat)) (child parent : Nat) : List (List Nat) :=
  adj.set child (adj.getD child [] ++ [parent])

/-- The chain construction: node `i` depends on `i - 1`. -/
def chainAdj (n : Nat) : List (List Nat) :=
  (List.range' 1 (n - 1)).foldl (fun a i => addParent a i (i - 1))
    (List.replicate n [])

/-- Position map for the random construction: the index of each node in
the shuffled list (`position[node_id] = idx`, later indices win, as for
Python dict assignment). -/
def positionMap (shuffled : List Nat) : List (Nat × Nat) :=
  shuffled.enum.foldl (fun m pr => dinsert m pr.2 pr.1) []

/-- `build_adjacency_list(number_of_objects, topology_mode, connectivity)`:
`chain` and `branch` as written; every other mode takes the final `else`
branch, the random-DAG construction. -/
def build_adjacency_list (num : Nat) (topology_mode : String) (connectivity : Nat)
    (r : Rng) (k : Nat) : List (List Nat) × Nat :=
  if topology_mode = "chain" then
    (chainAdj num, k)
  else if topology_mode = "branch" then
    if num < 4 then (chainAdj num, k)
    else
      let a0 := List.replicate num ([] : List Nat)
      let a1 := addParent a0 1 0
      let a2 := addParent a1 2 0
      let fin := num - 1
      let a3 := if 1 ∈ a2.getD fin [] then a2 else addParent a2 fin 1
      let a4 := if 2 ∈ a3.getD fin [] then a3 else addParent a3 fin 2
      -- intermediates 3 .. num-2 pick one random earlier parent each
      let (a5, k1) := (List.range' 3 (num - 1 - 3)).foldl
        (fun (p : List (List Nat) × Nat) i =>
          let (par, k') := r.randint p.2 0 (i - 1)
          (addParent p.1 i par, k'))
        (a4, k)
      -- ensure all nodes 0 .. num-2 are parents of the final node
      let a6 := (List.range (num - 1)).foldl
        (fun a i => if i ∈ a.getD fin [] then a else addParent a fin i) a5
      (a6, k1)
  else
    -- the "random" construction (also reached for any unsupported mode)
    let shuffled := r.shuffleFn k (List.range num)
    let k1 := k + 1
    let pos := positionMap shuffled
    (List.range num).foldl
      (fun (p : List (List Nat) × Nat) u =>
        (List.range num).foldl
          (fun (q : List (List Nat) × Nat) v =>
            if u ≠ v ∧ (lookupA pos u).getD 0 < (lookupA pos v).getD 0 then
              let (b, k') := r.coin q.2   -- random.random() < connectivity
              if b then (addParent q.1 v u, k') else (q.1, k')
            else q)
          p)
      (List.replicate num ([] : List Nat), k1)

/-! ### Cycle eliminator / topological sorter -/

/-- Build the children relation from the parents relation. -/
def buildChildren (adj : List (List Nat)) : List (List Nat) :=
  (List.range adj.length).foldl
    (fun ch child =>
      (adj.getD child []).foldl (fun ch' parent => addParent ch' parent child) ch)
    (List.replicate adj.length [])

/-- Decrement the in-degree of each child of the popped node, enqueueing
children that reach zero. -/
def processChildren (childrenOfX : List Nat) (indeg : List Int) (queue : List Nat) :
    List Int × List Nat :=
  childrenOfX.foldl
    (fun (p : List Int × List Nat) c =>
      let d := p.1.getD c 0 - 1
      let ind' := p.1.set c d
      if d = 0 then (ind', p.2 ++ [c]) else (ind', p.2))
    (indeg, queue)

/-- The Kahn queue loop; the fuel passed by `remove_cycles` exceeds the
loop's step count, so the zero-fuel clause is never reached. -/
def kahnLoop (children : List (List Nat)) :
    Nat → List Nat → List Int → List Nat → List Nat
  | 0, _, _, order => order
  | fuel + 1, queue, indeg, order =>
      match queue with
      | [] => order
      | x :: qs =>
          let (indeg', q') := processChildren (children.getD x []) indeg qs
          kahnLoop children fuel q' indeg' (order ++ [x])

/-- Initial in-degrees: `len(adjacency_list[child])`. -/
def initIndeg (adj : List (List Nat)) : List Int :=
  (List.range adj.length).map (fun c => ((adj.getD c []).length : Int))

/-- `remove_cycles_and_get_topological_order`: Kahn's algorithm over the
derived children relation; nodes never reaching in-degree zero have all
their parent edges forcibly removed and are appended to the order.
Returns the order and the (possibly mutated) adjacency. -/
def remove_cycles_and_get_topological_order (adj : List (List Nat)) :
    List Nat × List (List Nat) :=
  let n := adj.length
  let children := buildChildren adj
  let indeg := initIndeg adj
  let queue0 := (List.range n).filter (fun i => indeg.getD i 0 = 0)
  let fuel := ((List.range n).map (fun c => (adj.getD c []).length)).sum + n + 1
  let order := kahnLoop children fuel queue0 indeg []
  let remaining := (List.range n).filter (fun i => ¬ i ∈ order)
  let adj' := remaining.foldl (fun a i => a.set i []) adj
  (order ++ remaining, adj')

/-! ### Type unification (`unify_types_based_on_adjacency`) -/

/-- Processing of one node in the unification pass. -/
def unifyStep (r : Rng) (st : List NodeInfo × List (List Nat) × Nat) (i : Nat) :
    List NodeInfo × List (List Nat) × Nat :=
  let (nodes, adj, k) := st
  let parents := adj.getD i []
  let (it, adj', k1) :=
    match parents with
    | [] =>
        let (t, k') := r.choice k DATA_TYPES
        (some t, adj, k')
    | _ =>
        let pot := parents.map (fun p => (nodes.getD p dfltNode).output_type)
        if pot.dedup.length = 1 then
          (pot.dedup.headD none, adj, k)
        else
          let (chosen, k') := r.choice k pot
          let pruned := parents.foldl
            (fun acc p =>
              if (nodes.getD p dfltNode).output_type ≠ chosen then acc.erase p else acc)
            parents
          (chosen, adj.set i pruned, k')
  let (ot, k2) := r.choice k1 DATA_TYPES
  let nd := nodes.getD i dfltNode
  (nodes.set i { nd with input_type := it, output_type := some ot }, adj', k2)

/-- `unify_types_based_on_adjacency`: walk the topological order, resolve
each node's input type from its parents' output types (pruning
conflicting parent edges), then draw a fresh output type. -/
def unify_types_based_on_adjacency (nodes : List NodeInfo) (adj : List (List Nat))
    (r : Rng) (k : Nat) : List NodeInfo × List (List Nat) × Nat :=
  let (ord, adj1) := remove_cycles_and_get_topological_order adj
  ord.foldl (unifyStep r) (nodes, adj1, k)

/-! ### `generate_codebase` -/

/-- Node-name synthesis for step 3 of `generate_codebase`. -/
def nodeName (useSem : Bool) (kind : String) (index : Nat) (parents : List Nat) : String :=
  if useSem then
    let base := if kind = "function" then "function" else "class"
    match parents with
    | [] => base ++ "_start"
    | [p] => base ++ "_from_" ++ toString p
    | _ =>
        base ++ "_merge_" ++
          String.intercalate "_" ((parents.mergeSort (· ≤ ·)).map toString)
  else
    (if kind = "function" then "Function_" else "Class_") ++ toString index

/-- Step 3 of `generate_codebase`: placeholder node records with random
kinds. -/
def makePlaceholders (num : Nat) (useSem : Bool) (adj : List (List Nat))
    (r : Rng) (k : Nat) : List NodeInfo × Nat :=
  (List.range num).foldl
    (fun (p : List NodeInfo × Nat) i =>
      let (kind, k') := r.choice p.2 ["function", "class"]
      (p.1 ++ [⟨nodeName useSem kind i (adj.getD i []), kind, none, none⟩], k'))
    ([], k)

/-- The extra-methods loop of a class section. -/
def extrasFold (nodeList : List NodeInfo) (fe bf lf : Nat) (r : Rng)
    (n k : Nat) : List Stmt × Nat :=
  (List.range n).foldl
    (fun (p : List Stmt × Nat) j =>
      let (eit, ka) := r.choice p.2 DATA_TYPES
      let (eot, kb) := r.choice ka DATA_TYPES
      let (ebody, kc) := generate_method_body (some eit) (some eot)
        fe bf lf [] nodeList r kb
      (p.1 ++ [Stmt.functionDef ("method_" ++ toString j) ebody], kc))
    ([], k)

/-- Code emitted for one node definition (step 5 of `generate_codebase`). -/
def genSection (avg_length branching_factor loop_factor : Nat)
    (nodeList : List NodeInfo) (adj : List (List Nat)) (r : Rng)
    (i : Nat) (node : NodeInfo) (k : Nat) : Stmt × Nat :=
  let (est, k1) := r.gaussLen k
  if node.kind = "function" then
    let filler := est - branching_factor - loop_factor
    let (body, k2) := generate_method_body node.input_type node.output_type
      filler branching_factor loop_factor (adj.getD i []) nodeList r k1
    (.functionDef node.name body, k2)
  else
    let fillerRun := est / 2 - branching_factor - loop_factor
    let (runBody, k2) := generate_method_body node.input_type node.output_type
      fillerRun branching_factor loop_factor (adj.getD i []) nodeList r k1
    let (numExtraRaw, k3) := r.randint k2 1 3
    let fillerExtra := est / 3 - branching_factor - loop_factor
    let (extras, k4) := extrasFold nodeList fillerExtra branching_factor
      loop_factor r numExtraRaw k3
    (.classDef node.name
      ([.functionDef "__init__" [.spass], .functionDef "run" runBody] ++ extras), k4)

/-- Driver statements for one node in the `main()` body. -/
def mainStmtsFor (nodeList : List NodeInfo) (adj : List (List Nat)) (r : Rng)
    (i k : Nat) : List Stmt × Nat :=
  let node := nodeList.getD i dfltNode
  let parents := adj.getD i []
  let (paramAssign, k1) :=
    match parents with
    | [] =>
        let (lit, k') := generate_random_literal node.input_type r k
        (Stmt.assign [.tname "parameter_value"] lit, k')
    | _ =>
        -- parameter_value = results[first_parent]
        (Stmt.assign [.tname "parameter_value"] (.egroup [.ename "results"]), k)
  let callStmts : List Stmt :=
    if node.kind = "function" then
      [.assign [.tname "output_value"] (bcall node.name [.ename "parameter_value"])]
    else
      let iv := "instance_" ++ toString i
      [.assign [.tname iv] (bcall node.name []),
       .assign [.tname "output_value"] (acall (.ename iv) "run" [.ename "parameter_value"])]
  -- results[i] = output_value (a subscript target carries no call)
  (paramAssign :: callStmts ++ [.assign [.tother] (.ename "output_value")], k1)

/-- The `main()` body: import line, `results = {}`, the per-node driver
statements in topological order, and the final print loop. -/
def mainBody (ord : List Nat) (nodeList : List NodeInfo) (adj : List (List Nat))
    (r : Rng) (k : Nat) : List Stmt × Nat :=
  let (driver, k1) := ord.foldl
    (fun (p : List Stmt × Nat) i =>
      let (ss, k') := mainStmtsFor nodeList adj r i p.2
      (p.1 ++ ss, k'))
    ([], k)
  ([.spass, .assign [.tname "results"] .econst] ++ driver ++
   [.exprStmt (bcall "print" [.econst]),
    .sfor (acall (.ename "results") "items" [])
      [.exprStmt (bcall "print" [.egroup [.ename "key", .ename "value"]])]], k1)

/-- `generate_codebase`: build the adjacency, remove cycles, create
placeholders, unify types, compute the final order, emit the node
definitions, the `main()` driver and the `if __name__ == "__main__"`
guard. Returns (parsed module, node list, adjacency, next counter). -/
def generate_codebase (num_objects avg_length branching_factor loop_factor
    connectivity : Nat) (topology_mode : String) (use_semantics : Bool)
    (r : Rng) (k : Nat) :
    List Stmt × List NodeInfo × List (List Nat) × Nat :=
  let (adj0, k1) := build_adjacency_list num_objects topology_mode connectivity r k
  let adjA := (remove_cycles_and_get_topological_order adj0).2
  let (nodes1, k2) := makePlaceholders num_objects use_semantics adjA r k1
  let (nodes2, adjB, k3) := unify_types_based_on_adjacency nodes1 adjA r k2
  let (ord, adjC) := remove_cycles_and_get_topological_order adjB
  let (sections, k4) := nodes2.enum.foldl
    (fun (p : List Stmt × Nat) pr =>
      let (s, k') := genSection avg_length branching_factor loop_factor
        nodes2 adjC r pr.1 pr.2 p.2
      (p.1 ++ [s], k'))
    ([], k3)
  let (mb, k5) := mainBody ord nodes2 adjC r k4
  (sections ++
     [.functionDef "main" mb,
      .sif (.egroup [.ename "__name__", .econst]) [.exprStmt (bcall "main" [])] []],
   nodes2, adjC, k5)

/-! ## Basic lemmas about the association-list operations -/

theorem lookupA_dinsert_self {α : Type} (l : List (String × α)) (k : String) (v : α) :
    lookupA (dinsert l k v) k = some v := by
  induction l with
  | nil => simp [dinsert, lookupA]
  | cons h t ih =>
      obtain ⟨k', v'⟩ := h
      by_cases hk : k' = k
      · simp [dinsert, hk, lookupA]
      · simp [dinsert, hk, lookupA, ih]

theorem lookupA_dinsert_ne {α : Type} (l : List (String × α)) (k k' : String) (v : α)
    (h : k' ≠ k) : lookupA (dinsert l k v) k' = lookupA l k' := by
  induction l with
  | nil =>
      simp only [dinsert, lookupA]
      rw [if_neg (fun hh => h hh.symm)]
  | cons hd t ih =>
      obtain ⟨k0, v0⟩ := hd
      by_cases hk : k0 = k
      · subst hk
        simp only [dinsert, if_pos rfl, lookupA]
        rw [if_neg (fun hh => h hh.symm), if_neg (fun hh => h hh.symm)]
      · simp only [dinsert, if_neg hk, lookupA]
        by_cases hk' : k0 = k'
        · rw [if_pos hk', if_pos hk']
        · rw [if_neg hk', if_neg hk', ih]

/-! ## Structural lemmas about the extractor traversal -/

theorem callEdgeLogic_spec (st : GState) (cur : String) (f : Expr) :
    ∃ t, callEdgeLogic st cur f = { st with edges := st.edges ++ t } := by
  cases f <;> simp only [callEdgeLogic] <;> repeat' split
  all_goals first
    | exact ⟨_, rfl⟩
    | exact ⟨[], by simp⟩

mutual
/-- Visiting an expression only appends edges. -/
theorem visitExpr_spec (st : GState) (e : Expr) :
    ∃ t, visitExpr st e = { st with edges := st.edges ++ t } := by
  cases e with
  | ename i => exact ⟨[], by simp [visitExpr]⟩
  | econst => exact ⟨[], by simp [visitExpr]⟩
  | eattr v a => simpa only [visitExpr] using visitExpr_spec st v
  | egroup es => simpa only [visitExpr] using visitExprList_spec st es
  | ecall f args =>
      cases hc : st.current with
      | none =>
          obtain ⟨t1, h1⟩ := visitExpr_spec st f
          obtain ⟨t2, h2⟩ := visitExprList_spec (visitExpr st f) args
          refine ⟨t1 ++ t2, ?_⟩
          simp only [visitExpr, hc]
          rw [h2, h1]
          simp [hc]
      | some cur =>
          obtain ⟨t0, h0⟩ := callEdgeLogic_spec st cur f
          obtain ⟨t1, h1⟩ := visitExpr_spec (callEdgeLogic st cur f) f
          obtain ⟨t2, h2⟩ := visitExprList_spec (visitExpr (callEdgeLogic st cur f) f) args
          refine ⟨t0 ++ t1 ++ t2, ?_⟩
          simp only [visitExpr, hc]
          rw [h2, h1, h0]
          simp [hc]

/-- Visiting an expression list only appends edges. -/
theorem visitExprList_spec (st : GState) (es : List Expr) :
    ∃ t, visitExprList st es = { st with edges := st.edges ++ t } := by
  cases es with
  | nil => exact ⟨[], by simp [visitExprList]⟩
  | cons e rest =>
      obtain ⟨t1, h1⟩ := visitExpr_spec st e
      obtain ⟨t2, h2⟩ := visitExprList_spec (visitExpr st e) rest
      exact ⟨t1 ++ t2, by simp only [visitExprList]; rw [h2, h1]; simp⟩
end

theorem assignBindLogic_spec (st : GState) (targets : List Target) (value : Expr) :
    ∃ m, assignBindLogic st targets value = { st with instanceMaps := m } := by
  unfold assignBindLogic
  split
  · split
    · exact ⟨_, rfl⟩
    · exact ⟨st.instanceMaps, by simp⟩
  · exact ⟨st.instanceMaps, by simp⟩

mutual
/-- Visiting a statement restores the class stack and the current
context, and only appends to the edge list. -/
theorem visitStmt_frame (st : GState) (s : Stmt) :
    (visitStmt st s).classStack = st.classStack ∧
    (visitStmt st s).current = st.current ∧
    ∃ t, (visitStmt st s).edges = st.edges ++ t := by
  cases s with
  | functionDef n b =>
      by_cases hcs : st.classStack ≠ []
      · simpa only [visitStmt, if_pos hcs] using visitStmtList_frame st b
      · obtain ⟨h1, h2, t, h3⟩ := visitStmtList_frame
          { st with
            nodeTypes := dinsert st.nodeTypes n "function"
            current := some n
            instanceMaps := dinsert st.instanceMaps n [] } b
        refine ⟨?_, ?_, t, ?_⟩ <;> simp [visitStmt, if_neg hcs, h1, h2, h3]
  | classDef n b =>
      obtain ⟨h1, h2, t, h3⟩ := visitStmtList_frame
        { st with
          nodeTypes := dinsert st.nodeTypes n "class"
          classStack := n :: st.classStack
          current := some n
          instanceMaps := dinsert st.instanceMaps n [] } b
      refine ⟨?_, ?_, t, ?_⟩ <;> simp [visitStmt, h1, h2, h3]
  | assign targets value =>
      obtain ⟨m, hm⟩ := assignBindLogic_spec st targets value
      obtain ⟨t, ht⟩ := visitExpr_spec (assignBindLogic st targets value) value
      simp only [visitStmt]
      rw [ht, hm]
      exact ⟨rfl, rfl, t, by simp⟩
  | exprStmt e =>
      obtain ⟨t, ht⟩ := visitExpr_spec st e
      simp only [visitStmt]
      rw [ht]
      exact ⟨rfl, rfl, t, rfl⟩
  | ret e =>
      obtain ⟨t, ht⟩ := visitExpr_spec st e
      simp only [visitStmt]
      rw [ht]
      exact ⟨rfl, rfl, t, rfl⟩
  | sif cond thn els =>
      obtain ⟨t0, h0⟩ := visitExpr_spec st cond
      obtain ⟨h1, h2, t1, h3⟩ := visitStmtList_frame (visitExpr st cond) thn
      obtain ⟨h4, h5, t2, h6⟩ := visitStmtList_frame (visitStmtList (visitExpr st cond) thn) els
      simp only [visitStmt]
      refine ⟨?_, ?_, t0 ++ t1 ++ t2, ?_⟩
      · rw [h4, h1, h0]
      · rw [h5, h2, h0]
      · rw [h6, h3, h0]; simp
  | sfor iter b =>
      obtain ⟨t0, h0⟩ := visitExpr_spec st iter
      obtain ⟨h1, h2, t1, h3⟩ := visitStmtList_frame (visitExpr st iter) b
      simp only [visitStmt]
      refine ⟨?_, ?_, t0 ++ t1, ?_⟩
      · rw [h1, h0]
      · rw [h2, h0]
      · rw [h3, h0]; simp
  | spass => exact ⟨rfl, rfl, [], by simp [visitStmt]⟩

/-- List version of `visitStmt_frame`. -/
theorem visitStmtList_frame (st : GState) (ss : List Stmt) :
    (visitStmtList st ss).classStack = st.classStack ∧
    (visitStmtList st ss).current = st.current ∧
    ∃ t, (visitStmtList st ss).edges = st.edges ++ t := by
  cases ss with
  | nil => exact ⟨rfl, rfl, [], by simp [visitStmtList]⟩
  | cons s rest =>
      obtain ⟨h1, h2, t1, h3⟩ := visitStmt_frame st s
      obtain ⟨h4, h5, t2, h6⟩ := visitStmtList_frame (visitStmt st s) rest
      simp only [visitStmtList]
      refine ⟨?_, ?_, t1 ++ t2, ?_⟩
      · rw [h4, h1]
      · rw [h5, h2]
      · rw [h6, h3]; simp
end

theorem visitStmtList_append (st : GState) (a b : List Stmt) :
    visitStmtList st (a ++ b) = visitStmtList (visitStmtList st a) b := by
  induction a generalizing st with
  | nil => simp [visitStmtList]
  | cons s ss ih => simp only [List.cons_append, visitStmtList]; exact ih _

/-- Edge records are never removed: membership is preserved by further
traversal. -/
theorem edges_mono_stmtList (st : GState) (ss : List Stmt) (e : String × String)
    (h : e ∈ st.edges) : e ∈ (visitStmtList st ss).edges := by
  obtain ⟨_, _, t, ht⟩ := visitStmtList_frame st ss
  rw [ht]
  exact List.mem_append_left _ h

mutual
/-- While inside a class body (nonempty class stack) no traversal step
can overwrite a `"class"` entry of the node table with `"function"`:
only `visit_ClassDef` writes (and writes `"class"`). -/
theorem visitStmt_keeps_class (st : GState) (s : Stmt) (nm : String)
    (hcs : st.classStack ≠ []) (h : lookupA st.nodeTypes nm = some "class") :
    lookupA (visitStmt st s).nodeTypes nm = some "class" := by
  cases s with
  | functionDef n b =>
      simpa only [visitStmt, if_pos hcs] using visitStmtList_keeps_class st b nm hcs h
  | classDef n b =>
      have hbody := visitStmtList_keeps_class
        { st with
          nodeTypes := dinsert st.nodeTypes n "class"
          classStack := n :: st.classStack
          current := some n
          instanceMaps := dinsert st.instanceMaps n [] } b nm (by simp) ?_
      · simpa only [visitStmt] using hbody
      · by_cases hn : nm = n
        · subst hn; simpa using lookupA_dinsert_self st.nodeTypes nm "class"
        · simpa [lookupA_dinsert_ne _ _ _ _ hn] using h
  | assign targets value =>
      obtain ⟨m, hm⟩ := assignBindLogic_spec st targets value
      obtain ⟨t, ht⟩ := visitExpr_spec (assignBindLogic st targets value) value
      simp only [visitStmt]
      rw [ht, hm]
      simpa using h
  | exprStmt e =>
      obtain ⟨t, ht⟩ := visitExpr_spec st e
      simp only [visitStmt]
      rw [ht]
      simpa using h
  | ret e =>
      obtain ⟨t, ht⟩ := visitExpr_spec st e
      simp only [visitStmt]
      rw [ht]
      simpa using h
  | sif cond thn els =>
      obtain ⟨t0, h0⟩ := visitExpr_spec st cond
      have s1 : (visitExpr st cond).classStack ≠ [] := by rw [h0]; simpa using hcs
      have s2 : lookupA (visitExpr st cond).nodeTypes nm = some "class" := by
        rw [h0]; simpa using h
      have s3 := visitStmtList_keeps_class (visitExpr st cond) thn nm s1 s2
      obtain ⟨hb1, _, _⟩ := visitStmtList_frame (visitExpr st cond) thn
      have s4 : (visitStmtList (visitExpr st cond) thn).classStack ≠ [] := by
        rw [hb1]; exact s1
      simpa only [visitStmt] using
        visitStmtList_keeps_class (visitStmtList (visitExpr st cond) thn) els nm s4 s3
  | sfor iter b =>
      obtain ⟨t0, h0⟩ := visitExpr_spec st iter
      have s1 : (visitExpr st iter).classStack ≠ [] := by rw [h0]; simpa using hcs
      have s2 : lookupA (visitExpr st iter).nodeTypes nm = some "class" := by
        rw [h0]; simpa using h
      simpa only [visitStmt] using visitStmtList_keeps_class (visitExpr st iter) b nm s1 s2
  | spass => simpa [visitStmt] using h

/-- List version of `visitStmt_keeps_class`. -/
theorem visitStmtList_keeps_class (st : GState) (ss : List Stmt) (nm : String)
    (hcs : st.classStack ≠ []) (h : lookupA st.nodeTypes nm = some "class") :
    lookupA (visitStmtList st ss).nodeTypes nm = some "class" := by
  cases ss with
  | nil => simpa [visitStmtList] using h
  | cons s rest =>
      obtain ⟨h1, _, _⟩ := visitStmt_frame st s
      have hcs' : (visitStmt st s).classStack ≠ [] := by rw [h1]; exact hcs
      simpa only [visitStmtList] using
        visitStmtList_keeps_class (visitStmt st s) rest nm hcs'
          (visitStmt_keeps_class st s nm hcs h)
end

theorem edges_mono_stmt (st : GState) (s : Stmt) (e : String × String)
    (h : e ∈ st.edges) : e ∈ (visitStmt st s).edges := by
  obtain ⟨_, _, t, ht⟩ := visitStmt_frame st s
  rw [ht]
  exact List.mem_append_left _ h

theorem edges_mono_exprList (st : GState) (es : List Expr) (e : String × String)
    (h : e ∈ st.edges) : e ∈ (visitExprList st es).edges := by
  obtain ⟨t, ht⟩ := visitExprList_spec st es
  rw [ht]
  exact List.mem_append_left _ h

/-- C9: source defining class `A` (with any method suite `cb`), followed
by a top-level function `f` whose body binds `x = A(...)` and then calls
`x.run(...)`: the extractor records the edge `(A, f)`.  Arbitrary
statements may precede, follow, or close the function body. -/
theorem extract_graph_instance_run_edge
    (pre cb rest post : List Stmt) (x : String) (cargs args : List Expr) :
    ("A", "f") ∈ extractEdges
      (pre ++ [Stmt.classDef "A" cb,
        Stmt.functionDef "f"
          (Stmt.assign [.tname x] (.ecall (.ename "A") cargs) ::
           Stmt.exprStmt (.ecall (.eattr (.ename x) "run") args) :: rest)] ++ post) := by
  unfold extractEdges buildGraph
  rw [visitStmtList_append, visitStmtList_append]
  apply edges_mono_stmtList
  -- state after the arbitrary prefix
  have hfr0 := visitStmtList_frame initGState pre
  set st0 := visitStmtList initGState pre with hst0
  have hstk0 : st0.classStack = [] := hfr0.1
  have hcur0 : st0.current = none := hfr0.2.1
  -- the class definition registers A as "class" and that entry survives cb
  set stA := visitStmt st0 (Stmt.classDef "A" cb) with hstA
  have hfrA := visitStmt_frame st0 (Stmt.classDef "A" cb)
  have hstkA : stA.classStack = [] := by rw [hstA, hfrA.1]; exact hstk0
  have hcurA : stA.current = none := by rw [hstA, hfrA.2.1]; exact hcur0
  have hA : lookupA stA.nodeTypes "A" = some "class" := by
    rw [hstA]
    simp only [visitStmt]
    apply visitStmtList_keeps_class
    · simp
    · simpa using lookupA_dinsert_self st0.nodeTypes "A" "class"
  -- enter the function definition
  simp only [visitStmtList, ← hstA]
  have hne : ¬ (stA.classStack ≠ []) := by rw [hstkA]; simp
  simp only [visitStmt, if_neg hne]
  set stf1 : GState := { stA with
    nodeTypes := dinsert stA.nodeTypes "f" "function"
    current := some "f"
    instanceMaps := dinsert stA.instanceMaps "f" [] } with hstf1
  -- the binding assignment records the edge through its constructor call
  simp only [visitStmtList]
  apply edges_mono_stmtList
  apply edges_mono_stmt
  obtain ⟨m, hm⟩ := assignBindLogic_spec stf1 [Target.tname x] (.ecall (.ename "A") cargs)
  simp only [visitStmt]
  set stb := assignBindLogic stf1 [Target.tname x] (.ecall (.ename "A") cargs) with hstb
  have hcurb : stb.current = some "f" := by rw [hm]
  have hlook : lookupA stb.nodeTypes "A" = some "class" := by
    rw [hm]
    show lookupA (dinsert stA.nodeTypes "f" "function") "A" = some "class"
    rw [lookupA_dinsert_ne _ _ _ _ (by decide)]
    exact hA
  simp only [visitExpr, hcurb]
  apply edges_mono_exprList
  have hcall : callEdgeLogic stb "f" (.ename "A") =
      { stb with edges := stb.edges ++ [("A", "f")] } := by
    simp [callEdgeLogic, hlook]
  simp only [visitExpr, hcall]
  simp

/-! ## C4: error behavior of the extractor on unparseable input -/

/-- C4 (counterexample): on an unparseable source text `extract_graph`
propagates the parse error instead of returning a (nodes, edges) result;
in particular it does not return an empty graph. -/
theorem extract_graph_raises_on_bad_input :
    extract_graph [Line.bad] = .error .syntaxError := by rfl

/-- C4 (amended): `extract_graph` is `ast.parse` followed by the graph
walk: a parse failure is surfaced to the caller unchanged (never turned
into an `.ok` result, in particular never into an empty graph), and every
parseable input yields a (nodes, edges) result. -/
theorem extract_graph_eq_parse_then_build (s : SourceText) :
    extract_graph s = (ast_parse s).map (fun tree => (extractNodes tree, extractEdges tree)) := by
  unfold extract_graph
  cases ast_parse s <;> rfl

/-! ## C5: unsupported topology modes -/

/-- C5 (counterexample): the unsupported mode `"hexagon"` is not
rejected; `build_adjacency_list` silently runs the random-DAG
construction (here: the same adjacency as mode `"random"`, with all
random coin draws landing true under the all-zeros oracle). -/
theorem build_adjacency_list_hexagon_is_random :
    build_adjacency_list 3 "hexagon" 0 rng0 0 = build_adjacency_list 3 "random" 0 rng0 0 ∧
    (build_adjacency_list 3 "hexagon" 0 rng0 0).1 = [[], [0], [0, 1]] := by
  constructor <;> rfl

/-- C5 (amended): `build_adjacency_list` never fails on an unsupported
topology mode: any mode other than `"chain"` and `"branch"` falls into
the final `else` branch and silently produces the `"random"`-mode
topology. -/
theorem build_adjacency_list_default_mode (num conn : Nat) (r : Rng) (k : Nat)
    (mode : String) (h1 : mode ≠ "chain") (h2 : mode ≠ "branch") :
    build_adjacency_list num mode conn r k = build_adjacency_list num "random" conn r k := by
  unfold build_adjacency_list
  rw [if_neg h1, if_neg h2, if_neg (by decide : ¬ ("random" : String) = "chain"),
    if_neg (by decide : ¬ ("random" : String) = "branch")]

/-- C5 (witness for the amended theorem). -/
theorem build_adjacency_list_default_mode_witness :
    ("hexagon" : String) ≠ "chain" ∧ ("hexagon" : String) ≠ "branch" ∧
    build_adjacency_list 5 "hexagon" 1 rng0 7 = build_adjacency_list 5 "random" 1 rng0 7 :=
  ⟨by decide, by decide,
    build_adjacency_list_default_mode 5 1 rng0 7 "hexagon" (by decide) (by decide)⟩

/-! ## C8: the branch-mode sink -/

theorem addParent_length (a : List (List Nat)) (c p : Nat) :
    (addParent a c p).length = a.length := by
  simp [addParent]

theorem getD_addParent_self (a : List (List Nat)) (c p : Nat) (h : c < a.length) :
    (addParent a c p).getD c [] = a.getD c [] ++ [p] := by
  simp [addParent, List.getD, List.getElem?_set_self', h]

theorem getD_addParent_ne (a : List (List Nat)) (c c' p : Nat) (h : c ≠ c') :
    (addParent a c p).getD c' [] = a.getD c' [] := by
  simp [addParent, List.getD, List.getElem?_set_ne h]

/-- The final branch-mode loop preserves the length of the adjacency. -/
theorem ensure_fold_length (fin : Nat) (js : List Nat) (l : List (List Nat)) :
    (js.foldl (fun a i => if i ∈ a.getD fin [] then a else addParent a fin i) l).length
      = l.length := by
  induction js generalizing l with
  | nil => rfl
  | cons j js ih =>
      simp only [List.foldl_cons]
      rw [ih]
      split <;> simp [addParent_length]

/-- Membership in the final node's parent list is stable under the
ensure-loop. -/
theorem ensure_fold_mono (fin : Nat) (js : List Nat) (l : List (List Nat)) (x : Nat)
    (hx : x ∈ l.getD fin []) :
    x ∈ (js.foldl (fun a i => if i ∈ a.getD fin [] then a else addParent a fin i) l).getD fin [] := by
  induction js generalizing l with
  | nil => exact hx
  | cons j js ih =>
      simp only [List.foldl_cons]
      apply ih
      split
      · exact hx
      · by_cases hfin : fin < l.length
        · rw [getD_addParent_self _ _ _ hfin]
          exact List.mem_append_left _ hx
        · have hle : l.length ≤ fin := by omega
          unfold addParent
          rw [List.set_eq_of_length_le hle]
          exact hx

/-- Every processed index ends up in the final node's parent list
(provided the index is in range, which the branch construction
guarantees). -/
theorem ensure_fold_covers (fin : Nat) (js : List Nat) (l : List (List Nat))
    (hfin : fin < l.length) (j : Nat) (hj : j ∈ js) :
    j ∈ (js.foldl (fun a i => if i ∈ a.getD fin [] then a else addParent a fin i) l).getD fin [] := by
  induction js generalizing l with
  | nil => cases hj
  | cons j0 js ih =>
      simp only [List.foldl_cons]
      rcases List.mem_cons.mp hj with hj0 | hjs
      · subst hj0
        apply ensure_fold_mono
        split
        · assumption
        · rw [getD_addParent_self _ _ _ hfin]
          exact List.mem_append_right _ (by simp)
      · refine ih _ ?_ hjs
        split
        · exact hfin
        · rw [addParent_length]; exact hfin

/-- The intermediate-node loop of the branch construction preserves the
adjacency length. -/
theorem inter_fold_length (r : Rng) (js : List Nat) (p : List (List Nat) × Nat) :
    ((js.foldl (fun (q : List (List Nat) × Nat) i =>
        let (par, k') := r.randint q.2 0 (i - 1)
        (addParent q.1 i par, k')) p).1).length = p.1.length := by
  induction js generalizing p with
  | nil => rfl
  | cons j js ih => simp only [List.foldl_cons]; rw [ih]; simp [addParent_length]

/-- C8: in branch mode with `N ≥ 4`, the final node's parent list
produced by `build_adjacency_list` (before any pruning) contains every
index `0 .. N-2`. -/
theorem branch_final_node_has_all_parents (num conn : Nat) (r : Rng) (k : Nat)
    (h4 : 4 ≤ num) (j : Nat) (hj : j < num - 1) :
    j ∈ ((build_adjacency_list num "branch" conn r k).1.getD (num - 1) []) := by
  unfold build_adjacency_list
  rw [if_neg (by decide : ¬ ("branch" : String) = "chain"), if_pos rfl,
    if_neg (by omega : ¬ num < 4)]
  apply ensure_fold_covers
  · rw [inter_fold_length]
    split <;> split <;> simp only [addParent_length, List.length_replicate] <;> omega
  · exact List.mem_range.mpr hj

/-- C8 (witness): at `N = 5` every index `0..3` is a parent of node 4. -/
theorem branch_final_node_has_all_parents_witness :
    4 ≤ 5 ∧ (3 : Nat) < 5 - 1 ∧
    3 ∈ ((build_adjacency_list 5 "branch" 0 rng0 0).1.getD (5 - 1) []) :=
  ⟨by decide, by decide, branch_final_node_has_all_parents 5 0 rng0 0 (by decide) 3 (by decide)⟩

/-! ## The mutation engine: exhausted budget is the identity -/

theorem decideRw_at_limit (r : Rng) (pool : List String) (limit : Nat) (f : Expr)
    (made rk : Nat) (h : limit ≤ made) :
    decideRw r pool limit f made rk = (none, made, rk) := by
  unfold decideRw
  rw [if_pos h]

mutual
theorem rwExpr_at_limit (r : Rng) (pool : List String) (limit : Nat) (e : Expr)
    (made rk : Nat) (h : limit ≤ made) :
    rwExpr r pool limit e made rk = (e, made, rk) := by
  cases e with
  | ename i => rfl
  | econst => rfl
  | eattr v a => simp [rwExpr, rwExpr_at_limit r pool limit v made rk h]
  | egroup es => simp [rwExpr, rwExprList_at_limit r pool limit es made rk h]
  | ecall f args =>
      simp [rwExpr, decideRw_at_limit r pool limit f made rk h,
        rwExpr_at_limit r pool limit f made rk h,
        rwExprList_at_limit r pool limit args made rk h]

theorem rwExprList_at_limit (r : Rng) (pool : List String) (limit : Nat)
    (es : List Expr) (made rk : Nat) (h : limit ≤ made) :
    rwExprList r pool limit es made rk = (es, made, rk) := by
  cases es with
  | nil => rfl
  | cons e rest =>
      simp [rwExprList, rwExpr_at_limit r pool limit e made rk h,
        rwExprList_at_limit r pool limit rest made rk h]
end

mutual
theorem rwStmt_at_limit (r : Rng) (pool : List String) (limit : Nat) (s : Stmt)
    (made rk : Nat) (h : limit ≤ made) :
    rwStmt r pool limit s made rk = (s, made, rk) := by
  cases s with
  | functionDef n b => simp [rwStmt, rwStmtList_at_limit r pool limit b made rk h]
  | classDef n b => simp [rwStmt, rwStmtList_at_limit r pool limit b made rk h]
  | assign t v => simp [rwStmt, rwExpr_at_limit r pool limit v made rk h]
  | exprStmt e => simp [rwStmt, rwExpr_at_limit r pool limit e made rk h]
  | ret e => simp [rwStmt, rwExpr_at_limit r pool limit e made rk h]
  | sif c t e =>
      simp [rwStmt, rwExpr_at_limit r pool limit c made rk h,
        rwStmtList_at_limit r pool limit t made rk h,
        rwStmtList_at_limit r pool limit e made rk h]
  | sfor it b =>
      simp [rwStmt, rwExpr_at_limit r pool limit it made rk h,
        rwStmtList_at_limit r pool limit b made rk h]
  | spass => rfl

theorem rwStmtList_at_limit (r : Rng) (pool : List String) (limit : Nat)
    (ss : List Stmt) (made rk : Nat) (h : limit ≤ made) :
    rwStmtList r pool limit ss made rk = (ss, made, rk) := by
  cases ss with
  | nil => rfl
  | cons s rest =>
      simp [rwStmtList, rwStmt_at_limit r pool limit s made rk h,
        rwStmtList_at_limit r pool limit rest made rk h]
end

/-- Re-parsing emitted code recovers the tree (`ast.unparse` output is
valid source). -/
theorem ast_parse_unparse (tree : List Stmt) : ast_parse (ast_unparse tree) = .ok tree := by
  unfold ast_parse ast_unparse
  rw [if_neg]
  · congr 1
    induction tree with
    | nil => rfl
    | cons s ss ih => simp only [List.map_cons, List.filterMap_cons]; rw [ih]
  · simp

/-- C7 (amended): requesting zero changes never rewrites anything — the
applied count is 0 and the returned text parses to exactly the input's
AST. (The exact input text is returned only on the fewer-than-two-
candidates path; otherwise the text is re-serialized by `ast.unparse`,
which drops comments and formatting.) -/
theorem modify_codebase_zero_changes (s : SourceText) (r : Rng) (rk : Nat)
    (t : SourceText) (c : Nat) (h : modify_codebase s 0 r rk = .ok (t, c)) :
    c = 0 ∧ ast_parse t = ast_parse s := by
  unfold modify_codebase at h
  cases hp : ast_parse s with
  | error e => rw [hp] at h; cases h
  | ok tree =>
      rw [hp] at h
      by_cases hpool : (candPool tree).length < 2
      · simp only [if_pos hpool, Except.ok.injEq, Prod.mk.injEq] at h
        exact ⟨h.2.symm, by rw [← h.1]; exact hp⟩
      · simp only [if_neg hpool,
          rwStmtList_at_limit r (candPool tree) 0 tree 0 rk (le_refl 0),
          Except.ok.injEq, Prod.mk.injEq] at h
        exact ⟨h.2.symm, by rw [← h.1, ast_parse_unparse]⟩

/-- Concrete input for the C7 analysis: two candidate functions and a
comment line. -/
def commentedSource : SourceText :=
  [.code (.functionDef "f" [.ret (.ename "x")]),
   .code (.functionDef "g" [.ret (.ename "x")]),
   .comment]

/-- Concrete output of `modify_codebase commentedSource 0`: the comment
line is gone. -/
def commentedSourceOut : SourceText :=
  [.code (.functionDef "f" [.ret (.ename "x")]),
   .code (.functionDef "g" [.ret (.ename "x")])]

/-- C7 (counterexample): with `k = 0` the returned text is NOT the input
text — `ast.unparse` re-serializes the parsed tree, dropping the comment
line — although the applied count is 0. -/
theorem modify_codebase_k0_changes_text :
    modify_codebase commentedSource 0 rng0 0 = .ok (commentedSourceOut, 0) ∧
    commentedSourceOut ≠ commentedSource := by
  refine ⟨by rfl, fun h => ?_⟩
  have := congrArg List.length h
  simp [commentedSource, commentedSourceOut] at this

/-- C7 (witness for the amended theorem). -/
theorem modify_codebase_zero_changes_witness :
    modify_codebase commentedSource 0 rng0 0 = .ok (commentedSourceOut, 0) ∧
    ((0 : Nat) = 0 ∧ ast_parse commentedSourceOut = ast_parse commentedSource) :=
  ⟨by rfl, modify_codebase_zero_changes commentedSource rng0 0 commentedSourceOut 0 (by rfl)⟩

/-! ## The mutation engine: counting and safety -/

mutual
/-- Number of qualifying call sites (bare-name calls to a pool function)
in an expression, in traversal order. -/
def qualCount (pool : List String) : Expr → Nat
  | .ename _ => 0
  | .econst => 0
  | .eattr v _ => qualCount pool v
  | .egroup es => qualCountList pool es
  | .ecall f args =>
      (match f with | .ename id => if id ∈ pool then 1 else 0 | _ => 0) +
        qualCount pool f + qualCountList pool args

/-- Qualifying call sites in an expression list. -/
def qualCountList (pool : List String) : List Expr → Nat
  | [] => 0
  | e :: es => qualCount pool e + qualCountList pool es
end

mutual
/-- Qualifying call sites in a statement. -/
def qualCountStmt (pool : List String) : Stmt → Nat
  | .functionDef _ b => qualCountStmtList pool b
  | .classDef _ b => qualCountStmtList pool b
  | .assign _ v => qualCount pool v
  | .exprStmt e => qualCount pool e
  | .ret e => qualCount pool e
  | .sif c t e => qualCount pool c + qualCountStmtList pool t + qualCountStmtList pool e
  | .sfor it b => qualCount pool it + qualCountStmtList pool b
  | .spass => 0

/-- Qualifying call sites in a statement list. -/
def qualCountStmtList (pool : List String) : List Stmt → Nat
  | [] => 0
  | s :: ss => qualCountStmt pool s + qualCountStmtList pool ss
end

mutual
/-- The target names of all bare-name call expressions. -/
def bareCallees : Expr → List String
  | .ename _ => []
  | .econst => []
  | .eattr v _ => bareCallees v
  | .egroup es => bareCalleesList es
  | .ecall f args =>
      (match f with | .ename id => [id] | _ => []) ++ bareCallees f ++ bareCalleesList args

/-- Bare-name call targets of an expression list. -/
def bareCalleesList : List Expr → List String
  | [] => []
  | e :: es => bareCallees e ++ bareCalleesList es
end

mutual
/-- Bare-name call targets inside a statement. -/
def bareCalleesStmt : Stmt → List String
  | .functionDef _ b => bareCalleesStmtList b
  | .classDef _ b => bareCalleesStmtList b
  | .assign _ v => bareCallees v
  | .exprStmt e => bareCallees e
  | .ret e => bareCallees e
  | .sif c t e => bareCallees c ++ bareCalleesStmtList t ++ bareCalleesStmtList e
  | .sfor it b => bareCallees it ++ bareCalleesStmtList b
  | .spass => []

/-- Bare-name call targets of a statement list. -/
def bareCalleesStmtList : List Stmt → List String
  | [] => []
  | s :: ss => bareCalleesStmt s ++ bareCalleesStmtList ss
end

mutual
/-- `FunctionCollector` never collects the reserved entry-method name. -/
theorem run_notin_collectCand (inClass : Nat) (s : Stmt) :
    "run" ∉ collectCand inClass s := by
  cases s with
  | functionDef n b =>
      simp only [collectCand, List.mem_append]
      rintro (hmem | hmem)
      · split at hmem
        · next hcond => exact hcond.2.2 (List.mem_singleton.mp hmem).symm
        · cases hmem
      · exact run_notin_collectCandList inClass b hmem
  | classDef n b => exact run_notin_collectCandList (inClass + 1) b
  | assign t v => simp [collectCand]
  | exprStmt e => simp [collectCand]
  | ret e => simp [collectCand]
  | sif c t e =>
      simp only [collectCand, List.mem_append]
      rintro (hmem | hmem)
      · exact run_notin_collectCandList inClass t hmem
      · exact run_notin_collectCandList inClass e hmem
  | sfor it b => exact run_notin_collectCandList inClass b
  | spass => simp [collectCand]

/-- List version of `run_notin_collectCand`. -/
theorem run_notin_collectCandList (inClass : Nat) (ss : List Stmt) :
    "run" ∉ collectCandList inClass ss := by
  cases ss with
  | nil => simp [collectCandList]
  | cons s rest =>
      simp only [collectCandList, List.mem_append]
      rintro (hmem | hmem)
      · exact run_notin_collectCand inClass s hmem
      · exact run_notin_collectCandList inClass rest hmem
end

/-- The candidate pool never contains `"run"`. -/
theorem run_notin_candPool (tree : List Stmt) : "run" ∉ candPool tree := by
  unfold candPool
  intro h
  exact run_notin_collectCandList 0 tree (List.mem_dedup.mp h)

/-- With at least two distinct pool members, the replacement-choice list
for a qualifying call is nonempty. -/
theorem choices_not_empty (pool : List String) (id : String)
    (hid : id ∈ pool) (h2 : 2 ≤ pool.length) (hnd : pool.Nodup) :
    (pool.filter (· ≠ id)).isEmpty = false := by
  rw [List.isEmpty_eq_false_iff_exists_mem]
  match pool, h2 with
  | a :: b :: rest, _ =>
      have hab : a ≠ b := by
        intro hh
        exact (List.nodup_cons.mp hnd).1 (hh ▸ List.mem_cons_self a _)
      by_cases ha : a = id
      · exact ⟨b, List.mem_filter.mpr ⟨by simp, by simp [ha ▸ hab.symm]⟩⟩
      · exact ⟨a, List.mem_filter.mpr ⟨by simp, by simp [ha]⟩⟩

/-- Characterization of the rewrite decision: either no rewrite (state
unchanged), or the call was a qualifying bare-name call with budget left,
and the new target is a different pool member. -/
theorem decideRw_cases (r : Rng) (pool : List String) (limit : Nat) (f : Expr)
    (made rk : Nat) :
    decideRw r pool limit f made rk = (none, made, rk) ∨
    ∃ id nid, f = .ename id ∧ id ∈ pool ∧ nid ∈ pool ∧ nid ≠ id ∧ made < limit ∧
      decideRw r pool limit f made rk = (some nid, made + 1, rk + 1) := by
  unfold decideRw
  by_cases hlim : made ≥ limit
  · left; rw [if_pos hlim]
  · rw [if_neg hlim]
    cases f with
    | ename id =>
        by_cases hid : id ∈ pool
        · simp only [if_pos hid]
          by_cases hemp : (pool.filter (· ≠ id)).isEmpty
          · left; rw [if_pos hemp]
          · rw [if_neg hemp]
            right
            have hnil : pool.filter (· ≠ id) ≠ [] := fun hn => hemp (by rw [hn]; rfl)
            have hlen : 0 < (pool.filter (· ≠ id)).length := List.length_pos.mpr hnil
            have hidx : r.stream rk % (pool.filter (· ≠ id)).length <
                (pool.filter (· ≠ id)).length := Nat.mod_lt _ hlen
            have hmem : (pool.filter (· ≠ id)).getD
                (r.stream rk % (pool.filter (· ≠ id)).length) "" ∈ pool.filter (· ≠ id) := by
              rw [List.getD_eq_getElem _ _ hidx]
              exact List.getElem_mem _
            refine ⟨id, _, rfl, hid, (List.mem_filter.mp hmem).1, ?_, by omega, rfl⟩
            have := (List.mem_filter.mp hmem).2
            simpa using this
        · left; simp only [if_neg hid]
    | ecall g as => left; rfl
    | eattr v a => left; rfl
    | econst => left; rfl
    | egroup es => left; rfl

/-- Chaining two budget-limited batches uses exactly
`min (limit - made) (a + b)` of the budget. -/
theorem min_budget_chain (made limit a b : Nat) (h : made ≤ limit) :
    made + min (limit - made) a + min (limit - (made + min (limit - made) a)) b
      = made + min (limit - made) (a + b) := by omega

mutual
/-- The rewriter applies exactly `min (remaining budget) (number of
qualifying call sites)` changes on an expression. -/
theorem rwExpr_made (r : Rng) (pool : List String) (limit : Nat)
    (h2 : 2 ≤ pool.length) (hnd : pool.Nodup) (e : Expr) :
    ∀ (made rk : Nat) (e' : Expr) (m' k' : Nat), made ≤ limit →
      rwExpr r pool limit e made rk = (e', m', k') →
      m' = made + min (limit - made) (qualCount pool e) := by
  cases e with
  | ename i =>
      intro made rk e' m' k' hm h
      simp only [rwExpr, Prod.mk.injEq] at h
      simp [qualCount, ← h.2.1]
  | econst =>
      intro made rk e' m' k' hm h
      simp only [rwExpr, Prod.mk.injEq] at h
      simp [qualCount, ← h.2.1]
  | eattr v a =>
      intro made rk e' m' k' hm h
      rcases hv : rwExpr r pool limit v made rk with ⟨v1, mv, kv⟩
      simp only [rwExpr, hv, Prod.mk.injEq] at h
      rw [← h.2.1]
      exact rwExpr_made r pool limit h2 hnd v made rk v1 mv kv hm hv
  | egroup es =>
      intro made rk e' m' k' hm h
      rcases hes : rwExprList r pool limit es made rk with ⟨es1, ms, ks⟩
      simp only [rwExpr, hes, Prod.mk.injEq] at h
      rw [← h.2.1]
      exact rwExprList_made r pool limit h2 hnd es made rk es1 ms ks hm hes
  | ecall f args =>
      intro made rk e' m' k' hm h
      rcases decideRw_cases r pool limit f made rk with hd | ⟨id, nid, hfeq, hid, _, _, hlt, hd⟩
      · -- no rewrite at this node
        rcases hf : rwExpr r pool limit f made rk with ⟨f1, m2, k2⟩
        rcases ha : rwExprList r pool limit args m2 k2 with ⟨args1, m3, k3⟩
        simp only [rwExpr, hd, hf, ha, Prod.mk.injEq] at h
        have ihf := rwExpr_made r pool limit h2 hnd f made rk f1 m2 k2 hm hf
        have hm2 : m2 ≤ limit := by omega
        have iha := rwExprList_made r pool limit h2 hnd args m2 k2 args1 m3 k3 hm2 ha
        by_cases hlim : limit ≤ made
        · rw [← h.2.1]
          simp only [qualCount]
          omega
        · have hq0 : (match f with
              | .ename id => if id ∈ pool then 1 else 0
              | _ => 0) = 0 := by
            cases f with
            | ename id =>
                by_cases hidp : id ∈ pool
                · exfalso
                  have hemp := choices_not_empty pool id hidp h2 hnd
                  unfold decideRw at hd
                  rw [if_neg (show ¬ made ≥ limit by omega)] at hd
                  simp [if_pos hidp, hemp] at hd
                  rw [List.isEmpty_eq_false_iff_exists_mem] at hemp
                  obtain ⟨x, hx⟩ := hemp
                  have hxp := List.mem_filter.mp hx
                  exact (show x ≠ id by simpa using hxp.2) (hd x hxp.1)
                · simp [hidp]
            | ecall g as => rfl
            | eattr v a => rfl
            | econst => rfl
            | egroup es => rfl
          rw [← h.2.1]
          simp only [qualCount, hq0]
          have := min_budget_chain made limit (qualCount pool f) (qualCountList pool args) hm
          omega
      · -- this call is rewritten
        subst hfeq
        rcases ha : rwExprList r pool limit args (made + 1) (rk + 1) with ⟨args1, m3, k3⟩
        have hfid : rwExpr r pool limit (.ename id) (made + 1) (rk + 1)
            = (.ename id, made + 1, rk + 1) := rfl
        simp only [rwExpr, hd, hfid, ha, Prod.mk.injEq] at h
        have iha := rwExprList_made r pool limit h2 hnd args (made + 1) (rk + 1)
          args1 m3 k3 (by omega) ha
        rw [← h.2.1]
        simp only [qualCount, if_pos hid]
        omega

/-- List version of `rwExpr_made`. -/
theorem rwExprList_made (r : Rng) (pool : List String) (limit : Nat)
    (h2 : 2 ≤ pool.length) (hnd : pool.Nodup) (es : List Expr) :
    ∀ (made rk : Nat) (es' : List Expr) (m' k' : Nat), made ≤ limit →
      rwExprList r pool limit es made rk = (es', m', k') →
      m' = made + min (limit - made) (qualCountList pool es) := by
  cases es with
  | nil =>
      intro made rk es' m' k' hm h
      simp only [rwExprList, Prod.mk.injEq] at h
      simp [qualCountList, ← h.2.1]
  | cons e rest =>
      intro made rk es' m' k' hm h
      rcases he : rwExpr r pool limit e made rk with ⟨e1, m1, k1⟩
      rcases hrest : rwExprList r pool limit rest m1 k1 with ⟨rest1, m2, k2⟩
      simp only [rwExprList, he, hrest, Prod.mk.injEq] at h
      have ihe := rwExpr_made r pool limit h2 hnd e made rk e1 m1 k1 hm he
      have ihrest := rwExprList_made r pool limit h2 hnd rest m1 k1 rest1 m2 k2 (by omega) hrest
      rw [← h.2.1]
      simp only [qualCountList]
      have := min_budget_chain made limit (qualCount pool e) (qualCountList pool rest) hm
      omega
end

mutual
/-- Statement version of `rwExpr_made`. -/
theorem rwStmt_made (r : Rng) (pool : List String) (limit : Nat)
    (h2 : 2 ≤ pool.length) (hnd : pool.Nodup) (s : Stmt) :
    ∀ (made rk : Nat) (s' : Stmt) (m' k' : Nat), made ≤ limit →
      rwStmt r pool limit s made rk = (s', m', k') →
      m' = made + min (limit - made) (qualCountStmt pool s) := by
  cases s with
  | functionDef n b =>
      intro made rk s' m' k' hm h
      rcases hb : rwStmtList r pool limit b made rk with ⟨b1, m1, k1⟩
      simp only [rwStmt, hb, Prod.mk.injEq] at h
      rw [← h.2.1]
      exact rwStmtList_made r pool limit h2 hnd b made rk b1 m1 k1 hm hb
  | classDef n b =>
      intro made rk s' m' k' hm h
      rcases hb : rwStmtList r pool limit b made rk with ⟨b1, m1, k1⟩
      simp only [rwStmt, hb, Prod.mk.injEq] at h
      rw [← h.2.1]
      exact rwStmtList_made r pool limit h2 hnd b made rk b1 m1 k1 hm hb
  | assign t v =>
      intro made rk s' m' k' hm h
      rcases hv : rwExpr r pool limit v made rk with ⟨v1, m1, k1⟩
      simp only [rwStmt, hv, Prod.mk.injEq] at h
      rw [← h.2.1]
      exact rwExpr_made r pool limit h2 hnd v made rk v1 m1 k1 hm hv
  | exprStmt e =>
      intro made rk s' m' k' hm h
      rcases he : rwExpr r pool limit e made rk with ⟨e1, m1, k1⟩
      simp only [rwStmt, he, Prod.mk.injEq] at h
      rw [← h.2.1]
      exact rwExpr_made r pool limit h2 hnd e made rk e1 m1 k1 hm he
  | ret e =>
      intro made rk s' m' k' hm h
      rcases he : rwExpr r pool limit e made rk with ⟨e1, m1, k1⟩
      simp only [rwStmt, he, Prod.mk.injEq] at h
      rw [← h.2.1]
      exact rwExpr_made r pool limit h2 hnd e made rk e1 m1 k1 hm he
  | sif c t e =>
      intro made rk s' m' k' hm h
      rcases hc : rwExpr r pool limit c made rk with ⟨c1, m1, k1⟩
      rcases ht : rwStmtList r pool limit t m1 k1 with ⟨t1, m2, k2⟩
      rcases he : rwStmtList r pool limit e m2 k2 with ⟨e1, m3, k3⟩
      simp only [rwStmt, hc, ht, he, Prod.mk.injEq] at h
      have ihc := rwExpr_made r pool limit h2 hnd c made rk c1 m1 k1 hm hc
      have iht := rwStmtList_made r pool limit h2 hnd t m1 k1 t1 m2 k2 (by omega) ht
      have ihe := rwStmtList_made r pool limit h2 hnd e m2 k2 e1 m3 k3 (by omega) he
      rw [← h.2.1]
      simp only [qualCountStmt]
      omega
  | sfor it b =>
      intro made rk s' m' k' hm h
      rcases hit : rwExpr r pool limit it made rk with ⟨it1, m1, k1⟩
      rcases hb : rwStmtList r pool limit b m1 k1 with ⟨b1, m2, k2⟩
      simp only [rwStmt, hit, hb, Prod.mk.injEq] at h
      have ihit := rwExpr_made r pool limit h2 hnd it made rk it1 m1 k1 hm hit
      have ihb := rwStmtList_made r pool limit h2 hnd b m1 k1 b1 m2 k2 (by omega) hb
      rw [← h.2.1]
      simp only [qualCountStmt]
      omega
  | spass =>
      intro made rk s' m' k' hm h
      simp only [rwStmt, Prod.mk.injEq] at h
      simp [qualCountStmt, ← h.2.1]

/-- Statement-list version of `rwExpr_made`. -/
theorem rwStmtList_made (r : Rng) (pool : List String) (limit : Nat)
    (h2 : 2 ≤ pool.length) (hnd : pool.Nodup) (ss : List Stmt) :
    ∀ (made rk : Nat) (ss' : List Stmt) (m' k' : Nat), made ≤ limit →
      rwStmtList r pool limit ss made rk = (ss', m', k') →
      m' = made + min (limit - made) (qualCountStmtList pool ss) := by
  cases ss with
  | nil =>
      intro made rk ss' m' k' hm h
      simp only [rwStmtList, Prod.mk.injEq] at h
      simp [qualCountStmtList, ← h.2.1]
  | cons s rest =>
      intro made rk ss' m' k' hm h
      rcases hs : rwStmt r pool limit s made rk with ⟨s1, m1, k1⟩
      rcases hrest : rwStmtList r pool limit rest m1 k1 with ⟨rest1, m2, k2⟩
      simp only [rwStmtList, hs, hrest, Prod.mk.injEq] at h
      have ihs := rwStmt_made r pool limit h2 hnd s made rk s1 m1 k1 hm hs
      have ihrest := rwStmtList_made r pool limit h2 hnd rest m1 k1 rest1 m2 k2 (by omega) hrest
      rw [← h.2.1]
      simp only [qualCountStmtList]
      have := min_budget_chain made limit (qualCountStmt pool s) (qualCountStmtList pool rest) hm
      omega
end

mutual
/-- Every bare-call target of a rewritten expression is a bare-call
target of the original or a pool member. -/
theorem rwExpr_callees (r : Rng) (pool : List String) (limit : Nat) (e : Expr) :
    ∀ (made rk : Nat) (e' : Expr) (m' k' : Nat) (x : String),
      rwExpr r pool limit e made rk = (e', m', k') →
      x ∈ bareCallees e' → x ∈ bareCallees e ∨ x ∈ pool := by
  cases e with
  | ename i =>
      intro made rk e' m' k' x h hx
      simp only [rwExpr, Prod.mk.injEq] at h
      rw [← h.1] at hx
      exact Or.inl hx
  | econst =>
      intro made rk e' m' k' x h hx
      simp only [rwExpr, Prod.mk.injEq] at h
      rw [← h.1] at hx
      exact Or.inl hx
  | eattr v a =>
      intro made rk e' m' k' x h hx
      rcases hv : rwExpr r pool limit v made rk with ⟨v1, m1, k1⟩
      simp only [rwExpr, hv, Prod.mk.injEq] at h
      rw [← h.1] at hx
      exact rwExpr_callees r pool limit v made rk v1 m1 k1 x hv hx
  | egroup es =>
      intro made rk e' m' k' x h hx
      rcases hes : rwExprList r pool limit es made rk with ⟨es1, m1, k1⟩
      simp only [rwExpr, hes, Prod.mk.injEq] at h
      rw [← h.1] at hx
      exact rwExprList_callees r pool limit es made rk es1 m1 k1 x hes hx
  | ecall f args =>
      intro made rk e' m' k' x h hx
      rcases decideRw_cases r pool limit f made rk with hd | ⟨id, nid, hfeq, hid, hnid, hne, hlt, hd⟩
      · -- not rewritten at this node
        rcases hf : rwExpr r pool limit f made rk with ⟨f1, m2, k2⟩
        rcases ha : rwExprList r pool limit args m2 k2 with ⟨args1, m3, k3⟩
        simp only [rwExpr, hd, hf, ha, Prod.mk.injEq] at h
        rw [← h.1] at hx
        simp only [bareCallees, List.mem_append] at hx
        rcases hx with (hx | hx) | hx
        · -- head-callee of the result: f1 has the same constructor as f
          cases f with
          | ename i0 =>
              have hfe : rwExpr r pool limit (.ename i0) made rk = (.ename i0, made, rk) := rfl
              rw [hfe] at hf
              obtain ⟨hgf, -⟩ := Prod.mk.injEq .. ▸ hf
              rw [← hgf] at hx
              left
              simp only [bareCallees, List.mem_append]
              exact Or.inl (Or.inl hx)
          | ecall g as =>
              rcases hdg : decideRw r pool limit g made rk with ⟨dg, mdg, kdg⟩
              rcases hgg : rwExpr r pool limit g mdg kdg with ⟨g2, m4, k4⟩
              rcases has : rwExprList r pool limit as m4 k4 with ⟨as2, m5, k5⟩
              simp only [rwExpr, hdg, hgg, has, Prod.mk.injEq] at hf
              have : ∃ g3 as3, f1 = Expr.ecall g3 as3 := by
                rcases dg with _ | nid2
                · exact ⟨g2, as2, by rw [← hf.1]⟩
                · exact ⟨.ename nid2, as2, by rw [← hf.1]⟩
              obtain ⟨g3, as3, hg1⟩ := this
              rw [hg1] at hx
              cases hx
          | eattr v a =>
              rcases hv : rwExpr r pool limit v made rk with ⟨v1, m4, k4⟩
              have hfe : rwExpr r pool limit (Expr.eattr v a) made rk = (.eattr v1 a, m4, k4) := by
                simp only [rwExpr, hv]
              rw [hfe] at hf
              obtain ⟨hgf, -⟩ := Prod.mk.injEq .. ▸ hf
              rw [← hgf] at hx
              cases hx
          | econst =>
              have hfe : rwExpr r pool limit Expr.econst made rk = (.econst, made, rk) := rfl
              rw [hfe] at hf
              obtain ⟨hgf, -⟩ := Prod.mk.injEq .. ▸ hf
              rw [← hgf] at hx
              cases hx
          | egroup es =>
              rcases hes : rwExprList r pool limit es made rk with ⟨es1, m4, k4⟩
              have hfe : rwExpr r pool limit (Expr.egroup es) made rk = (.egroup es1, m4, k4) := by
                simp only [rwExpr, hes]
              rw [hfe] at hf
              obtain ⟨hgf, -⟩ := Prod.mk.injEq .. ▸ hf
              rw [← hgf] at hx
              cases hx
        · rcases rwExpr_callees r pool limit f made rk f1 m2 k2 x hf hx with hin | hin
          · left
            simp only [bareCallees, List.mem_append]
            exact Or.inl (Or.inr hin)
          · right; exact hin
        · rcases rwExprList_callees r pool limit args m2 k2 args1 m3 k3 x ha hx with hin | hin
          · left
            simp only [bareCallees, List.mem_append]
            exact Or.inr hin
          · right; exact hin
      · -- rewritten: the new head target nid is a pool member
        subst hfeq
        rcases ha : rwExprList r pool limit args (made + 1) (rk + 1) with ⟨args1, m3, k3⟩
        have hfid : rwExpr r pool limit (.ename id) (made + 1) (rk + 1)
            = (.ename id, made + 1, rk + 1) := rfl
        simp only [rwExpr, hd, hfid, ha, Prod.mk.injEq] at h
        rw [← h.1] at hx
        simp only [bareCallees, List.mem_append] at hx
        rcases hx with (hx | hx) | hx
        · right
          rcases List.mem_singleton.mp (by simpa using hx) with rfl
          exact hnid
        · cases hx
        · rcases rwExprList_callees r pool limit args (made + 1) (rk + 1) args1 m3 k3 x ha hx with hin | hin
          · left
            simp only [bareCallees, List.mem_append]
            exact Or.inr hin
          · right; exact hin

/-- List version of `rwExpr_callees`. -/
theorem rwExprList_callees (r : Rng) (pool : List String) (limit : Nat) (es : List Expr) :
    ∀ (made rk : Nat) (es' : List Expr) (m' k' : Nat) (x : String),
      rwExprList r pool limit es made rk = (es', m', k') →
      x ∈ bareCalleesList es' → x ∈ bareCalleesList es ∨ x ∈ pool := by
  cases es with
  | nil =>
      intro made rk es' m' k' x h hx
      simp only [rwExprList, Prod.mk.injEq] at h
      rw [← h.1] at hx
      cases hx
  | cons e rest =>
      intro made rk es' m' k' x h hx
      rcases he : rwExpr r pool limit e made rk with ⟨e1, m1, k1⟩
      rcases hrest : rwExprList r pool limit rest m1 k1 with ⟨rest1, m2, k2⟩
      simp only [rwExprList, he, hrest, Prod.mk.injEq] at h
      rw [← h.1] at hx
      simp only [bareCalleesList, List.mem_append] at hx
      rcases hx with hx | hx
      · rcases rwExpr_callees r pool limit e made rk e1 m1 k1 x he hx with hin | hin
        · left; simp only [bareCalleesList, List.mem_append]; exact Or.inl hin
        · right; exact hin
      · rcases rwExprList_callees r pool limit rest m1 k1 rest1 m2 k2 x hrest hx with hin | hin
        · left; simp only [bareCalleesList, List.mem_append]; exact Or.inr hin
        · right; exact hin
end

mutual
/-- Statement version of `rwExpr_callees`. -/
theorem rwStmt_callees (r : Rng) (pool : List String) (limit : Nat) (s : Stmt) :
    ∀ (made rk : Nat) (s' : Stmt) (m' k' : Nat) (x : String),
      rwStmt r pool limit s made rk = (s', m', k') →
      x ∈ bareCalleesStmt s' → x ∈ bareCalleesStmt s ∨ x ∈ pool := by
  cases s with
  | functionDef n b =>
      intro made rk s' m' k' x h hx
      rcases hb : rwStmtList r pool limit b made rk with ⟨b1, m1, k1⟩
      simp only [rwStmt, hb, Prod.mk.injEq] at h
      rw [← h.1] at hx
      exact rwStmtList_callees r pool limit b made rk b1 m1 k1 x hb hx
  | classDef n b =>
      intro made rk s' m' k' x h hx
      rcases hb : rwStmtList r pool limit b made rk with ⟨b1, m1, k1⟩
      simp only [rwStmt, hb, Prod.mk.injEq] at h
      rw [← h.1] at hx
      exact rwStmtList_callees r pool limit b made rk b1 m1 k1 x hb hx
  | assign t v =>
      intro made rk s' m' k' x h hx
      rcases hv : rwExpr r pool limit v made rk with ⟨v1, m1, k1⟩
      simp only [rwStmt, hv, Prod.mk.injEq] at h
      rw [← h.1] at hx
      exact rwExpr_callees r pool limit v made rk v1 m1 k1 x hv hx
  | exprStmt e =>
      intro made rk s' m' k' x h hx
      rcases he : rwExpr r pool limit e made rk with ⟨e1, m1, k1⟩
      simp only [rwStmt, he, Prod.mk.injEq] at h
      rw [← h.1] at hx
      exact rwExpr_callees r pool limit e made rk e1 m1 k1 x he hx
  | ret e =>
      intro made rk s' m' k' x h hx
      rcases he : rwExpr r pool limit e made rk with ⟨e1, m1, k1⟩
      simp only [rwStmt, he, Prod.mk.injEq] at h
      rw [← h.1] at hx
      exact rwExpr_callees r pool limit e made rk e1 m1 k1 x he hx
  | sif c t e =>
      intro made rk s' m' k' x h hx
      rcases hc : rwExpr r pool limit c made rk with ⟨c1, m1, k1⟩
      rcases ht : rwStmtList r pool limit t m1 k1 with ⟨t1, m2, k2⟩
      rcases he : rwStmtList r pool limit e m2 k2 with ⟨e1, m3, k3⟩
      simp only [rwStmt, hc, ht, he, Prod.mk.injEq] at h
      rw [← h.1] at hx
      simp only [bareCalleesStmt, List.mem_append] at hx
      rcases hx with (hx | hx) | hx
      · rcases rwExpr_callees r pool limit c made rk c1 m1 k1 x hc hx with hin | hin
        · left; simp only [bareCalleesStmt, List.mem_append]; exact Or.inl (Or.inl hin)
        · right; exact hin
      · rcases rwStmtList_callees r pool limit t m1 k1 t1 m2 k2 x ht hx with hin | hin
        · left; simp only [bareCalleesStmt, List.mem_append]; exact Or.inl (Or.inr hin)
        · right; exact hin
      · rcases rwStmtList_callees r pool limit e m2 k2 e1 m3 k3 x he hx with hin | hin
        · left; simp only [bareCalleesStmt, List.mem_append]; exact Or.inr hin
        · right; exact hin
  | sfor it b =>
      intro made rk s' m' k' x h hx
      rcases hit : rwExpr r pool limit it made rk with ⟨it1, m1, k1⟩
      rcases hb : rwStmtList r pool limit b m1 k1 with ⟨b1, m2, k2⟩
      simp only [rwStmt, hit, hb, Prod.mk.injEq] at h
      rw [← h.1] at hx
      simp only [bareCalleesStmt, List.mem_append] at hx
      rcases hx with hx | hx
      · rcases rwExpr_callees r pool limit it made rk it1 m1 k1 x hit hx with hin | hin
        · left; simp only [bareCalleesStmt, List.mem_append]; exact Or.inl hin
        · right; exact hin
      · rcases rwStmtList_callees r pool limit b m1 k1 b1 m2 k2 x hb hx with hin | hin
        · left; simp only [bareCalleesStmt, List.mem_append]; exact Or.inr hin
        · right; exact hin
  | spass =>
      intro made rk s' m' k' x h hx
      simp only [rwStmt, Prod.mk.injEq] at h
      rw [← h.1] at hx
      cases hx

/-- Statement-list version of `rwExpr_callees`. -/
theorem rwStmtList_callees (r : Rng) (pool : List String) (limit : Nat) (ss : List Stmt) :
    ∀ (made rk : Nat) (ss' : List Stmt) (m' k' : Nat) (x : String),
      rwStmtList r pool limit ss made rk = (ss', m', k') →
      x ∈ bareCalleesStmtList ss' → x ∈ bareCalleesStmtList ss ∨ x ∈ pool := by
  cases ss with
  | nil =>
      intro made rk ss' m' k' x h hx
      simp only [rwStmtList, Prod.mk.injEq] at h
      rw [← h.1] at hx
      cases hx
  | cons s rest =>
      intro made rk ss' m' k' x h hx
      rcases hs : rwStmt r pool limit s made rk with ⟨s1, m1, k1⟩
      rcases hrest : rwStmtList r pool limit rest m1 k1 with ⟨rest1, m2, k2⟩
      simp only [rwStmtList, hs, hrest, Prod.mk.injEq] at h
      rw [← h.1] at hx
      simp only [bareCalleesStmtList, List.mem_append] at hx
      rcases hx with hx | hx
      · rcases rwStmt_callees r pool limit s made rk s1 m1 k1 x hs hx with hin | hin
        · left; simp only [bareCalleesStmtList, List.mem_append]; exact Or.inl hin
        · right; exact hin
      · rcases rwStmtList_callees r pool limit rest m1 k1 rest1 m2 k2 x hrest hx with hin | hin
        · left; simp only [bareCalleesStmtList, List.mem_append]; exact Or.inr hin
        · right; exact hin
end

/-- C6: the mutation engine returns exactly the number of changes it
applied — `min k (number of qualifying call sites)` when at least two
candidates exist, 0 otherwise — never applies more than `k` changes, and
never introduces the reserved entry-method name `run` as a call target
(every bare-call target of the output is one of the input, or a pool
member, and `run` is never in the pool). -/
theorem modify_codebase_mutation_safety (s : SourceText) (k : Nat) (r : Rng) (rk : Nat)
    (t : SourceText) (c : Nat) (h : modify_codebase s k r rk = .ok (t, c)) :
    c ≤ k ∧
    ∀ treeS, ast_parse s = .ok treeS →
      (c = if (candPool treeS).length < 2 then 0
        else min k (qualCountStmtList (candPool treeS) treeS)) ∧
      ∃ treeT, ast_parse t = .ok treeT ∧
        "run" ∉ candPool treeS ∧
        (∀ x, x ∈ bareCalleesStmtList treeT →
          x ∈ bareCalleesStmtList treeS ∨ x ∈ candPool treeS) := by
  unfold modify_codebase at h
  cases hp : ast_parse s with
  | error e => rw [hp] at h; cases h
  | ok tree =>
      rw [hp] at h
      by_cases hpool : (candPool tree).length < 2
      · simp only [if_pos hpool, Except.ok.injEq, Prod.mk.injEq] at h
        refine ⟨by omega, ?_⟩
        intro treeS hS
        injection hS with hS'
        subst hS'
        refine ⟨by rw [if_pos hpool]; omega, tree, ?_, run_notin_candPool tree, ?_⟩
        · rw [← h.1]; exact hp
        · intro x hx
          exact Or.inl hx
      · rcases hrw : rwStmtList r (candPool tree) k tree 0 rk with ⟨tree1, m1, k1⟩
        simp only [if_neg hpool, hrw, Except.ok.injEq, Prod.mk.injEq] at h
        have hnd : (candPool tree).Nodup := List.nodup_dedup _
        have h2 : 2 ≤ (candPool tree).length := by omega
        have hcount := rwStmtList_made r (candPool tree) k h2 hnd tree 0 rk tree1 m1 k1
          (Nat.zero_le k) hrw
        refine ⟨?_, ?_⟩
        · rw [← h.2]; omega
        · intro treeS hS
          injection hS with hS'
          subst hS'
          refine ⟨by rw [if_neg hpool, ← h.2]; omega, tree1, ?_, run_notin_candPool tree, ?_⟩
          · rw [← h.1, ast_parse_unparse]
          · intro x hx
            exact rwStmtList_callees r (candPool tree) k tree 0 rk tree1 m1 k1 x hrw hx

/-- Concrete two-function source with one qualifying call site. -/
def mwSrc : SourceText :=
  [.code (.functionDef "f" [.exprStmt (bcall "g" [.econst])]),
   .code (.functionDef "g" [.ret (.ename "x")])]

/-- The mutated form of `mwSrc` under the all-zeros oracle: the call
`g(...)` now targets `f`. -/
def mwOut : SourceText :=
  [.code (.functionDef "f" [.exprStmt (bcall "f" [.econst])]),
   .code (.functionDef "g" [.ret (.ename "x")])]

/-- C6 (witness): concrete run applying 1 of 3 requested changes. -/
theorem modify_codebase_mutation_safety_witness :
    modify_codebase mwSrc 3 rng0 0 = .ok (mwOut, 1) ∧
    (1 ≤ 3 ∧
      ∀ treeS, ast_parse mwSrc = .ok treeS →
        ((1 : Nat) = if (candPool treeS).length < 2 then 0
          else min 3 (qualCountStmtList (candPool treeS) treeS)) ∧
        ∃ treeT, ast_parse mwOut = .ok treeT ∧
          "run" ∉ candPool treeS ∧
          (∀ x, x ∈ bareCalleesStmtList treeT →
            x ∈ bareCalleesStmtList treeS ∨ x ∈ candPool treeS)) :=
  ⟨by rfl, modify_codebase_mutation_safety mwSrc 3 rng0 0 mwOut 1 (by rfl)⟩

/-! ## C10: mutation preserves the node list -/

mutual
/-- The node table and class stack evolve identically on a statement and
its rewritten form, whenever they start out equal: the rewriter touches
only call targets, and node registration reads only definition structure,
names and the class stack. -/
theorem rw_visit_tables (r : Rng) (pool : List String) (limit : Nat) (s : Stmt) :
    ∀ (st st' : GState) (made rk : Nat),
      st.nodeTypes = st'.nodeTypes → st.classStack = st'.classStack →
      (visitStmt st s).nodeTypes
          = (visitStmt st' (rwStmt r pool limit s made rk).1).nodeTypes ∧
      (visitStmt st s).classStack
          = (visitStmt st' (rwStmt r pool limit s made rk).1).classStack := by
  cases s with
  | functionDef n b =>
      intro st st' made rk hnt hcs
      rcases hb : rwStmtList r pool limit b made rk with ⟨b1, m1, k1⟩
      have hrs : (rwStmt r pool limit (.functionDef n b) made rk).1 = .functionDef n b1 := by
        simp only [rwStmt, hb]
      rw [hrs]
      by_cases hstk : st.classStack ≠ []
      · have hstk' : st'.classStack ≠ [] := by rw [← hcs]; exact hstk
        simp only [visitStmt, if_pos hstk, if_pos hstk']
        exact rw_visit_tables_list r pool limit b st st' made rk hnt hcs b1 m1 k1 hb
      · have hstk' : ¬ st'.classStack ≠ [] := by rw [← hcs]; exact hstk
        simp only [visitStmt, if_neg hstk, if_neg hstk']
        have := rw_visit_tables_list r pool limit b
          { st with
            nodeTypes := dinsert st.nodeTypes n "function"
            current := some n
            instanceMaps := dinsert st.instanceMaps n [] }
          { st' with
            nodeTypes := dinsert st'.nodeTypes n "function"
            current := some n
            instanceMaps := dinsert st'.instanceMaps n [] }
          made rk (by simpa using congrArg (fun l => dinsert l n "function") hnt)
          (by simpa using hcs) b1 m1 k1 hb
        exact this
  | classDef n b =>
      intro st st' made rk hnt hcs
      rcases hb : rwStmtList r pool limit b made rk with ⟨b1, m1, k1⟩
      have hrs : (rwStmt r pool limit (.classDef n b) made rk).1 = .classDef n b1 := by
        simp only [rwStmt, hb]
      rw [hrs]
      simp only [visitStmt]
      have := rw_visit_tables_list r pool limit b
        { st with
          nodeTypes := dinsert st.nodeTypes n "class"
          classStack := n :: st.classStack
          current := some n
          instanceMaps := dinsert st.instanceMaps n [] }
        { st' with
          nodeTypes := dinsert st'.nodeTypes n "class"
          classStack := n :: st'.classStack
          current := some n
          instanceMaps := dinsert st'.instanceMaps n [] }
        made rk (by simpa using congrArg (fun l => dinsert l n "class") hnt)
        (by simpa using congrArg (fun l => n :: l) hcs) b1 m1 k1 hb
      exact ⟨this.1, congrArg List.tail this.2⟩
  | assign t v =>
      intro st st' made rk hnt hcs
      rcases hv : rwExpr r pool limit v made rk with ⟨v1, m1, k1⟩
      have hrs : (rwStmt r pool limit (.assign t v) made rk).1 = .assign t v1 := by
        simp only [rwStmt, hv]
      rw [hrs]
      obtain ⟨mb, hmb⟩ := assignBindLogic_spec st t v
      obtain ⟨mb', hmb'⟩ := assignBindLogic_spec st' t v1
      obtain ⟨t1, ht1⟩ := visitExpr_spec (assignBindLogic st t v) v
      obtain ⟨t2, ht2⟩ := visitExpr_spec (assignBindLogic st' t v1) v1
      simp only [visitStmt]
      rw [ht1, ht2, hmb, hmb']
      exact ⟨hnt, hcs⟩
  | exprStmt e =>
      intro st st' made rk hnt hcs
      rcases he : rwExpr r pool limit e made rk with ⟨e1, m1, k1⟩
      have hrs : (rwStmt r pool limit (.exprStmt e) made rk).1 = .exprStmt e1 := by
        simp only [rwStmt, he]
      rw [hrs]
      obtain ⟨t1, ht1⟩ := visitExpr_spec st e
      obtain ⟨t2, ht2⟩ := visitExpr_spec st' e1
      simp only [visitStmt]
      rw [ht1, ht2]
      exact ⟨hnt, hcs⟩
  | ret e =>
      intro st st' made rk hnt hcs
      rcases he : rwExpr r pool limit e made rk with ⟨e1, m1, k1⟩
      have hrs : (rwStmt r pool limit (.ret e) made rk).1 = .ret e1 := by
        simp only [rwStmt, he]
      rw [hrs]
      obtain ⟨t1, ht1⟩ := visitExpr_spec st e
      obtain ⟨t2, ht2⟩ := visitExpr_spec st' e1
      simp only [visitStmt]
      rw [ht1, ht2]
      exact ⟨hnt, hcs⟩
  | sif c t e =>
      intro st st' made rk hnt hcs
      rcases hc : rwExpr r pool limit c made rk with ⟨c1, m1, k1⟩
      rcases ht : rwStmtList r pool limit t m1 k1 with ⟨t1, m2, k2⟩
      rcases he : rwStmtList r pool limit e m2 k2 with ⟨e1, m3, k3⟩
      have hrs : (rwStmt r pool limit (.sif c t e) made rk).1 = .sif c1 t1 e1 := by
        simp only [rwStmt, hc, ht, he]
      rw [hrs]
      obtain ⟨tc, htc⟩ := visitExpr_spec st c
      obtain ⟨tc', htc'⟩ := visitExpr_spec st' c1
      simp only [visitStmt]
      rw [htc, htc']
      have hmid := rw_visit_tables_list r pool limit t
        { st with edges := st.edges ++ tc } { st' with edges := st'.edges ++ tc' }
        m1 k1 (by simpa using hnt) (by simpa using hcs) t1 m2 k2 ht
      exact rw_visit_tables_list r pool limit e _ _ m2 k2 hmid.1 hmid.2 e1 m3 k3 he
  | sfor it b =>
      intro st st' made rk hnt hcs
      rcases hit : rwExpr r pool limit it made rk with ⟨it1, m1, k1⟩
      rcases hb : rwStmtList r pool limit b m1 k1 with ⟨b1, m2, k2⟩
      have hrs : (rwStmt r pool limit (.sfor it b) made rk).1 = .sfor it1 b1 := by
        simp only [rwStmt, hit, hb]
      rw [hrs]
      obtain ⟨tc, htc⟩ := visitExpr_spec st it
      obtain ⟨tc', htc'⟩ := visitExpr_spec st' it1
      simp only [visitStmt]
      rw [htc, htc']
      exact rw_visit_tables_list r pool limit b
        { st with edges := st.edges ++ tc } { st' with edges := st'.edges ++ tc' }
        m1 k1 (by simpa using hnt) (by simpa using hcs) b1 m2 k2 hb
  | spass =>
      intro st st' made rk hnt hcs
      simp only [rwStmt, visitStmt]
      exact ⟨hnt, hcs⟩

/-- List version of `rw_visit_tables`. -/
theorem rw_visit_tables_list (r : Rng) (pool : List String) (limit : Nat) (ss : List Stmt) :
    ∀ (st st' : GState) (made rk : Nat),
      st.nodeTypes = st'.nodeTypes → st.classStack = st'.classStack →
      ∀ (ss1 : List Stmt) (m1 k1 : Nat),
        rwStmtList r pool limit ss made rk = (ss1, m1, k1) →
        (visitStmtList st ss).nodeTypes = (visitStmtList st' ss1).nodeTypes ∧
        (visitStmtList st ss).classStack = (visitStmtList st' ss1).classStack := by
  cases ss with
  | nil =>
      intro st st' made rk hnt hcs ss1 m1 k1 h
      simp only [rwStmtList, Prod.mk.injEq] at h
      rw [← h.1]
      exact ⟨hnt, hcs⟩
  | cons s rest =>
      intro st st' made rk hnt hcs ss1 m1 k1 h
      rcases hs : rwStmt r pool limit s made rk with ⟨s1, ms, ks⟩
      rcases hrest : rwStmtList r pool limit rest ms ks with ⟨rest1, mr, kr⟩
      simp only [rwStmtList, hs, hrest, Prod.mk.injEq] at h
      rw [← h.1]
      simp only [visitStmtList]
      have hstep := rw_visit_tables r pool limit s st st' made rk hnt hcs
      rw [hs] at hstep
      exact rw_visit_tables_list r pool limit rest (visitStmt st s) (visitStmt st' s1)
        ms ks hstep.1 hstep.2 rest1 mr kr hrest
end

/-- C10: mutation only retargets bare-name calls, so extraction of the
mutated source produces exactly the node table of the original source:
same names, same kinds, same registration order — and thus the same node
list from `extract_graph`. -/
theorem modify_codebase_preserves_node_list (s : SourceText) (k : Nat) (r : Rng)
    (rk : Nat) (t : SourceText) (c : Nat) (h : modify_codebase s k r rk = .ok (t, c)) :
    (extract_graph t).map (fun p => p.1) = (extract_graph s).map (fun p => p.1) ∧
    ∀ treeS, ast_parse s = .ok treeS →
      ∃ treeT, ast_parse t = .ok treeT ∧
        (buildGraph treeT).nodeTypes = (buildGraph treeS).nodeTypes := by
  unfold modify_codebase at h
  cases hp : ast_parse s with
  | error e => rw [hp] at h; cases h
  | ok tree =>
      rw [hp] at h
      by_cases hpool : (candPool tree).length < 2
      · simp only [if_pos hpool, Except.ok.injEq, Prod.mk.injEq] at h
        rw [← h.1]
        exact ⟨rfl, fun treeS hS => by
          injection hS with hS'
          exact ⟨treeS, by rw [← hS']; exact hp, by rw [← hS']⟩⟩
      · rcases hrw : rwStmtList r (candPool tree) k tree 0 rk with ⟨tree1, m1, k1⟩
        simp only [if_neg hpool, hrw, Except.ok.injEq, Prod.mk.injEq] at h
        have htab := rw_visit_tables_list r (candPool tree) k tree initGState initGState
          0 rk rfl rfl tree1 m1 k1 hrw
        constructor
        · rw [← h.1]
          unfold extract_graph
          rw [hp, ast_parse_unparse]
          simp only [Except.map]
          unfold extractNodes buildGraph
          rw [htab.1]
        · intro treeS hS
          injection hS with hS'
          subst hS'
          exact ⟨tree1, by rw [← h.1, ast_parse_unparse], htab.1.symm⟩

/-- C10 (witness): the concrete mutation of `mwSrc` leaves the node
table unchanged. -/
theorem modify_codebase_preserves_node_list_witness :
    modify_codebase mwSrc 1 rng0 0 = .ok (mwOut, 1) ∧
    ((extract_graph mwOut).map (fun p => p.1) = (extract_graph mwSrc).map (fun p => p.1) ∧
      ∀ treeS, ast_parse mwSrc = .ok treeS →
        ∃ treeT, ast_parse mwOut = .ok treeT ∧
          (buildGraph treeT).nodeTypes = (buildGraph treeS).nodeTypes) :=
  ⟨by rfl, modify_codebase_preserves_node_list mwSrc 1 rng0 0 mwOut 1 (by rfl)⟩

/-! ## Kahn's algorithm: correctness of the cycle eliminator -/

theorem getD_set_eq {α : Type} (l : List α) (i : Nat) (x d : α) (h : i < l.length) :
    (l.set i x).getD i d = x := by
  simp [List.getD, List.getElem?_set_self', h]

theorem getD_set_ne {α : Type} (l : List α) (i j : Nat) (x d : α) (h : i ≠ j) :
    (l.set i x).getD j d = l.getD j d := by
  simp [List.getD, List.getElem?_set_ne h]

/-- Well-formed adjacency: in-range parent indices, no duplicate parent
entries (true of every adjacency the generator builds). -/
def AdjWF (adj : List (List Nat)) : Prop :=
  (∀ c p, p ∈ adj.getD c [] → p < adj.length) ∧ (∀ c, (adj.getD c []).Nodup)

/-- Effect of one child's parent list on the children table. -/
theorem inner_children_fold (ps : List Nat) (c : Nat) :
    ∀ (ch : List (List Nat)), ps.Nodup →
      (∀ y, y < ch.length →
        (ps.foldl (fun ch' parent => addParent ch' parent c) ch).getD y []
          = ch.getD y [] ++ (if y ∈ ps then [c] else [])) ∧
      (ps.foldl (fun ch' parent => addParent ch' parent c) ch).length = ch.length := by
  induction ps with
  | nil => intro ch _; exact ⟨fun y _ => by simp, rfl⟩
  | cons p rest ih =>
      intro ch hnd
      obtain ⟨hp, hrest⟩ := List.nodup_cons.mp hnd
      obtain ⟨ihg, ihl⟩ := ih (addParent ch p c) hrest
      constructor
      · intro y hy
        simp only [List.foldl_cons]
        rw [ihg y (by rw [addParent_length]; exact hy)]
        by_cases hyp : y = p
        · subst hyp
          rw [getD_addParent_self _ _ _ hy]
          simp [hp]
        · rw [getD_addParent_ne _ _ _ _ (fun hh => hyp hh.symm)]
          by_cases hym : y ∈ rest
          · simp [hym, hyp]
          · simp [hym, hyp]
      · simp only [List.foldl_cons]
        rw [ihl, addParent_length]

/-- Partial characterization of `buildChildren`: after processing the
children `0 .. m-1`, position `y` holds exactly the processed children
whose parent list mentions `y`. -/
theorem buildChildren_partial (adj : List (List Nat)) (hnd : ∀ c, (adj.getD c []).Nodup) :
    ∀ (m : Nat) (ch : List (List Nat)), ch.length = adj.length →
      (((List.range m).foldl
          (fun ch child =>
            (adj.getD child []).foldl (fun ch' parent => addParent ch' parent child) ch)
          ch).length = ch.length) ∧
      (∀ y, y < ch.length →
        ((List.range m).foldl
          (fun ch child =>
            (adj.getD child []).foldl (fun ch' parent => addParent ch' parent child) ch)
          ch).getD y []
          = ch.getD y [] ++ (List.range m).filter (fun c => y ∈ adj.getD c [])) := by
  intro m
  induction m with
  | zero => intro ch _; exact ⟨rfl, fun y _ => by simp⟩
  | succ m ihm =>
      intro ch hch
      rw [List.range_succ]
      obtain ⟨ihl, ihg⟩ := ihm ch hch
      set mid := (List.range m).foldl
        (fun ch child =>
          (adj.getD child []).foldl (fun ch' parent => addParent ch' parent child) ch) ch
      obtain ⟨hg2, hl2⟩ := inner_children_fold (adj.getD m []) m mid (hnd m)
      constructor
      · rw [List.foldl_append, List.foldl_cons, List.foldl_nil]
        rw [hl2, ihl]
      · intro y hy
        rw [List.foldl_append, List.foldl_cons, List.foldl_nil]
        rw [hg2 y (by rw [ihl]; exact hy), ihg y hy]
        rw [List.filter_append]
        simp only [List.filter_cons, List.filter_nil]
        by_cases hm : y ∈ adj.getD m []
        · simp [hm, List.append_assoc]
        · simp [hm]

/-- The children table of a well-formed adjacency: position `x` lists, in
ascending order, exactly the children whose parent list contains `x`. -/
theorem buildChildren_spec (adj : List (List Nat)) (hnd : ∀ c, (adj.getD c []).Nodup)
    (x : Nat) (hx : x < adj.length) :
    (buildChildren adj).getD x []
      = (List.range adj.length).filter (fun c => x ∈ adj.getD c []) := by
  unfold buildChildren
  obtain ⟨-, hg⟩ := buildChildren_partial adj hnd adj.length
    (List.replicate adj.length []) (by simp)
  rw [hg x (by simpa using hx)]
  simp

/-- The children table has one slot per node. -/
theorem buildChildren_length (adj : List (List Nat)) :
    (buildChildren adj).length = adj.length := by
  unfold buildChildren
  have : ∀ (js : List Nat) (ch : List (List Nat)),
      ((js.foldl (fun ch child =>
        (adj.getD child []).foldl (fun ch' parent => addParent ch' parent child) ch) ch)).length
        = ch.length := by
    intro js
    induction js with
    | nil => intro ch; rfl
    | cons j rest ihj =>
        intro ch
        simp only [List.foldl_cons]
        rw [ihj]
        have : ∀ (ps : List Nat) (c : Nat) (ch : List (List Nat)),
            (ps.foldl (fun ch' parent => addParent ch' parent c) ch).length = ch.length := by
          intro ps c
          induction ps with
          | nil => intro ch; rfl
          | cons p rest2 ihp =>
              intro ch
              simp only [List.foldl_cons]
              rw [ihp, addParent_length]
        rw [this]
  rw [this]
  simp

/-- One pass of the queue step: with a duplicate-free child list, each
listed child's in-degree drops by one, and exactly the children whose
in-degree was 1 are enqueued, in order. -/
theorem processChildren_spec (cs : List Nat) :
    ∀ (indeg : List Int) (queue : List Nat), cs.Nodup →
      (∀ c ∈ cs, c < indeg.length) →
      (processChildren cs indeg queue).1.length = indeg.length ∧
      (∀ c, (processChildren cs indeg queue).1.getD c 0
        = indeg.getD c 0 - (if c ∈ cs then 1 else 0)) ∧
      (processChildren cs indeg queue).2
        = queue ++ cs.filter (fun c => indeg.getD c 0 = 1) := by
  induction cs with
  | nil =>
      intro indeg queue _ _
      exact ⟨rfl, fun c => by simp [processChildren], by simp [processChildren]⟩
  | cons c0 rest ih =>
      intro indeg queue hnd hb
      obtain ⟨hc0, hrest⟩ := List.nodup_cons.mp hnd
      have hc0lt : c0 < indeg.length := hb c0 (List.mem_cons_self _ _)
      have hpc : processChildren (c0 :: rest) indeg queue
          = processChildren rest (indeg.set c0 (indeg.getD c0 0 - 1))
              (if indeg.getD c0 0 - 1 = 0 then queue ++ [c0] else queue) := by
        unfold processChildren
        simp only [List.foldl_cons]
        split <;> rfl
      set indeg1 := indeg.set c0 (indeg.getD c0 0 - 1) with hindeg1
      have hlen1 : indeg1.length = indeg.length := by simp [hindeg1]
      have hb1 : ∀ c ∈ rest, c < indeg1.length := by
        intro c hc; rw [hlen1]; exact hb c (List.mem_cons_of_mem _ hc)
      obtain ⟨ihl, ihg, ihq⟩ := ih indeg1
        (if indeg.getD c0 0 - 1 = 0 then queue ++ [c0] else queue) hrest hb1
      refine ⟨?_, ?_, ?_⟩
      · rw [hpc, ihl, hlen1]
      · intro c
        rw [hpc, ihg c]
        by_cases hcc : c = c0
        · subst hcc
          rw [getD_set_eq _ _ _ _ hc0lt]
          simp [hc0]
        · rw [getD_set_ne _ _ _ _ _ (fun hh => hcc hh.symm)]
          by_cases hcm : c ∈ rest <;> simp [hcm, hcc]
      · rw [hpc, ihq]
        have hfilter : rest.filter (fun c => indeg1.getD c 0 = 1)
            = rest.filter (fun c => indeg.getD c 0 = 1) := by
          apply List.filter_congr
          intro c hc
          rw [hindeg1, getD_set_ne _ _ _ _ _ (fun hh => hc0 (by rw [hh]; exact hc))]
        rw [hfilter]
        simp only [List.filter_cons]
        by_cases hz : indeg.getD c0 0 - 1 = 0
        · have h1 : indeg.getD c0 0 = 1 := by omega
          simp only [List.getD, List.get?_eq_getElem?] at hz h1 ⊢
          simp [hz, h1]
        · have h1 : ¬ indeg.getD c0 0 = 1 := by omega
          simp only [List.getD, List.get?_eq_getElem?] at hz h1 ⊢
          simp [hz, h1]

/-- Decomposing a snoc: `l ++ [x] = A ++ c :: B` means either the split
is at the end (`c = x`) or it happens inside `l`. -/
theorem append_singleton_cases (l : List Nat) (x : Nat) (A : List Nat) (c : Nat)
    (B : List Nat) (h : l ++ [x] = A ++ c :: B) :
    (A = l ∧ c = x ∧ B = []) ∨ ∃ B', l = A ++ c :: B' ∧ B = B' ++ [x] := by
  rcases List.eq_nil_or_concat B with hB | ⟨B', b, hB⟩
  · subst hB
    have := List.append_inj' h (by rfl)
    exact Or.inl ⟨this.1.symm, (List.cons.injEq .. ▸ this.2).1.symm, rfl⟩
  · subst hB
    rw [List.concat_eq_append] at h
    have h2 : l ++ [x] = (A ++ c :: B') ++ [b] := by
      rw [h]; simp
    have h3 := List.append_inj' h2 (by rfl)
    right
    refine ⟨B', h3.1, ?_⟩
    have hxb : x = b := by simpa using h3.2
    rw [List.concat_eq_append, hxb]

/-- Removing one more popped node from the pending-parents count. -/
theorem filter_notmem_snoc_length (l : List Nat) (hnd : l.Nodup) (O : List Nat)
    (x : Nat) (hx : x ∉ O) :
    (l.filter (fun p => p ∉ O ++ [x])).length
      = (l.filter (fun p => p ∉ O)).length - (if x ∈ l then 1 else 0) := by
  have hsplit : l.filter (fun p => p ∉ O ++ [x])
      = (l.filter (fun p => p ∉ O)).filter (fun p => p != x) := by
    rw [List.filter_filter]
    apply List.filter_congr
    intro p _
    by_cases h2 : p = x
    · subst h2
      simp [hx]
    · by_cases h1 : p ∈ O <;> simp [h1, h2]
  have hmnd : (l.filter (fun p => p ∉ O)).Nodup := hnd.filter _
  have herase : (l.filter (fun p => p ∉ O)).filter (fun p => p != x)
      = (l.filter (fun p => p ∉ O)).erase x := (List.Nodup.erase_eq_filter hmnd x).symm
  rw [hsplit, herase]
  by_cases hxl : x ∈ l
  · have hxm : x ∈ l.filter (fun p => p ∉ O) :=
      List.mem_filter.mpr ⟨hxl, by simpa using hx⟩
    rw [List.length_erase_of_mem hxm]
    simp [hxl]
  · have hxm : x ∉ l.filter (fun p => p ∉ O) := fun hh => hxl (List.mem_filter.mp hh).1
    rw [List.erase_of_not_mem hxm]
    simp [hxl]

/-- A duplicate-free list whose members all equal `x`, containing `x`, is
`[x]`. -/
theorem nodup_all_eq_singleton (l : List Nat) (x : Nat) (hnd : l.Nodup)
    (hall : ∀ y ∈ l, y = x) (hx : x ∈ l) : l = [x] := by
  cases l with
  | nil => cases hx
  | cons a rest =>
      have ha : a = x := hall a (List.mem_cons_self _ _)
      subst ha
      cases rest with
      | nil => rfl
      | cons b rest2 =>
          have hb : b = a := hall b (by simp)
          exfalso
          exact (List.nodup_cons.mp hnd).1 (by rw [← hb]; simp)

/-- Pointwise bound summed over a range, accounting one unit per filtered
index. -/
theorem sum_range_filter_le (f f' : Nat → Nat) (P : Nat → Bool) :
    ∀ n : Nat, (∀ c, c < n → f' c + (if P c then 1 else 0) ≤ f c) →
      ((List.range n).map f').sum + ((List.range n).filter P).length
        ≤ ((List.range n).map f).sum := by
  intro n
  induction n with
  | zero => intro _; simp
  | succ m ih =>
      intro h
      rw [List.range_succ]
      simp only [List.map_append, List.filter_append, List.sum_append,
        List.map_cons, List.map_nil, List.filter_cons, List.filter_nil,
        List.length_append, List.sum_cons, List.sum_nil]
      have h1 := ih (fun c hc => h c (by omega))
      have h2 := h m (by omega)
      by_cases hp : P m = true <;> simp [hp] at h2 ⊢ <;> omega

/-- The Kahn loop invariant: in-degrees track the number of parents not
yet emitted, queue/order membership matches fully-emitted parents, and
the emitted order is topological. -/
structure KahnInv (adj : List (List Nat)) (queue : List Nat) (indeg : List Int)
    (order : List Nat) : Prop where
  hlen : indeg.length = adj.length
  hqb : ∀ y ∈ queue, y < adj.length
  hob : ∀ y ∈ order, y < adj.length
  hnd : (order ++ queue).Nodup
  hdeg : ∀ c, c < adj.length →
    indeg.getD c 0 = (((adj.getD c []).filter (fun p => p ∉ order)).length : Int)
  hmem : ∀ c, c < adj.length →
    ((c ∈ order ∨ c ∈ queue) ↔ ∀ p ∈ adj.getD c [], p ∈ order)
  htopo : ∀ A c B, order = A ++ c :: B → ∀ p ∈ adj.getD c [], p ∈ A

/-- Decreasing measure for the Kahn loop. -/
def kahnMeasure (adj : List (List Nat)) (order queue : List Nat) : Nat :=
  ((List.range adj.length).map
    (fun c => ((adj.getD c []).filter (fun p => p ∉ order)).length)).sum + queue.length

/-- One Kahn step preserves the invariant and decreases the measure. -/
theorem kahn_step (adj : List (List Nat)) (hwf : ∀ c, (adj.getD c []).Nodup)
    (x : Nat) (qs : List Nat) (indeg : List Int) (order : List Nat)
    (inv : KahnInv adj (x :: qs) indeg order) :
    KahnInv adj
      (processChildren ((buildChildren adj).getD x []) indeg qs).2
      (processChildren ((buildChildren adj).getD x []) indeg qs).1
      (order ++ [x]) ∧
    kahnMeasure adj (order ++ [x])
        (processChildren ((buildChildren adj).getD x []) indeg qs).2 + 1
      ≤ kahnMeasure adj order (x :: qs) := by
  obtain ⟨hlen, hqb, hob, hnd, hdeg, hmem, htopo⟩ := inv
  have hxlt : x < adj.length := hqb x (List.mem_cons_self _ _)
  have hcs : (buildChildren adj).getD x []
      = (List.range adj.length).filter (fun c => x ∈ adj.getD c []) :=
    buildChildren_spec adj hwf x hxlt
  have hcsnd : ((buildChildren adj).getD x []).Nodup := by
    rw [hcs]; exact (List.nodup_range _).filter _
  have hcsb : ∀ c ∈ (buildChildren adj).getD x [], c < indeg.length := by
    intro c hc
    rw [hlen]
    rw [hcs] at hc
    exact List.mem_range.mp (List.mem_filter.mp hc).1
  have hcsmem : ∀ c, c ∈ (buildChildren adj).getD x [] ↔
      (c < adj.length ∧ x ∈ adj.getD c []) := by
    intro c
    rw [hcs]
    constructor
    · intro hc
      exact ⟨List.mem_range.mp (List.mem_filter.mp hc).1,
        by simpa using (List.mem_filter.mp hc).2⟩
    · intro hc
      exact List.mem_filter.mpr ⟨List.mem_range.mpr hc.1, by simpa using hc.2⟩
  obtain ⟨pl, pg, pq⟩ := processChildren_spec ((buildChildren adj).getD x []) indeg qs hcsnd hcsb
  rw [List.nodup_append] at hnd
  have hxorder : x ∉ order := fun h => hnd.2.2 h (List.mem_cons_self _ _)
  have hxqs : x ∉ qs := (List.nodup_cons.mp hnd.2.1).1
  have hqsnd : qs.Nodup := (List.nodup_cons.mp hnd.2.1).2
  -- newly enqueued nodes are fresh
  have hNPfresh : ∀ c ∈ ((buildChildren adj).getD x []).filter
      (fun c => indeg.getD c 0 = 1),
      c ∉ order ∧ c ≠ x ∧ c ∉ qs ∧ c < adj.length ∧ x ∈ adj.getD c [] := by
    intro c hcNP
    obtain ⟨hccs, hc1⟩ := List.mem_filter.mp hcNP
    have hclt : c < adj.length := ((hcsmem c).mp hccs).1
    have hxadj : x ∈ adj.getD c [] := ((hcsmem c).mp hccs).2
    have hc1' : indeg.getD c 0 = 1 := by simpa using hc1
    have hpos : ((adj.getD c []).filter (fun p => p ∉ order)).length = 1 := by
      have := hdeg c hclt
      rw [hc1'] at this
      exact_mod_cast this.symm
    have hnotall : ¬ ∀ p ∈ adj.getD c [], p ∈ order := by
      intro hall
      have hz : (adj.getD c []).filter (fun p => p ∉ order) = [] :=
        List.filter_eq_nil.mpr (fun p hp => by simpa using hall p hp)
      rw [hz] at hpos
      cases hpos
    have hno : ¬ (c ∈ order ∨ c ∈ x :: qs) := fun hcon => hnotall ((hmem c hclt).mp hcon)
    exact ⟨fun h => hno (Or.inl h),
      fun h => hno (Or.inr (by rw [h]; exact List.mem_cons_self _ _)),
      fun h => hno (Or.inr (List.mem_cons_of_mem _ h)), hclt, hxadj⟩
  have hNPnd : (((buildChildren adj).getD x []).filter
      (fun c => indeg.getD c 0 = 1)).Nodup := hcsnd.filter _
  constructor
  · refine ⟨?_, ?_, ?_, ?_, ?_, ?_, ?_⟩
    · rw [pl, hlen]
    · intro y hy
      rw [pq] at hy
      rcases List.mem_append.mp hy with hy | hy
      · exact hqb y (List.mem_cons_of_mem _ hy)
      · exact (hNPfresh y hy).2.2.2.1
    · intro y hy
      rcases List.mem_append.mp hy with hy | hy
      · exact hob y hy
      · rw [List.mem_singleton.mp hy]; exact hxlt
    · -- nodup of (order ++ [x]) ++ (qs ++ NP)
      rw [pq]
      have hshape : (order ++ [x]) ++ (qs ++ ((buildChildren adj).getD x []).filter
          (fun c => indeg.getD c 0 = 1))
          = order ++ (x :: (qs ++ ((buildChildren adj).getD x []).filter
              (fun c => indeg.getD c 0 = 1))) := by simp
      rw [hshape, List.nodup_append]
      refine ⟨hnd.1, ?_, ?_⟩
      · rw [List.nodup_cons]
        constructor
        · intro hx2
          rcases List.mem_append.mp hx2 with hx2 | hx2
          · exact hxqs hx2
          · exact (hNPfresh x hx2).2.1 rfl
        · rw [List.nodup_append]
          refine ⟨hqsnd, hNPnd, ?_⟩
          intro a ha ha'
          exact (hNPfresh a ha').2.2.1 ha
      · intro a ha ha'
        rcases List.mem_cons.mp ha' with ha' | ha'
        · exact hxorder (ha' ▸ ha)
        · rcases List.mem_append.mp ha' with ha' | ha'
          · exact hnd.2.2 ha (List.mem_cons_of_mem _ ha')
          · exact (hNPfresh a ha').1 ha
    · -- in-degree formula for the extended order
      intro c hclt
      rw [pg c, hdeg c hclt,
        filter_notmem_snoc_length (adj.getD c []) (hwf c) order x hxorder]
      have hiff : c ∈ (buildChildren adj).getD x [] ↔ x ∈ adj.getD c [] := by
        rw [hcsmem c]
        exact ⟨fun h => h.2, fun h => ⟨hclt, h⟩⟩
      by_cases hxadj : x ∈ adj.getD c []
      · have hc : c ∈ (buildChildren adj).getD x [] := hiff.mpr hxadj
        have h1le : 1 ≤ ((adj.getD c []).filter (fun p => p ∉ order)).length := by
          have : x ∈ (adj.getD c []).filter (fun p => p ∉ order) :=
            List.mem_filter.mpr ⟨hxadj, by simpa using hxorder⟩
          exact List.length_pos.mpr (List.ne_nil_of_mem this)
        rw [if_pos hc, if_pos hxadj]
        omega
      · have hc : c ∉ (buildChildren adj).getD x [] := fun h => hxadj (hiff.mp h)
        rw [if_neg hc, if_neg hxadj]
        omega
    · -- membership characterization
      intro c hclt
      constructor
      · intro hcm
        rcases hcm with hcm | hcm
        · rcases List.mem_append.mp hcm with hcm | hcm
          · intro p hp
            exact List.mem_append_left _ (((hmem c hclt).mp (Or.inl hcm)) p hp)
          · rw [List.mem_singleton.mp hcm]
            intro p hp
            exact List.mem_append_left _
              (((hmem x hxlt).mp (Or.inr (List.mem_cons_self _ _))) p hp)
        · rw [pq] at hcm
          rcases List.mem_append.mp hcm with hcm | hcm
          · intro p hp
            exact List.mem_append_left _
              (((hmem c hclt).mp (Or.inr (List.mem_cons_of_mem _ hcm))) p hp)
          · -- newly enqueued: its pending-parent list is exactly [x]
            obtain ⟨hccs, hc1⟩ := List.mem_filter.mp hcm
            have hc1' : indeg.getD c 0 = 1 := by simpa using hc1
            have hpos : ((adj.getD c []).filter (fun p => p ∉ order)).length = 1 := by
              have := hdeg c hclt
              rw [hc1'] at this
              exact_mod_cast this.symm
            obtain ⟨w, hw⟩ := List.length_eq_one.mp hpos
            have hxadj : x ∈ adj.getD c [] := ((hcsmem c).mp hccs).2
            have hxw : x = w := by
              have : x ∈ (adj.getD c []).filter (fun p => p ∉ order) :=
                List.mem_filter.mpr ⟨hxadj, by simpa using hxorder⟩
              rw [hw] at this
              exact List.mem_singleton.mp this
            intro p hp
            by_cases hpo : p ∈ order
            · exact List.mem_append_left _ hpo
            · have : p ∈ (adj.getD c []).filter (fun p => p ∉ order) :=
                List.mem_filter.mpr ⟨hp, by simpa using hpo⟩
              rw [hw] at this
              rw [List.mem_singleton.mp this, ← hxw]
              simp
      · intro hall
        by_cases hco : c ∈ order
        · exact Or.inl (List.mem_append_left _ hco)
        · by_cases hcx : c = x
          · exact Or.inl (List.mem_append_right _ (by rw [hcx]; simp))
          · by_cases hcq : c ∈ qs
            · right; rw [pq]; exact List.mem_append_left _ hcq
            · -- c is newly enqueued
              have hnotall : ¬ ∀ p ∈ adj.getD c [], p ∈ order := by
                intro hall'
                rcases (hmem c hclt).mpr hall' with hh | hh
                · exact hco hh
                · rcases List.mem_cons.mp hh with hh | hh
                  · exact hcx hh
                  · exact hcq hh
              obtain ⟨p0, hp0, hp0o⟩ : ∃ p0 ∈ adj.getD c [], p0 ∉ order := by
                by_contra hcon
                push_neg at hcon
                exact hnotall hcon
              have hp0x : p0 = x := by
                rcases List.mem_append.mp (hall p0 hp0) with hh | hh
                · exact absurd hh hp0o
                · exact List.mem_singleton.mp hh
              have hxadj : x ∈ adj.getD c [] := hp0x ▸ hp0
              have hccs : c ∈ (buildChildren adj).getD x [] := (hcsmem c).mpr ⟨hclt, hxadj⟩
              -- all pending parents are x, so the count is 1
              have hfil : (adj.getD c []).filter (fun p => p ∉ order) = [x] := by
                apply nodup_all_eq_singleton _ _ ((hwf c).filter _)
                · intro y hy
                  obtain ⟨hy1, hy2⟩ := List.mem_filter.mp hy
                  rcases List.mem_append.mp (hall y hy1) with hh | hh
                  · exact absurd hh (by simpa using hy2)
                  · exact List.mem_singleton.mp hh
                · exact List.mem_filter.mpr ⟨hxadj, by simpa using hxorder⟩
              have hc1 : indeg.getD c 0 = 1 := by
                rw [hdeg c hclt, hfil]
                rfl
              right
              rw [pq]
              refine List.mem_append_right _ (List.mem_filter.mpr ⟨hccs, by simpa using hc1⟩)
    · -- topological property of the extended order
      intro A c B hsplit p hp
      rcases append_singleton_cases order x A c B hsplit with ⟨hA, hc, -⟩ | ⟨B', hord, -⟩
      · subst hA
        rw [hc] at hp
        exact ((hmem x hxlt).mp (Or.inr (List.mem_cons_self _ _))) p hp
      · exact htopo A c B' hord p hp
  · -- measure decrease
    unfold kahnMeasure
    rw [pq, List.length_append]
    have hNPrange : ((buildChildren adj).getD x []).filter (fun c => indeg.getD c 0 = 1)
        = (List.range adj.length).filter
            (fun c => decide (x ∈ adj.getD c []) && decide (indeg.getD c 0 = 1)) := by
      rw [hcs, List.filter_filter]
      apply List.filter_congr
      intro a _
      exact Bool.and_comm _ _
    have hsum := sum_range_filter_le
      (fun c => ((adj.getD c []).filter (fun p => p ∉ order)).length)
      (fun c => ((adj.getD c []).filter (fun p => p ∉ order ++ [x])).length)
      (fun c => decide (x ∈ adj.getD c []) && decide (indeg.getD c 0 = 1))
      adj.length ?_
    · rw [hNPrange]
      simp only [List.length_cons]
      omega
    · intro c hclt
      simp only [filter_notmem_snoc_length (adj.getD c []) (hwf c) order x hxorder]
      by_cases hxadj : x ∈ adj.getD c []
      · by_cases hc1 : indeg.getD c 0 = 1
        · rw [if_pos hxadj, if_pos (by simp only [Bool.and_eq_true, decide_eq_true_eq]; exact And.intro hxadj hc1)]
          have h1le : 1 ≤ (List.filter (fun p => decide (p ∉ order)) (adj.getD c [])).length := by
            have hxm : x ∈ List.filter (fun p => decide (p ∉ order)) (adj.getD c []) :=
              List.mem_filter.mpr ⟨hxadj, by simpa using hxorder⟩
            exact List.length_pos.mpr (List.ne_nil_of_mem hxm)
          omega
        · rw [if_pos hxadj, if_neg (by simp only [Bool.and_eq_true, decide_eq_true_eq, not_and]; exact fun h => hc1)]
          omega
      · rw [if_neg hxadj, if_neg (by simp only [Bool.and_eq_true, decide_eq_true_eq, not_and]; exact fun h => absurd h hxadj)]
        omega

/-- Exhausting the Kahn queue under the invariant yields a duplicate-free,
in-range order that is topologically sorted and absorbs every node all of
whose parents it contains. -/
theorem kahnLoop_post (adj : List (List Nat)) (hwf : ∀ c, (adj.getD c []).Nodup) :
    ∀ (fuel : Nat) (queue : List Nat) (indeg : List Int) (order : List Nat),
      KahnInv adj queue indeg order →
      kahnMeasure adj order queue < fuel →
      (kahnLoop (buildChildren adj) fuel queue indeg order).Nodup ∧
      (∀ y ∈ kahnLoop (buildChildren adj) fuel queue indeg order, y < adj.length) ∧
      (∀ A c B, kahnLoop (buildChildren adj) fuel queue indeg order = A ++ c :: B →
        ∀ p ∈ adj.getD c [], p ∈ A) ∧
      (∀ c, c < adj.length →
        (∀ p ∈ adj.getD c [], p ∈ kahnLoop (buildChildren adj) fuel queue indeg order) →
        c ∈ kahnLoop (buildChildren adj) fuel queue indeg order) := by
  intro fuel
  induction fuel with
  | zero =>
      intro queue indeg order inv hm
      exact absurd hm (by omega)
  | succ fuel ih =>
      intro queue indeg order inv hm
      cases queue with
      | nil =>
          obtain ⟨hlen, hqb, hob, hnd, hdeg, hmem, htopo⟩ := inv
          rw [List.append_nil] at hnd
          have hred : kahnLoop (buildChildren adj) (fuel + 1) [] indeg order = order := rfl
          rw [hred]
          refine ⟨hnd, hob, htopo, ?_⟩
          intro c hc hall
          rcases (hmem c hc).mpr hall with hh | hh
          · exact hh
          · cases hh
      | cons x qs =>
          obtain ⟨inv2, hdec⟩ := kahn_step adj hwf x qs indeg order inv
          rcases hps : processChildren ((buildChildren adj).getD x []) indeg qs with ⟨indeg2, q2⟩
          simp only [hps] at inv2 hdec
          have hred : kahnLoop (buildChildren adj) (fuel + 1) (x :: qs) indeg order
              = kahnLoop (buildChildren adj) fuel q2 indeg2 (order ++ [x]) := by
            simp only [kahnLoop, hps]
          rw [hred]
          exact ih q2 indeg2 (order ++ [x]) inv2 (by omega)

/-- The initial Kahn state satisfies the invariant. -/
theorem kahnInv_init (adj : List (List Nat)) :
    KahnInv adj
      ((List.range adj.length).filter (fun i => (initIndeg adj).getD i 0 = 0))
      (initIndeg adj) [] := by
  have hlen : (initIndeg adj).length = adj.length := by
    unfold initIndeg
    rw [List.length_map, List.length_range]
  have hdeg0 : ∀ c, c < adj.length →
      (initIndeg adj).getD c 0 = ((adj.getD c []).length : Int) := by
    intro c hc
    unfold initIndeg
    rw [List.getD, List.get?_eq_getElem?, List.getElem?_map, List.getElem?_range hc]
    rfl
  refine ⟨hlen, ?_, ?_, ?_, ?_, ?_, ?_⟩
  · intro y hy
    exact List.mem_range.mp (List.mem_filter.mp hy).1
  · intro y hy
    cases hy
  · rw [List.nil_append]
    exact (List.nodup_range _).filter _
  · intro c hc
    rw [hdeg0 c hc]
    have hfil : (adj.getD c []).filter (fun p => p ∉ ([] : List Nat)) = adj.getD c [] :=
      List.filter_eq_self.mpr (fun a _ => by simp)
    rw [hfil]
  · intro c hc
    constructor
    · intro hcm
      rcases hcm with hcm | hcm
      · cases hcm
      · have h0 : (initIndeg adj).getD c 0 = 0 := by
          simpa using (List.mem_filter.mp hcm).2
        rw [hdeg0 c hc] at h0
        have hl : (adj.getD c []).length = 0 := by exact_mod_cast h0
        intro p hp
        rw [List.length_eq_zero.mp hl] at hp
        cases hp
    · intro hall
      right
      apply List.mem_filter.mpr
      refine ⟨List.mem_range.mpr hc, ?_⟩
      have hnil : adj.getD c [] = [] := by
        rcases hE : adj.getD c [] with _ | ⟨a, t⟩
        · rfl
        · exact absurd (hall a (by rw [hE]; exact List.mem_cons_self _ _))
            (List.not_mem_nil a)
      have h0 : (initIndeg adj).getD c 0 = 0 := by
        rw [hdeg0 c hc, hnil]
        rfl
      simpa using h0
  · intro A c B h
    exact absurd h (by simp)

/-- Clearing folds keep the list length. -/
theorem clear_fold_length (rs : List Nat) (adj : List (List Nat)) :
    (rs.foldl (fun a i => a.set i []) adj).length = adj.length := by
  induction rs generalizing adj with
  | nil => rfl
  | cons r rs ih =>
      rw [List.foldl_cons, ih, List.length_set]

/-- A clearing fold leaves untouched rows unchanged. -/
theorem clear_fold_getD_notmem (rs : List Nat) (adj : List (List Nat)) (c : Nat)
    (hc : c ∉ rs) :
    (rs.foldl (fun a i => a.set i []) adj).getD c [] = adj.getD c [] := by
  induction rs generalizing adj with
  | nil => rfl
  | cons r rs ih =>
      rw [List.foldl_cons, ih (adj.set r []) (fun h => hc (List.mem_cons_of_mem _ h))]
      exact getD_set_ne adj r c [] [] (fun h => hc (h ▸ List.mem_cons_self _ _))

/-- A clearing fold empties every in-range touched row. -/
theorem clear_fold_getD_mem (rs : List Nat) (adj : List (List Nat)) (c : Nat)
    (hc : c ∈ rs) (hlt : c < adj.length) (hnd : rs.Nodup) :
    (rs.foldl (fun a i => a.set i []) adj).getD c [] = [] := by
  induction rs generalizing adj with
  | nil => cases hc
  | cons r rs ih =>
      rw [List.foldl_cons]
      rcases List.mem_cons.mp hc with hc2 | hc2
      · subst hc2
        rw [clear_fold_getD_notmem rs _ c (List.nodup_cons.mp hnd).1]
        exact getD_set_eq adj c [] [] hlt
      · exact ih (adj.set r []) hc2 (by rw [List.length_set]; exact hlt)
          (List.nodup_cons.mp hnd).2

/-- Full specification of `remove_cycles_and_get_topological_order`: the
returned order is a duplicate-free enumeration of all node indices; the
returned adjacency keeps each row verbatim or clears it; and every parent
surviving in the returned adjacency precedes its child in the order. -/
theorem remove_cycles_spec (adj : List (List Nat)) (hwf : ∀ c, (adj.getD c []).Nodup) :
    (remove_cycles_and_get_topological_order adj).1.Nodup ∧
    (∀ i, i ∈ (remove_cycles_and_get_topological_order adj).1 ↔ i < adj.length) ∧
    (remove_cycles_and_get_topological_order adj).1.length = adj.length ∧
    (remove_cycles_and_get_topological_order adj).2.length = adj.length ∧
    (∀ c, (remove_cycles_and_get_topological_order adj).2.getD c [] = adj.getD c []
        ∨ (remove_cycles_and_get_topological_order adj).2.getD c [] = []) ∧
    (∀ A c B, (remove_cycles_and_get_topological_order adj).1 = A ++ c :: B →
        ∀ p ∈ (remove_cycles_and_get_topological_order adj).2.getD c [], p ∈ A) := by
  have hm : kahnMeasure adj []
      ((List.range adj.length).filter (fun i => (initIndeg adj).getD i 0 = 0))
      < ((List.range adj.length).map (fun c => (adj.getD c []).length)).sum
          + adj.length + 1 := by
    unfold kahnMeasure
    have hfun : ((List.range adj.length).map
        (fun c => ((adj.getD c []).filter (fun p => p ∉ ([] : List Nat))).length)).sum
        = ((List.range adj.length).map (fun c => (adj.getD c []).length)).sum := by
      congr 1
      apply List.map_congr_left
      intro a _
      rw [List.filter_eq_self.mpr (fun b _ => by simp)]
    rw [hfun]
    have hq : ((List.range adj.length).filter
        (fun i => (initIndeg adj).getD i 0 = 0)).length ≤ adj.length := by
      calc ((List.range adj.length).filter
            (fun i => (initIndeg adj).getD i 0 = 0)).length
          ≤ (List.range adj.length).length := List.length_filter_le _ _
        _ = adj.length := List.length_range _
    omega
  obtain ⟨hndO, hobO, htopoO, habsO⟩ := kahnLoop_post adj hwf
    (((List.range adj.length).map (fun c => (adj.getD c []).length)).sum + adj.length + 1)
    ((List.range adj.length).filter (fun i => (initIndeg adj).getD i 0 = 0))
    (initIndeg adj) [] (kahnInv_init adj) hm
  simp only [remove_cycles_and_get_topological_order]
  set O := kahnLoop (buildChildren adj)
    (((List.range adj.length).map (fun c => (adj.getD c []).length)).sum + adj.length + 1)
    ((List.range adj.length).filter (fun i => (initIndeg adj).getD i 0 = 0))
    (initIndeg adj) [] with hO
  set R := (List.range adj.length).filter (fun i => ¬ i ∈ O) with hR
  have hndR : R.Nodup := by
    rw [hR]
    exact (List.nodup_range _).filter _
  have hRr : ∀ i ∈ R, i < adj.length ∧ i ∉ O := by
    intro i hi
    rw [hR] at hi
    exact ⟨List.mem_range.mp (List.mem_filter.mp hi).1,
      by simpa using (List.mem_filter.mp hi).2⟩
  have hRc : ∀ i, i < adj.length → i ∉ O → i ∈ R := by
    intro i h1 h2
    rw [hR]
    exact List.mem_filter.mpr ⟨List.mem_range.mpr h1, by simpa using h2⟩
  have hnd : (O ++ R).Nodup := by
    rw [List.nodup_append]
    exact ⟨hndO, hndR, fun a ha ha2 => (hRr a ha2).2 ha⟩
  have hcov : ∀ i, i ∈ O ++ R ↔ i < adj.length := by
    intro i
    constructor
    · intro hi
      rcases List.mem_append.mp hi with hi | hi
      · exact hobO i hi
      · exact (hRr i hi).1
    · intro hi
      by_cases hio : i ∈ O
      · exact List.mem_append_left _ hio
      · exact List.mem_append_right _ (hRc i hi hio)
  have hlen1 : (O ++ R).length = adj.length := by
    have hperm : (O ++ R).Perm (List.range adj.length) :=
      List.perm_of_nodup_nodup_toFinset_eq hnd (List.nodup_range _)
        (by
          ext i
          simp only [List.mem_toFinset, List.mem_range]
          exact hcov i)
    rw [hperm.length_eq, List.length_range]
  have hrow : ∀ c, (R.foldl (fun a i => a.set i []) adj).getD c [] = adj.getD c []
      ∨ (R.foldl (fun a i => a.set i []) adj).getD c [] = [] := by
    intro c
    by_cases hc : c ∈ R
    · exact Or.inr (clear_fold_getD_mem R adj c hc (hRr c hc).1 hndR)
    · exact Or.inl (clear_fold_getD_notmem R adj c hc)
  refine ⟨hnd, hcov, hlen1, clear_fold_length R adj, hrow, ?_⟩
  intro A c B hsplit p hp
  rcases List.append_eq_append_iff.mp hsplit with ⟨as, hA, hRs⟩ | ⟨cs, hOs, hcs⟩
  · -- the split point lies in the remaining segment: its row was cleared
    have hcR : c ∈ R := by
      rw [hRs]
      exact List.mem_append_right _ (List.mem_cons_self _ _)
    rw [clear_fold_getD_mem R adj c hcR (hRr c hcR).1 hndR] at hp
    cases hp
  · cases cs with
    | nil =>
        have hcR : c ∈ R := by
          rw [List.nil_append] at hcs
          rw [← hcs]
          exact List.mem_cons_self _ _
        rw [clear_fold_getD_mem R adj c hcR (hRr c hcR).1 hndR] at hp
        cases hp
    | cons e cs2 =>
        rw [List.cons_append] at hcs
        have hce : c = e := (List.cons.injEq .. ▸ hcs).1
        have hOsplit : O = A ++ c :: cs2 := by
          rw [hOs, hce]
        have hpadj : p ∈ adj.getD c [] := by
          rcases hrow c with hr | hr
          · rw [hr] at hp
            exact hp
          · rw [hr] at hp
            cases hp
        exact htopoO A c cs2 hOsplit p hpadj

/-! ## Row well-formedness of the generated adjacency lists -/

theorem getD_replicate_nil (n c : Nat) :
    (List.replicate n ([] : List Nat)).getD c [] = [] := by
  by_cases h : c < n
  · simp [List.getD, List.getElem?_replicate, h]
  · rw [List.getD_eq_default]
    simp
    omega

theorem addParent_oob (a : List (List Nat)) (child p : Nat)
    (h : a.length ≤ child) : addParent a child p = a := by
  rw [addParent, List.set_eq_of_length_le h]

/-- Appending a parent absent from the target row keeps all rows
duplicate-free. -/
theorem rows_nodup_addParent (a : List (List Nat)) (child p : Nat)
    (h1 : ∀ c, (a.getD c []).Nodup) (hp : p ∉ a.getD child []) :
    ∀ c, ((addParent a child p).getD c []).Nodup := by
  intro c
  by_cases hc : child = c
  · subst hc
    by_cases hlt : child < a.length
    · rw [getD_addParent_self a child p hlt, List.nodup_append]
      exact ⟨h1 child, List.nodup_singleton p,
        fun x hx hx2 => hp ((List.mem_singleton.mp hx2) ▸ hx)⟩
    · rw [addParent_oob a child p (by omega)]
      exact h1 child
  · rw [getD_addParent_ne a child c p hc]
    exact h1 c

/-- The target row of `addParent` grows by the parent or, out of range,
stays put; other rows never change. -/
theorem addParent_getD_self_cases (a : List (List Nat)) (child p : Nat) :
    (addParent a child p).getD child [] = a.getD child [] ++ [p]
    ∨ (addParent a child p).getD child [] = a.getD child [] := by
  by_cases hlt : child < a.length
  · exact Or.inl (getD_addParent_self a child p hlt)
  · rw [addParent_oob a child p (by omega)]
    exact Or.inr rfl

/-- Folding `addParent` over fresh, pairwise-distinct target rows keeps
every row duplicate-free. -/
theorem fold_fresh_rows_nodup (f : Nat → Nat) :
    ∀ (ks : List Nat) (a : List (List Nat)),
      (∀ c, (a.getD c []).Nodup) →
      (∀ i ∈ ks, a.getD i [] = []) →
      ks.Nodup →
      ∀ c, ((ks.foldl (fun b i => addParent b i (f i)) a).getD c []).Nodup := by
  intro ks
  induction ks with
  | nil =>
      intro a h1 _ _ c
      exact h1 c
  | cons i ks ih =>
      intro a h1 h2 h3 c
      rw [List.foldl_cons]
      apply ih (addParent a i (f i))
      · exact rows_nodup_addParent a i (f i) h1
          (by rw [h2 i (List.mem_cons_self _ _)]; exact List.not_mem_nil _)
      · intro j hj
        rw [getD_addParent_ne a i j (f i)
          (fun h => (List.nodup_cons.mp h3).1 (h ▸ hj))]
        exact h2 j (List.mem_cons_of_mem _ hj)
      · exact (List.nodup_cons.mp h3).2

/-- Pair-state analogue of `fold_fresh_rows_nodup`, for folds that also
thread a counter. -/
theorem fold_fresh_rows_nodup_pair {σ : Type}
    (step : (List (List Nat) × σ) → Nat → (List (List Nat) × σ))
    (hstep : ∀ p i, ∃ par, (step p i).1 = addParent p.1 i par) :
    ∀ (ks : List Nat) (a : List (List Nat)) (s : σ),
      (∀ c, (a.getD c []).Nodup) →
      (∀ i ∈ ks, a.getD i [] = []) →
      ks.Nodup →
      ∀ c, (((ks.foldl step (a, s)).1).getD c []).Nodup := by
  intro ks
  induction ks with
  | nil =>
      intro a s h1 _ _ c
      exact h1 c
  | cons i ks ih =>
      intro a s h1 h2 h3 c
      rw [List.foldl_cons]
      obtain ⟨par, hpar⟩ := hstep (a, s) i
      have h1' : ∀ c, (((step (a, s) i).1).getD c []).Nodup := by
        rw [hpar]
        exact rows_nodup_addParent a i par h1
          (by rw [h2 i (List.mem_cons_self _ _)]; exact List.not_mem_nil _)
      have h2' : ∀ j ∈ ks, ((step (a, s) i).1).getD j [] = [] := by
        intro j hj
        rw [hpar, getD_addParent_ne a i j par
          (fun h => (List.nodup_cons.mp h3).1 (h ▸ hj))]
        exact h2 j (List.mem_cons_of_mem _ hj)
      exact ih (step (a, s) i).1 (step (a, s) i).2 h1' h2'
        (List.nodup_cons.mp h3).2 c

/-- Membership-guarded `addParent` folds keep rows duplicate-free. -/
theorem fold_guarded_rows_nodup (t : Nat) :
    ∀ (ks : List Nat) (a : List (List Nat)),
      (∀ c, (a.getD c []).Nodup) →
      ∀ c, ((ks.foldl
          (fun b i => if i ∈ b.getD t [] then b else addParent b t i) a).getD c []).Nodup := by
  intro ks
  induction ks with
  | nil =>
      intro a h1 c
      exact h1 c
  | cons i ks ih =>
      intro a h1 c
      rw [List.foldl_cons]
      by_cases hm : i ∈ a.getD t []
      · rw [if_pos hm]
        exact ih a h1 c
      · rw [if_neg hm]
        exact ih (addParent a t i) (rows_nodup_addParent a t i h1 hm) c

/-- A fold whose step either leaves the adjacency alone or appends the
fixed parent `u` to the visited row changes each row at most once. -/
theorem inner_rows_shape {σ : Type} (u : Nat)
    (step : (List (List Nat) × σ) → Nat → (List (List Nat) × σ))
    (hstep : ∀ q v, (step q v).1 = q.1 ∨ (step q v).1 = addParent q.1 v u) :
    ∀ (vs : List Nat) (q : List (List Nat) × σ), vs.Nodup →
      ∀ c, ((vs.foldl step q).1.getD c [] = q.1.getD c [])
        ∨ (c ∈ vs ∧ (vs.foldl step q).1.getD c [] = q.1.getD c [] ++ [u]) := by
  intro vs
  induction vs with
  | nil =>
      intro q _ c
      exact Or.inl rfl
  | cons v vs ih =>
      intro q hnd c
      rw [List.foldl_cons]
      have hrow : (step q v).1.getD c [] = q.1.getD c []
          ∨ (c = v ∧ (step q v).1.getD c [] = q.1.getD c [] ++ [u]) := by
        rcases hstep q v with hs | hs
        · rw [hs]
          exact Or.inl rfl
        · by_cases hc : c = v
          · subst hc
            rw [hs]
            rcases addParent_getD_self_cases q.1 c u with h | h
            · exact Or.inr ⟨rfl, h⟩
            · exact Or.inl h
          · rw [hs, getD_addParent_ne q.1 v c u (fun h => hc h.symm)]
            exact Or.inl rfl
      rcases ih (step q v) (List.nodup_cons.mp hnd).2 c with hres | ⟨hcm, hres⟩
      · rcases hrow with hr | ⟨hcv, hr⟩
        · exact Or.inl (by rw [hres, hr])
        · exact Or.inr ⟨by rw [hcv]; exact List.mem_cons_self _ _, by rw [hres, hr]⟩
      · rcases hrow with hr | ⟨hcv, hr⟩
        · exact Or.inr ⟨List.mem_cons_of_mem _ hcm, by rw [hres, hr]⟩
        · exact absurd (hcv ▸ hcm) (List.nodup_cons.mp hnd).1
  termination_by vs => vs.length

/-- Rows stay duplicate-free through the random construction's nested
fold: each outer pass appends one fresh value to some rows. -/
theorem outer_rows_nodup {σ : Type} (vs : List Nat) (hvs : vs.Nodup)
    (step : Nat → (List (List Nat) × σ) → Nat → (List (List Nat) × σ))
    (hstep : ∀ u q v, (step u q v).1 = q.1 ∨ (step u q v).1 = addParent q.1 v u) :
    ∀ (us : List Nat) (q : List (List Nat) × σ),
      us.Nodup →
      (∀ c, (q.1.getD c []).Nodup) →
      (∀ u ∈ us, ∀ c, u ∉ q.1.getD c []) →
      ∀ c, (((us.foldl (fun p u => vs.foldl (step u) p) q).1).getD c []).Nodup := by
  intro us
  induction us with
  | nil =>
      intro q _ h1 _ c
      exact h1 c
  | cons u us ih =>
      intro q hnd h1 h2 c
      rw [List.foldl_cons]
      apply ih (vs.foldl (step u) q) (List.nodup_cons.mp hnd).2
      · intro c'
        rcases inner_rows_shape u (step u) (hstep u) vs q hvs c' with hr | ⟨-, hr⟩
        · rw [hr]
          exact h1 c'
        · rw [hr, List.nodup_append]
          exact ⟨h1 c', List.nodup_singleton u,
            fun x hx hx2 => h2 u (List.mem_cons_self _ _) c'
              ((List.mem_singleton.mp hx2) ▸ hx)⟩
      · intro u' hu' c'
        rcases inner_rows_shape u (step u) (hstep u) vs q hvs c' with hr | ⟨-, hr⟩
        · rw [hr]
          exact h2 u' (List.mem_cons_of_mem _ hu') c'
        · rw [hr]
          intro hmem
          rcases List.mem_append.mp hmem with hmem | hmem
          · exact h2 u' (List.mem_cons_of_mem _ hu') c' hmem
          · exact (List.nodup_cons.mp hnd).1
              ((List.mem_singleton.mp hmem) ▸ hu')

/-- Survivors of a conditional-erase fold over a duplicate-free start
were present initially and, if visited, fail the erasure test. -/
theorem eraseFold_mem {P : Nat → Prop} [DecidablePred P] :
    ∀ (l acc : List Nat), acc.Nodup →
      ∀ x ∈ l.foldl (fun a p => if P p then a.erase p else a) acc,
        x ∈ acc ∧ (x ∈ l → ¬ P x) := by
  intro l
  induction l with
  | nil =>
      intro acc _ x hx
      exact ⟨hx, fun h => absurd h (List.not_mem_nil x)⟩
  | cons p l ih =>
      intro acc hnd x hx
      rw [List.foldl_cons] at hx
      by_cases hp : P p
      · rw [if_pos hp] at hx
        obtain ⟨hx1, hx2⟩ := ih (acc.erase p) (hnd.erase p) x hx
        refine ⟨List.erase_subset _ _ hx1, ?_⟩
        intro hxl hPx
        rcases List.mem_cons.mp hxl with hxp | hxl2
        · exact hnd.not_mem_erase (hxp ▸ hx1)
        · exact hx2 hxl2 hPx
      · rw [if_neg hp] at hx
        obtain ⟨hx1, hx2⟩ := ih acc hnd x hx
        refine ⟨hx1, ?_⟩
        intro hxl hPx
        rcases List.mem_cons.mp hxl with hxp | hxl2
        · exact hp (hxp ▸ hPx)
        · exact hx2 hxl2 hPx

/-- A conditional-erase fold preserves freedom from duplicates. -/
theorem eraseFold_nodup {P : Nat → Prop} [DecidablePred P] :
    ∀ (l acc : List Nat), acc.Nodup →
      (l.foldl (fun a p => if P p then a.erase p else a) acc).Nodup := by
  intro l
  induction l with
  | nil =>
      intro acc hnd
      exact hnd
  | cons p l ih =>
      intro acc hnd
      rw [List.foldl_cons]
      by_cases hp : P p
      · rw [if_pos hp]
        exact ih (acc.erase p) (hnd.erase p)
      · rw [if_neg hp]
        exact ih acc hnd

/-- Length preservation for plain adjacency folds. -/
theorem foldl_length_preserved {β : Type}
    (step : List (List Nat) → β → List (List Nat))
    (hstep : ∀ a b, (step a b).length = a.length) :
    ∀ (l : List β) (a : List (List Nat)), (l.foldl step a).length = a.length := by
  intro l
  induction l with
  | nil =>
      intro a
      rfl
  | cons b l ih =>
      intro a
      rw [List.foldl_cons, ih, hstep]

/-- Length preservation for counter-threading adjacency folds. -/
theorem foldl_pair_length {σ β : Type}
    (step : (List (List Nat) × σ) → β → (List (List Nat) × σ))
    (hstep : ∀ p b, ((step p b).1).length = p.1.length) :
    ∀ (l : List β) (p : List (List Nat) × σ),
      ((l.foldl step p).1).length = p.1.length := by
  intro l
  induction l with
  | nil =>
      intro p
      rfl
  | cons b l ih =>
      intro p
      rw [List.foldl_cons, ih, hstep]

theorem length_ite_addParent (a : List (List Nat)) (c p : Nat) (t : Prop)
    [Decidable t] : (if t then a else addParent a c p).length = a.length := by
  by_cases h : t
  · rw [if_pos h]
  · rw [if_neg h, addParent_length]

theorem rows_nodup_ite_guard (a : List (List Nat)) (t p : Nat)
    (h1 : ∀ c, (a.getD c []).Nodup) :
    ∀ c, ((if p ∈ a.getD t [] then a else addParent a t p).getD c []).Nodup := by
  by_cases h : p ∈ a.getD t []
  · rw [if_pos h]
    exact h1
  · rw [if_neg h]
    exact rows_nodup_addParent a t p h1 h

theorem getD_ite_addParent_ne (a : List (List Nat)) (t p c : Nat) (cond : Prop)
    [Decidable cond] (h : t ≠ c) :
    (if cond then a else addParent a t p).getD c [] = a.getD c [] := by
  by_cases hc : cond
  · rw [if_pos hc]
  · rw [if_neg hc]
    exact getD_addParent_ne a t c p h

/-- The chain construction is `num` rows long with duplicate-free rows. -/
theorem chainAdj_wf (n : Nat) :
    (chainAdj n).length = n ∧ ∀ c, ((chainAdj n).getD c []).Nodup := by
  constructor
  · unfold chainAdj
    rw [foldl_length_preserved (fun a i => addParent a i (i - 1))
      (fun a b => addParent_length a b (b - 1)), List.length_replicate]
  · unfold chainAdj
    apply fold_fresh_rows_nodup (fun i => i - 1) (List.range' 1 (n - 1))
      (List.replicate n [])
    · intro c
      rw [getD_replicate_nil]
      exact List.nodup_nil
    · intro i _
      exact getD_replicate_nil n i
    · exact List.nodup_range' _ _

/-- `build_adjacency_list` always returns `num` rows, each free of
duplicate parents, in every topology mode. -/
theorem build_adjacency_wf (num : Nat) (mode : String) (conn : Nat) (r : Rng)
    (k : Nat) :
    ((build_adjacency_list num mode conn r k).1).length = num ∧
    ∀ c, (((build_adjacency_list num mode conn r k).1).getD c []).Nodup := by
  by_cases h1 : mode = "chain"
  · simp only [build_adjacency_list, if_pos h1]
    exact chainAdj_wf num
  · by_cases h2 : mode = "branch"
    · by_cases h3 : num < 4
      · simp only [build_adjacency_list, if_neg h1, if_pos h2, if_pos h3]
        exact chainAdj_wf num
      · simp only [build_adjacency_list, if_neg h1, if_pos h2, if_neg h3]
        have hstep5 : ∀ (p : List (List Nat) × Nat) (i : Nat),
            ∃ par, ((fun (p : List (List Nat) × Nat) i =>
              let pr := r.randint p.2 0 (i - 1)
              (addParent p.1 i pr.1, pr.2)) p i).1 = addParent p.1 i par :=
          fun p i => ⟨(r.randint p.2 0 (i - 1)).1, rfl⟩
        constructor
        · rw [foldl_length_preserved _
            (fun a b => length_ite_addParent a (num - 1) b (b ∈ a.getD (num - 1) []))]
          rw [foldl_pair_length _ (fun p b => by
            rcases hr : r.randint p.2 0 (b - 1) with ⟨par, k'⟩
            simp only [hr, addParent_length])]
          rw [length_ite_addParent, length_ite_addParent,
            addParent_length, addParent_length, List.length_replicate]
        · apply fold_guarded_rows_nodup
          apply fold_fresh_rows_nodup_pair _ (fun p i => by
            rcases hr : r.randint p.2 0 (i - 1) with ⟨par, k'⟩
            exact ⟨par, by simp only [hr]⟩)
          · -- rows of the a4 stage are duplicate-free
            apply rows_nodup_ite_guard
            apply rows_nodup_ite_guard
            apply rows_nodup_addParent
            · apply rows_nodup_addParent
              · intro c
                rw [getD_replicate_nil]
                exact List.nodup_nil
              · rw [getD_replicate_nil]
                exact List.not_mem_nil _
            · rw [getD_addParent_ne _ _ _ _ (by omega), getD_replicate_nil]
              exact List.not_mem_nil _
          · -- intermediate rows are still empty at the a4 stage
            intro i hi
            have hge : 3 ≤ i ∧ i < num - 1 := by
              have := List.mem_range'_1.mp hi
              omega
            rw [getD_ite_addParent_ne _ _ _ _ _ (by omega),
              getD_ite_addParent_ne _ _ _ _ _ (by omega),
              getD_addParent_ne _ _ _ _ (by omega),
              getD_addParent_ne _ _ _ _ (by omega),
              getD_replicate_nil]
          · exact List.nodup_range' _ _
    · simp only [build_adjacency_list, if_neg h1, if_neg h2]
      constructor
      · rw [foldl_pair_length _ (fun p u => foldl_pair_length _ (fun q v => by
          by_cases hc : u ≠ v ∧
              (lookupA (positionMap (r.shuffleFn k (List.range num))) u).getD 0
                < (lookupA (positionMap (r.shuffleFn k (List.range num))) v).getD 0
          · rcases hcoin : r.coin q.2 with ⟨b, k'⟩
            cases b
            · simp [if_pos hc, hcoin]
            · simp [if_pos hc, hcoin, addParent_length]
          · simp only [if_neg hc]) (List.range num) p)]
        rw [List.length_replicate]
      · apply outer_rows_nodup (List.range num) (List.nodup_range num)
          (fun u (q : List (List Nat) × Nat) v =>
            if u ≠ v ∧
                (lookupA (positionMap (r.shuffleFn k (List.range num))) u).getD 0
                  < (lookupA (positionMap (r.shuffleFn k (List.range num))) v).getD 0
            then
              let pr := r.coin q.2
              if pr.1 then (addParent q.1 v u, pr.2) else (q.1, pr.2)
            else q)
        · intro u q v
          by_cases hc : u ≠ v ∧
              (lookupA (positionMap (r.shuffleFn k (List.range num))) u).getD 0
                < (lookupA (positionMap (r.shuffleFn k (List.range num))) v).getD 0
          · rcases hcoin : r.coin q.2 with ⟨b, k'⟩
            cases b
            · exact Or.inl (by simp [if_pos hc, hcoin])
            · exact Or.inr (by simp [if_pos hc, hcoin])
          · exact Or.inl (by simp only [if_neg hc])
        · exact List.nodup_range num
        · intro c
          rw [getD_replicate_nil]
          exact List.nodup_nil
        · intro u _ c
          rw [getD_replicate_nil]
          exact List.not_mem_nil _

/-- The adjacency returned by the cycle eliminator keeps the input's
length, with no well-formedness assumption. -/
theorem remove_cycles_adj_length (adj : List (List Nat)) :
    (remove_cycles_and_get_topological_order adj).2.length = adj.length := by
  simp only [remove_cycles_and_get_topological_order]
  exact clear_fold_length _ _

/-- A list whose deduplication is a singleton is constant. -/
theorem dedup_singleton_all {α : Type} [DecidableEq α] (l : List α) (d : α)
    (h : l.dedup.length = 1) : ∀ a ∈ l, a = l.dedup.headD d := by
  obtain ⟨t, ht⟩ := List.length_eq_one.mp h
  intro a ha
  have : a ∈ l.dedup := List.mem_dedup.mpr ha
  rw [ht] at this ⊢
  exact List.mem_singleton.mp this

/-- Structure of one unification step: the node record at `i` receives
the resolved input type and a fresh output type; the adjacency is
unchanged unless the parents' output types conflicted, in which case row
`i` is pruned to parents matching the chosen type. -/
theorem unifyStep_cases (r : Rng) (nodes : List NodeInfo) (adj : List (List Nat))
    (k i : Nat) :
    ∃ it k2 adj2 ot,
      unifyStep r (nodes, adj, k) i
        = (nodes.set i { nodes.getD i dfltNode with
            input_type := it
            output_type := some ot }, adj2, k2)
      ∧ ((adj.getD i [] = [] ∧ adj2 = adj)
         ∨ (adj2 = adj ∧ ∀ p ∈ adj.getD i [],
              (nodes.getD p dfltNode).output_type = it)
         ∨ (∃ pruned, adj2 = adj.set i pruned
              ∧ ((adj.getD i []).Nodup →
                  pruned ⊆ adj.getD i [] ∧ pruned.Nodup
                  ∧ ∀ p ∈ pruned, (nodes.getD p dfltNode).output_type = it))) := by
  rcases hp : adj.getD i [] with _ | ⟨p0, ps⟩
  · rcases hC : r.choice k DATA_TYPES with ⟨t, k'⟩
    rcases hO : r.choice k' DATA_TYPES with ⟨ot, k2⟩
    refine ⟨some t, k2, adj, ot, ?_, Or.inl ⟨rfl, rfl⟩⟩
    simp only [unifyStep, hp, hC, hO]
  · by_cases hd : ((p0 :: ps).map
        (fun p => (nodes.getD p dfltNode).output_type)).dedup.length = 1
    · rcases hO : r.choice k DATA_TYPES with ⟨ot, k2⟩
      refine ⟨((p0 :: ps).map
          (fun p => (nodes.getD p dfltNode).output_type)).dedup.headD none,
        k2, adj, ot, ?_, Or.inr (Or.inl ⟨rfl, ?_⟩)⟩
      · simp only [unifyStep, hp, if_pos hd, hO]
      · intro p hpm
        exact dedup_singleton_all _ none hd
          ((nodes.getD p dfltNode).output_type) (List.mem_map_of_mem _ hpm)
    · rcases hC : r.choice k ((p0 :: ps).map
          (fun p => (nodes.getD p dfltNode).output_type)) with ⟨chosen, k'⟩
      rcases hO : r.choice k' DATA_TYPES with ⟨ot, k2⟩
      refine ⟨chosen, k2,
        adj.set i ((p0 :: ps).foldl
          (fun acc p =>
            if (nodes.getD p dfltNode).output_type ≠ chosen then acc.erase p else acc)
          (p0 :: ps)), ot, ?_, Or.inr (Or.inr ⟨_, rfl, ?_⟩)⟩
      · simp only [unifyStep, hp, if_neg hd, hC, hO]
      · intro hnd
        refine ⟨fun x hx => (eraseFold_mem _ _ hnd x hx).1,
          eraseFold_nodup _ _ hnd, ?_⟩
        intro p hpm
        by_contra hne
        exact (eraseFold_mem _ _ hnd p hpm).2
          ((eraseFold_mem _ _ hnd p hpm).1) hne

/-- One unification step keeps both lengths and row distinctness. -/
theorem unifyStep_facts (r : Rng) (nodes : List NodeInfo) (adj : List (List Nat))
    (k i : Nat) (hnd : ∀ c, (adj.getD c []).Nodup) :
    ((unifyStep r (nodes, adj, k) i).2.1.length = adj.length) ∧
    ((unifyStep r (nodes, adj, k) i).1.length = nodes.length) ∧
    (∀ c, ((unifyStep r (nodes, adj, k) i).2.1.getD c []).Nodup) := by
  obtain ⟨it, k2, adj2, ot, heq, hcase⟩ := unifyStep_cases r nodes adj k i
  rw [heq]
  have hrow : ∀ c, (adj2.getD c []).Nodup ∧ adj2.length = adj.length := by
    rcases hcase with ⟨-, h⟩ | ⟨h, -⟩ | ⟨pruned, h, hpr⟩
    · subst h
      exact fun c => ⟨hnd c, rfl⟩
    · subst h
      exact fun c => ⟨hnd c, rfl⟩
    · subst h
      intro c
      refine ⟨?_, List.length_set ..⟩
      by_cases hci : c = i
      · subst hci
        by_cases hlt : c < adj.length
        · rw [getD_set_eq adj c _ [] hlt]
          exact (hpr (hnd c)).2.1
        · rw [List.set_eq_of_length_le (by omega)]
          exact hnd c
      · rw [getD_set_ne adj i c _ [] (fun h => hci h.symm)]
        exact hnd c
  exact ⟨(hrow 0).2, List.length_set .., fun c => (hrow c).1⟩

/-- Folding unification steps keeps both lengths and row distinctness. -/
theorem unify_fold_facts (r : Rng) :
    ∀ (ord : List Nat) (nodes : List NodeInfo) (adj : List (List Nat)) (k : Nat),
      (∀ c, (adj.getD c []).Nodup) →
      ((ord.foldl (unifyStep r) (nodes, adj, k)).2.1.length = adj.length) ∧
      ((ord.foldl (unifyStep r) (nodes, adj, k)).1.length = nodes.length) ∧
      (∀ c, ((ord.foldl (unifyStep r) (nodes, adj, k)).2.1.getD c []).Nodup) := by
  intro ord
  induction ord with
  | nil =>
      intro nodes adj k hnd
      exact ⟨rfl, rfl, hnd⟩
  | cons i ord ih =>
      intro nodes adj k hnd
      rw [List.foldl_cons]
      obtain ⟨h1, h2, h3⟩ := unifyStep_facts r nodes adj k i hnd
      rcases hst : unifyStep r (nodes, adj, k) i with ⟨nodes2, adj2, k2⟩
      rw [hst] at h1 h2 h3
      obtain ⟨g1, g2, g3⟩ := ih nodes2 adj2 k2 h3
      exact ⟨by rw [g1, h1], by rw [g2, h2], g3⟩

/-! ## Acyclicity and complete topological orders (claim C3) -/

/-- The edge relation of a parents-list adjacency: `p` is a parent of `c`. -/
def parentOf (adj : List (List Nat)) (p c : Nat) : Prop := p ∈ adj.getD c []

/-- No node reaches itself through one or more parent edges. -/
def Acyclic (adj : List (List Nat)) : Prop :=
  ∀ c, ¬ Relation.TransGen (parentOf adj) c c

/-- `ord` enumerates all `n` nodes exactly once, and every parent precedes
its child. -/
def CompleteTopoOrder (adj : List (List Nat)) (n : Nat) (ord : List Nat) : Prop :=
  ord.Nodup ∧ ord.length = n ∧ (∀ i, i ∈ ord ↔ i < n) ∧
  ∀ A c B, ord = A ++ c :: B → ∀ p ∈ adj.getD c [], p ∈ A

theorem indexOf_append_lt (A X : List Nat) (p : Nat) (hp : p ∈ A) :
    (A ++ X).indexOf p < A.length := by
  induction A with
  | nil => cases hp
  | cons a A ih =>
      rw [List.cons_append]
      by_cases hap : a = p
      · rw [hap, List.indexOf_cons_self]
        simp
      · rw [List.indexOf_cons_ne _ hap]
        have hpA : p ∈ A := by
          rcases List.mem_cons.mp hp with h | h
          · exact absurd h.symm hap
          · exact h
        have := ih hpA
        simp only [List.length_cons]
        omega

/-- Along a complete topological order, every parent edge strictly
increases the position index. -/
theorem topo_edge_lt (adj : List (List Nat)) (ord : List Nat)
    (hnd : ord.Nodup)
    (hcov : ∀ i, i ∈ ord ↔ i < adj.length)
    (htopo : ∀ A c B, ord = A ++ c :: B → ∀ p ∈ adj.getD c [], p ∈ A)
    (p c : Nat) (hp : p ∈ adj.getD c []) :
    ord.indexOf p < ord.indexOf c := by
  have hc : c < adj.length := by
    by_contra hcl
    rw [List.getD_eq_default adj [] (by omega)] at hp
    exact List.not_mem_nil p hp
  obtain ⟨A, B, hAB⟩ := List.append_of_mem ((hcov c).mpr hc)
  have hpA : p ∈ A := htopo A c B hAB p hp
  have hcA : c ∉ A := by
    rw [hAB, List.nodup_append] at hnd
    exact fun h => hnd.2.2 h (List.mem_cons_self _ _)
  rw [hAB, List.indexOf_append_of_not_mem hcA, List.indexOf_cons_self]
  have := indexOf_append_lt A (c :: B) p hpA
  omega

/-- An adjacency admitting a complete topological order is acyclic. -/
theorem acyclic_of_topo (adj : List (List Nat)) (n : Nat) (ord : List Nat)
    (hlen : adj.length = n) (h : CompleteTopoOrder adj n ord) : Acyclic adj := by
  obtain ⟨hnd, hl, hcov, htopo⟩ := h
  have hcov2 : ∀ i, i ∈ ord ↔ i < adj.length := by
    rw [hlen]
    exact hcov
  intro c hcyc
  have hlt : ∀ a b, Relation.TransGen (parentOf adj) a b →
      ord.indexOf a < ord.indexOf b := by
    intro a b hab
    induction hab with
    | single he => exact topo_edge_lt adj ord hnd hcov2 htopo _ _ he
    | tail hab hbc ih =>
        exact lt_trans ih (topo_edge_lt adj ord hnd hcov2 htopo _ _ hbc)
  exact absurd (hlt c c hcyc) (lt_irrefl _)

/-- Length and row facts for the full unification pass. -/
theorem unify_facts (nodes : List NodeInfo) (adj : List (List Nat)) (r : Rng)
    (k : Nat) (hnd : ∀ c, (adj.getD c []).Nodup) :
    ((unify_types_based_on_adjacency nodes adj r k).2.1.length = adj.length) ∧
    ((unify_types_based_on_adjacency nodes adj r k).1.length = nodes.length) ∧
    (∀ c, ((unify_types_based_on_adjacency nodes adj r k).2.1.getD c []).Nodup) := by
  obtain ⟨h1, h2, h3, h4, h5, h6⟩ := remove_cycles_spec adj hnd
  have h7 := remove_cycles_adj_length adj
  rcases hRC : remove_cycles_and_get_topological_order adj with ⟨o1, adj1⟩
  rw [hRC] at h5 h7
  simp only at h5 h7
  have hnd1 : ∀ c, (adj1.getD c []).Nodup := by
    intro c
    rcases h5 c with h | h
    · rw [h]
      exact hnd c
    · rw [h]
      exact List.nodup_nil
  obtain ⟨g1, g2, g3⟩ := unify_fold_facts r o1 nodes adj1 k hnd1
  simp only [unify_types_based_on_adjacency, hRC]
  exact ⟨by rw [g1, h7], g2, g3⟩

/-- C3: for every node count `N ≥ 1` and each of the three topology modes,
`generate_codebase` returns an adjacency list that is acyclic and admits a
complete topological order covering all `N` nodes exactly once. -/
theorem generate_codebase_acyclic (num avg bf lf conn : Nat) (mode : String)
    (useSem : Bool) (r : Rng) (k : Nat) (hnum : 1 ≤ num)
    (hmode : mode = "chain" ∨ mode = "branch" ∨ mode = "random") :
    Acyclic (generate_codebase num avg bf lf conn mode useSem r k).2.2.1 ∧
    ∃ ord, CompleteTopoOrder
      (generate_codebase num avg bf lf conn mode useSem r k).2.2.1 num ord := by
  obtain ⟨hlen0, hnd0⟩ := build_adjacency_wf num mode conn r k
  rcases hB : build_adjacency_list num mode conn r k with ⟨adj0, k1⟩
  rw [hB] at hlen0 hnd0
  simp only at hlen0 hnd0
  obtain ⟨-, -, -, hlenA', hdichA, -⟩ := remove_cycles_spec adj0 hnd0
  have hndA : ∀ c,
      (((remove_cycles_and_get_topological_order adj0).2).getD c []).Nodup := by
    intro c
    rcases hdichA c with h | h
    · rw [h]
      exact hnd0 c
    · rw [h]
      exact List.nodup_nil
  have hlenA : ((remove_cycles_and_get_topological_order adj0).2).length = num := by
    rw [hlenA', hlen0]
  rcases hMP : makePlaceholders num useSem
      (remove_cycles_and_get_topological_order adj0).2 r k1 with ⟨nodes1, k2⟩
  obtain ⟨hu1, hu2, hu3⟩ := unify_facts nodes1
    (remove_cycles_and_get_topological_order adj0).2 r k2 hndA
  rcases hU : unify_types_based_on_adjacency nodes1
      (remove_cycles_and_get_topological_order adj0).2 r k2 with ⟨nodes2, adjB, k3⟩
  rw [hU] at hu1 hu2 hu3
  simp only at hu1 hu2 hu3
  have hlenB : adjB.length = num := by
    rw [hu1, hlenA]
  obtain ⟨hc1, hc2, hc3, hc4, hc5, hc6⟩ := remove_cycles_spec adjB hu3
  rcases hRC : remove_cycles_and_get_topological_order adjB with ⟨ord, adjC⟩
  rw [hRC] at hc1 hc2 hc3 hc4 hc5 hc6
  simp only at hc1 hc2 hc3 hc4 hc5 hc6
  have hgc : (generate_codebase num avg bf lf conn mode useSem r k).2.2.1
      = adjC := by
    simp only [generate_codebase, hB, hMP, hU, hRC]
  rw [hgc]
  have hcto : CompleteTopoOrder adjC num ord := by
    refine ⟨hc1, by rw [hc3, hlenB], ?_, hc6⟩
    intro i
    rw [hc2 i, hlenB]
  exact ⟨acyclic_of_topo adjC num ord (by rw [hc4, hlenB]) hcto, ⟨ord, hcto⟩⟩

/-- Instantiation of the C3 theorem at a concrete input. -/
theorem generate_codebase_acyclic_witness :
    Acyclic (generate_codebase 3 6 1 1 1 "chain" false rng0 0).2.2.1 ∧
    ∃ ord, CompleteTopoOrder
      (generate_codebase 3 6 1 1 1 "chain" false rng0 0).2.2.1 3 ord :=
  generate_codebase_acyclic 3 6 1 1 1 "chain" false rng0 0 (by decide)
    (Or.inl rfl)

/-! ## The type-unification invariant (claim C2) -/

/-- Walking a topological suffix of the order preserves and completes the
unification invariant: every processed node's surviving parents carry its
input type as their output type. -/
theorem unify_fold_invariant (r : Rng) (adj1 : List (List Nat)) (O : List Nat)
    (hOnd : O.Nodup)
    (htopo : ∀ A c B, O = A ++ c :: B → ∀ p ∈ adj1.getD c [], p ∈ A) :
    ∀ (todo done : List Nat) (nodes : List NodeInfo) (adjS : List (List Nat))
      (kS : Nat),
      O = done ++ todo →
      (∀ j ∈ todo, j < nodes.length) →
      (∀ c, adjS.getD c [] ⊆ adj1.getD c []) →
      (∀ c, (adjS.getD c []).Nodup) →
      (∀ c ∈ done, ∀ p ∈ adjS.getD c [],
        (nodes.getD p dfltNode).output_type = (nodes.getD c dfltNode).input_type) →
      (∀ c, ((todo.foldl (unifyStep r) (nodes, adjS, kS)).2.1.getD c [])
          ⊆ adj1.getD c []) ∧
      (∀ c ∈ O, ∀ p ∈ (todo.foldl (unifyStep r) (nodes, adjS, kS)).2.1.getD c [],
        ((todo.foldl (unifyStep r) (nodes, adjS, kS)).1.getD p dfltNode).output_type
          = ((todo.foldl (unifyStep r) (nodes, adjS, kS)).1.getD c
              dfltNode).input_type) := by
  intro todo
  induction todo with
  | nil =>
      intro done nodes adjS kS hOD hb ha hbnd hc
      rw [List.append_nil] at hOD
      simp only [List.foldl_nil]
      exact ⟨ha, fun c hcO => hc c (hOD ▸ hcO)⟩
  | cons i todo ih =>
      intro done nodes adjS kS hOD hb ha hbnd hc
      rw [List.foldl_cons]
      have hilen : i < nodes.length := hb i (List.mem_cons_self _ _)
      have hidone : i ∉ done := by
        have h2 := hOnd
        rw [hOD, List.nodup_append] at h2
        exact fun h => h2.2.2 h (List.mem_cons_self _ _)
      have hiself : i ∉ adjS.getD i [] := by
        intro hmem
        exact hidone (htopo done i todo hOD i (ha i hmem))
      obtain ⟨it, k2, adj2, ot, heq, hcase⟩ := unifyStep_cases r nodes adjS kS i
      rw [heq]
      have hsub2 : ∀ c, adj2.getD c [] ⊆ adjS.getD c [] := by
        rcases hcase with ⟨-, h⟩ | ⟨h, -⟩ | ⟨pruned, h, hpr⟩
        · subst h
          exact fun c => List.Subset.refl _
        · subst h
          exact fun c => List.Subset.refl _
        · subst h
          intro c
          by_cases hci : c = i
          · subst hci
            by_cases hlt : c < adjS.length
            · rw [getD_set_eq adjS c _ [] hlt]
              exact (hpr (hbnd c)).1
            · rw [List.set_eq_of_length_le (by omega)]
              exact List.Subset.refl _
          · rw [getD_set_ne adjS i c _ [] (fun h => hci h.symm)]
            exact List.Subset.refl _
      have hrow_done : ∀ c, c ≠ i → adj2.getD c [] = adjS.getD c [] := by
        rcases hcase with ⟨-, h⟩ | ⟨h, -⟩ | ⟨pruned, h, -⟩
        · subst h
          exact fun c _ => rfl
        · subst h
          exact fun c _ => rfl
        · subst h
          intro c hci
          exact getD_set_ne adjS i c _ [] (fun h => hci h.symm)
      have hnd2 : ∀ c, (adj2.getD c []).Nodup := by
        have h3 := (unifyStep_facts r nodes adjS kS i hbnd).2.2
        rw [heq] at h3
        exact h3
      have hrow_i : ∀ p ∈ adj2.getD i [],
          (nodes.getD p dfltNode).output_type = it := by
        rcases hcase with ⟨hE, h⟩ | ⟨h, hall⟩ | ⟨pruned, h, hpr⟩
        · subst h
          rw [hE]
          intro p hp0
          cases hp0
        · subst h
          exact hall
        · subst h
          intro p hp0
          by_cases hlt : i < adjS.length
          · rw [getD_set_eq adjS i _ [] hlt] at hp0
            exact (hpr (hbnd i)).2.2 p hp0
          · rw [List.set_eq_of_length_le (by omega)] at hp0
            rw [List.getD_eq_default adjS [] (by omega)] at hp0
            cases hp0
      refine ih (done ++ [i]) _ adj2 k2 ?_ ?_ ?_ hnd2 ?_
      · rw [hOD]
        simp
      · intro j hj
        rw [List.length_set]
        exact hb j (List.mem_cons_of_mem _ hj)
      · exact fun c => List.Subset.trans (hsub2 c) (ha c)
      · intro c hcm p hp
        rcases List.mem_append.mp hcm with hcd | hci
        · have hcne : c ≠ i := fun h => hidone (h ▸ hcd)
          have hpS : p ∈ adjS.getD c [] := by
            rw [hrow_done c hcne] at hp
            exact hp
          have hpne : p ≠ i := by
            obtain ⟨D1, D2, hD⟩ := List.append_of_mem hcd
            have hO2 : O = D1 ++ c :: (D2 ++ i :: todo) := by
              rw [hOD, hD]
              simp
            have hpD1 : p ∈ D1 := htopo D1 c (D2 ++ i :: todo) hO2 p (ha c hpS)
            intro hpi
            apply hidone
            rw [hD]
            exact List.mem_append_left _ (hpi ▸ hpD1)
          rw [getD_set_ne nodes i p _ dfltNode (fun h => hpne h.symm),
            getD_set_ne nodes i c _ dfltNode (fun h => hcne h.symm)]
          exact hc c hcd p hpS
        · have hci' : c = i := List.mem_singleton.mp hci
          rw [hci'] at hp ⊢
          have hpne : p ≠ i := fun h => hiself (h ▸ hsub2 i hp)
          rw [getD_set_ne nodes i p _ dfltNode (fun h => hpne h.symm),
            getD_set_eq nodes i _ dfltNode hilen]
          exact hrow_i p hp

/-- C2: after `unify_types_based_on_adjacency` completes on an adjacency
with duplicate-free rows and a long-enough node list (as produced by the
topology generator), every surviving edge (parent, child) satisfies
`parent.output_type = child.input_type`. -/
theorem unify_types_invariant (nodes : List NodeInfo) (adj : List (List Nat))
    (r : Rng) (k : Nat)
    (hnd : ∀ c, (adj.getD c []).Nodup)
    (hlen : adj.length ≤ nodes.length) :
    ∀ c, ∀ p ∈ (unify_types_based_on_adjacency nodes adj r k).2.1.getD c [],
      ((unify_types_based_on_adjacency nodes adj r k).1.getD p dfltNode).output_type
        = ((unify_types_based_on_adjacency nodes adj r k).1.getD c
            dfltNode).input_type := by
  obtain ⟨h1, h2, h3, h4, h5, h6⟩ := remove_cycles_spec adj hnd
  have h7 := remove_cycles_adj_length adj
  rcases hRC : remove_cycles_and_get_topological_order adj with ⟨O, adj1⟩
  rw [hRC] at h1 h2 h3 h4 h5 h6 h7
  simp only at h1 h2 h3 h4 h5 h6 h7
  have hnd1 : ∀ c, (adj1.getD c []).Nodup := by
    intro c
    rcases h5 c with h | h
    · rw [h]
      exact hnd c
    · rw [h]
      exact List.nodup_nil
  obtain ⟨ga, gc⟩ := unify_fold_invariant r adj1 O h1 h6 O [] nodes adj1 k
    (by rw [List.nil_append])
    (fun j hj => lt_of_lt_of_le ((h2 j).mp hj) hlen)
    (fun c => List.Subset.refl _) hnd1
    (fun c hc => absurd hc (List.not_mem_nil c))
  simp only [unify_types_based_on_adjacency, hRC]
  intro c p hp
  by_cases hcl : c < adj.length
  · exact gc c ((h2 c).mpr hcl) p hp
  · exfalso
    have hsub := ga c hp
    rw [List.getD_eq_default adj1 [] (by omega)] at hsub
    exact List.not_mem_nil p hsub

/-- Instantiation of the C2 invariant at a concrete two-node chain:
the surviving edge (0, 1) satisfies the type equation. -/
theorem unify_types_invariant_witness :
    ((unify_types_based_on_adjacency
        [⟨"A", "function", none, none⟩, ⟨"B", "function", none, none⟩]
        [[], [0]] rng0 0).1.getD 0 dfltNode).output_type
      = ((unify_types_based_on_adjacency
        [⟨"A", "function", none, none⟩, ⟨"B", "function", none, none⟩]
        [[], [0]] rng0 0).1.getD 1 dfltNode).input_type :=
  unify_types_invariant
    [⟨"A", "function", none, none⟩, ⟨"B", "function", none, none⟩]
    [[], [0]] rng0 0
    (by
      intro c
      match c with
      | 0 => exact List.nodup_nil
      | 1 => exact List.nodup_singleton 0
      | (n + 2) =>
          rw [List.getD_eq_default _ _ (by show (2 : Nat) ≤ n + 2; omega)]
          exact List.nodup_nil)
    (by decide) 1 0 (by decide)

/-! ## Exact extraction of generated sections (claim C1) -/

/-- Names callable from generated snippet code: Python builtins, the
`DATA_TYPES` constructors, and the driver's `print`/`range`. None of
them collides with a generated node name or `main`. -/
def snippetNames : List String :=
  ["int", "float", "list", "dict", "tuple", "set", "str", "complex", "bool",
   "abs", "len", "sum", "all", "isinstance", "sorted", "round", "enumerate",
   "range", "print"]

mutual
/-- Conservative syntactic check: every call in the expression is a bare
call to a snippet name or an attribute call whose attribute is not
`run`. -/
def cleanExpr : Expr → Bool
  | .ename _ => true
  | .econst => true
  | .eattr v _ => cleanExpr v
  | .egroup es => cleanExprList es
  | .ecall f args =>
      (match f with
       | .ename s => decide (s ∈ snippetNames)
       | .eattr v a => (a != "run") && cleanExpr v
       | .econst => true
       | _ => false) && cleanExprList args

/-- List form of `cleanExpr`. -/
def cleanExprList : List Expr → Bool
  | [] => true
  | e :: es => cleanExpr e && cleanExprList es
end

theorem visitExprList_one (st : GState) (e : Expr) :
    visitExprList st [e] = visitExpr st e := by
  simp only [visitExprList]

/-- A bare call to an unregistered name other than `run` records nothing. -/
theorem visitExpr_call_bare (st : GState) (f : String) (args : List Expr)
    (hf : lookupA st.nodeTypes f = none) (hrun : f ≠ "run") :
    visitExpr st (.ecall (.ename f) args) = visitExprList st args := by
  cases hc : st.current with
  | none => simp only [visitExpr, hc]
  | some cur =>
      have hcel : callEdgeLogic st cur (.ename f) = st := by
        have hcond : ¬(f = "run" ∧ st.classStack ≠ []) := fun h => hrun h.1
        simp only [callEdgeLogic, if_neg hcond, hf]
        simp
      simp only [visitExpr, hc, hcel]

/-- An attribute call whose attribute is not `run` records nothing. -/
theorem visitExpr_call_attr (st : GState) (v : Expr) (a : String)
    (args : List Expr) (ha : a ≠ "run") :
    visitExpr st (.ecall (.eattr v a) args) = visitExprList (visitExpr st v) args := by
  cases hc : st.current with
  | none => simp only [visitExpr, hc]
  | some cur =>
      have hcel : callEdgeLogic st cur (.eattr v a) = st := by
        simp only [callEdgeLogic, if_neg ha]
      simp only [visitExpr, hc, hcel]

/-- A call whose function position is a constant records nothing. -/
theorem visitExpr_call_const (st : GState) (args : List Expr) :
    visitExpr st (.ecall .econst args) = visitExprList st args := by
  cases hc : st.current with
  | none => simp only [visitExpr, hc]
  | some cur =>
      have hcel : callEdgeLogic st cur .econst = st := by
        simp only [callEdgeLogic]
      simp only [visitExpr, hc, hcel]

/-- `visit_Assign` leaves the state alone unless the value is a bare-name
call to a registered class. -/
theorem assignBind_clean (st : GState) (tg : List Target) (e : Expr)
    (hne : ∀ cls args, e = .ecall (.ename cls) args →
      lookupA st.nodeTypes cls ≠ some "class") :
    assignBindLogic st tg e = st := by
  unfold assignBindLogic
  split
  · rw [if_neg (hne _ _ rfl)]
  · rfl

mutual
/-- Visiting a clean expression changes nothing: its bare callees are
unregistered snippet names and its attribute calls never mention `run`. -/
theorem visitExpr_clean (st : GState)
    (hclean : ∀ s ∈ snippetNames, lookupA st.nodeTypes s = none) :
    ∀ e, cleanExpr e = true → visitExpr st e = st
  | .ename _, _ => rfl
  | .econst, _ => rfl
  | .eattr v a, h => by
      simp only [cleanExpr] at h
      simp only [visitExpr]
      exact visitExpr_clean st hclean v h
  | .egroup es, h => by
      simp only [cleanExpr] at h
      simp only [visitExpr]
      exact visitExprList_clean st hclean es h
  | .ecall f args, h => by
      match f with
      | .ename s =>
          simp only [cleanExpr, Bool.and_eq_true, decide_eq_true_eq] at h
          have hrun : s ≠ "run" := by
            intro hcon
            have := h.1
            rw [hcon] at this
            exact absurd this (by decide)
          rw [visitExpr_call_bare st s args (hclean s h.1) hrun]
          exact visitExprList_clean st hclean args h.2
      | .eattr v a =>
          simp only [cleanExpr, Bool.and_eq_true, bne_iff_ne] at h
          rw [visitExpr_call_attr st v a args h.1.1,
            visitExpr_clean st hclean v h.1.2]
          exact visitExprList_clean st hclean args h.2
      | .econst =>
          simp only [cleanExpr, Bool.and_eq_true] at h
          rw [visitExpr_call_const st args]
          exact visitExprList_clean st hclean args h.2
      | .ecall f2 a2 =>
          simp only [cleanExpr, Bool.and_eq_true] at h
          exact absurd h.1 (by simp)
      | .egroup es2 =>
          simp only [cleanExpr, Bool.and_eq_true] at h
          exact absurd h.1 (by simp)

/-- List form of `visitExpr_clean`. -/
theorem visitExprList_clean (st : GState)
    (hclean : ∀ s ∈ snippetNames, lookupA st.nodeTypes s = none) :
    ∀ es, cleanExprList es = true → visitExprList st es = st
  | [], _ => rfl
  | e :: es, h => by
      simp only [cleanExprList, Bool.and_eq_true] at h
      simp only [visitExprList]
      rw [visitExpr_clean st hclean e h.1]
      exact visitExprList_clean st hclean es h.2
end

/-- Assigning a clean expression changes nothing. -/
theorem visitStmt_assign_clean (st : GState) (tg : List Target) (e : Expr)
    (hclean : ∀ s ∈ snippetNames, lookupA st.nodeTypes s = none)
    (hc : cleanExpr e = true) :
    visitStmt st (.assign tg e) = st := by
  simp only [visitStmt]
  have hb : assignBindLogic st tg e = st := by
    apply assignBind_clean
    intro cls args he
    subst he
    simp only [cleanExpr, Bool.and_eq_true] at hc
    rw [hclean cls (by simpa using hc.1)]
    exact fun h => Option.noConfusion h
  rw [hb]
  exact visitExpr_clean st hclean e hc

theorem getD_cases_mem {α : Type} (l : List α) (i : Nat) (d : α) :
    l.getD i d ∈ l ∨ l.getD i d = d := by
  by_cases h : i < l.length
  · left
    rw [List.getD_eq_getElem l d h]
    exact List.getElem_mem ..
  · right
    exact List.getD_eq_default l d (by omega)

theorem lookupA_mem {κ α : Type} [DecidableEq κ] :
    ∀ (l : List (κ × α)) (k : κ) (v : α), lookupA l k = some v → (k, v) ∈ l := by
  intro l
  induction l with
  | nil =>
      intro k v h
      cases h
  | cons hd t ih =>
      intro k v h
      obtain ⟨k', v'⟩ := hd
      simp only [lookupA] at h
      by_cases hk : k' = k
      · rw [if_pos hk] at h
        injection h with h2
        subst hk
        subst h2
        exact List.mem_cons_self _ _
      · rw [if_neg hk] at h
        exact List.mem_cons_of_mem _ (ih k v h)

/-- Every snippet stored in `TRANSFORMATIONS_MAP` is clean. -/
theorem transformations_map_clean (i o : String) (snips : List Expr)
    (h : TRANSFORMATIONS_MAP i o = some snips) :
    ∀ e ∈ snips, cleanExpr e = true := by
  have hmem : ((i, o), snips) ∈ TRANSFORMATIONS_LIST :=
    lookupA_mem TRANSFORMATIONS_LIST (i, o) snips h
  have hall : ∀ kv ∈ TRANSFORMATIONS_LIST, ∀ e ∈ kv.2, cleanExpr e = true := by
    decide
  exact hall _ hmem

/-- Binding skip for a clean value expression. -/
theorem assignBind_of_clean (st : GState) (tg : List Target) (e : Expr)
    (hclean : ∀ s ∈ snippetNames, lookupA st.nodeTypes s = none)
    (hc : cleanExpr e = true) : assignBindLogic st tg e = st := by
  apply assignBind_clean
  intro cls args he
  subst he
  simp only [cleanExpr, Bool.and_eq_true, decide_eq_true_eq] at hc
  rw [hclean cls hc.1]
  exact fun h => Option.noConfusion h

set_option maxHeartbeats 1600000 in
/-- Visiting a fallback transformation changes nothing, given the output
type's name is unregistered and not `run`. -/
theorem visit_fallback (st : GState) (it ot : Option String)
    (hclean : ∀ s ∈ snippetNames, lookupA st.nodeTypes s = none)
    (hot : ∀ s, ot = some s → lookupA st.nodeTypes s = none ∧ s ≠ "run") :
    visitExpr st (fallbackTransform it ot) = st ∧
    (∀ tg, assignBindLogic st tg (fallbackTransform it ot) = st) := by
  have hcall : ∀ args, (∀ e ∈ args, visitExpr st e = st) →
      visitExpr st (.ecall (otName ot) args) = st ∧
      (∀ tg, assignBindLogic st tg (.ecall (otName ot) args) = st) := by
    intro args hargs
    have hvl : visitExprList st args = st := by
      clear hclean hot
      induction args with
      | nil => rfl
      | cons e es ih =>
          simp only [visitExprList]
          rw [hargs e (List.mem_cons_self _ _)]
          exact ih (fun e' he' => hargs e' (List.mem_cons_of_mem _ he'))
    cases hoo : ot with
    | none =>
        simp only [otName]
        refine ⟨by rw [visitExpr_call_const st args, hvl], ?_⟩
        intro tg
        apply assignBind_clean
        intro cls args2 hh
        cases hh
    | some s =>
        simp only [otName]
        obtain ⟨hs1, hs2⟩ := hot s hoo
        refine ⟨by rw [visitExpr_call_bare st s args hs1 hs2, hvl], ?_⟩
        intro tg
        apply assignBind_clean
        intro cls args2 hh
        injection hh with hh1 hh2
        injection hh1 with hh3
        subst hh3
        rw [hs1]
        exact fun h => Option.noConfusion h
  unfold fallbackTransform
  split
  · -- bool
    split
    · exact ⟨visitExpr_clean st hclean _ (by decide),
        fun tg => assignBind_of_clean st tg _ hclean (by decide)⟩
    · exact hcall [.egroup [pm]] (fun e he => by rw [List.mem_singleton.mp he]; rfl)
  · exact hcall [pm] (fun e he => by rw [List.mem_singleton.mp he]; rfl)
  · exact hcall [pm] (fun e he => by rw [List.mem_singleton.mp he]; rfl)
  · exact hcall [pm] (fun e he => by rw [List.mem_singleton.mp he]; rfl)
  · -- str
    split
    · exact ⟨visitExpr_clean st hclean _ (by decide),
        fun tg => assignBind_of_clean st tg _ hclean (by decide)⟩
    · exact hcall [.egroup [pm]] (fun e he => by rw [List.mem_singleton.mp he]; rfl)
  · -- list
    split
    · exact ⟨visitExpr_clean st hclean _ (by decide),
        fun tg => assignBind_of_clean st tg _ hclean (by decide)⟩
    · exact hcall [pm] (fun e he => by rw [List.mem_singleton.mp he]; rfl)
  · -- dict
    split
    · exact hcall [acall pm "keys" []] (fun e he => by
        rw [List.mem_singleton.mp he]
        exact visitExpr_clean st hclean _ (by decide))
    · exact ⟨visitExpr_clean st hclean _ (by decide),
        fun tg => assignBind_of_clean st tg _ hclean (by decide)⟩
  · exact hcall [pm] (fun e he => by rw [List.mem_singleton.mp he]; rfl)
  · -- set
    split
    · exact ⟨visitExpr_clean st hclean _ (by decide),
        fun tg => assignBind_of_clean st tg _ hclean (by decide)⟩
    · exact hcall [pm] (fun e he => by rw [List.mem_singleton.mp he]; rfl)
  · exact ⟨rfl, fun tg => assignBind_clean st tg _ (fun cls args h => by cases h)⟩

/-- Visiting `result = <transformation rhs>` changes nothing. -/
theorem visit_result_assign (st : GState) (it ot : Option String) (r : Rng)
    (k : Nat)
    (hclean : ∀ s ∈ snippetNames, lookupA st.nodeTypes s = none)
    (hot : ∀ s, ot = some s → lookupA st.nodeTypes s = none ∧ s ≠ "run") :
    visitStmt st (.assign [.tname "result"]
      (get_random_transformation_code it ot r k).1) = st := by
  rcases it with _ | i
  · have hred : (get_random_transformation_code none ot r k).1
        = fallbackTransform none ot := by
      simp only [get_random_transformation_code]
    rw [hred]
    obtain ⟨h1, h2⟩ := visit_fallback st none ot hclean hot
    simp only [visitStmt]
    rw [h2, h1]
  · rcases ot with _ | o
    · have hred : (get_random_transformation_code (some i) none r k).1
          = fallbackTransform (some i) none := by
        simp only [get_random_transformation_code]
      rw [hred]
      obtain ⟨h1, h2⟩ := visit_fallback st (some i) none hclean
        (fun s h => Option.noConfusion h)
      simp only [visitStmt]
      rw [h2, h1]
    · cases htm : TRANSFORMATIONS_MAP i o with
      | none =>
          have hred : (get_random_transformation_code (some i) (some o) r k).1
              = fallbackTransform (some i) (some o) := by
            simp only [get_random_transformation_code, htm]
          rw [hred]
          obtain ⟨h1, h2⟩ := visit_fallback st (some i) (some o) hclean hot
          simp only [visitStmt]
          rw [h2, h1]
      | some snips =>
          have hred : (get_random_transformation_code (some i) (some o) r k).1
              = snips.getD (r.stream k % snips.length) .econst := by
            simp only [get_random_transformation_code, htm]
          rw [hred]
          have hcl : cleanExpr (snips.getD (r.stream k % snips.length) .econst)
              = true := by
            rcases getD_cases_mem snips (r.stream k % snips.length) Expr.econst
              with h | h
            · exact transformations_map_clean i o snips htm _ h
            · rw [h]
              rfl
          exact visitStmt_assign_clean st _ _ hclean hcl

/-- Filler lines are invisible to the extractor. -/
theorem visit_filler (st : GState) (r : Rng) :
    ∀ n k, visitStmtList st (generate_random_filler_lines r n k).1 = st := by
  intro n
  induction n with
  | zero =>
      intro k
      rfl
  | succ n ih =>
      intro k
      rcases hgs : generate_random_string r 5 k with ⟨v, k1⟩
      rcases hrest : generate_random_filler_lines r n (k1 + 1) with ⟨rest, k3⟩
      simp only [generate_random_filler_lines, hgs, hrest]
      show visitStmtList (visitStmt st (.assign [.tname v] .econst)) rest = st
      have h1 : visitStmt st (.assign [.tname v] .econst) = st := by
        simp only [visitStmt]
        rw [assignBind_clean st _ _ (fun f args h => by cases h)]
        rfl
      rw [h1]
      have h2 := ih (k1 + 1)
      rw [hrest] at h2
      exact h2

/-- Branching snippets are invisible to the extractor. -/
theorem visit_branching (st : GState) (r : Rng) :
    ∀ n k, visitStmtList st (generate_branching_code_snippet r n k).1 = st := by
  intro n
  induction n with
  | zero =>
      intro k
      rfl
  | succ n ih =>
      intro k
      rcases hg1 : generate_random_string r 5 k with ⟨v, k1⟩
      rcases hg2 : generate_random_string r 5 (k1 + 1) with ⟨w2, k3⟩
      rcases hg3 : generate_random_string r 5 k3 with ⟨w3, k4⟩
      rcases hrest : generate_branching_code_snippet r n k4 with ⟨rest, k5⟩
      simp only [generate_branching_code_snippet, hg1, hg2, hg3, hrest]
      show visitStmtList (visitStmt st (.sif (.egroup [.econst, .econst])
        [.assign [.tname v] .econst] [.assign [.tname v] .econst])) rest = st
      have hassign : visitStmt st (.assign [.tname v] .econst) = st := by
        simp only [visitStmt]
        rw [assignBind_clean st _ _ (fun f args h => by cases h)]
        rfl
      have h1 : visitStmt st (.sif (.egroup [.econst, .econst])
          [.assign [.tname v] .econst] [.assign [.tname v] .econst]) = st := by
        simp only [visitStmt]
        have hcond : visitExpr st (.egroup [.econst, .econst]) = st := rfl
        rw [hcond]
        have hthn : visitStmtList st [.assign [.tname v] .econst] = st := by
          show visitStmtList (visitStmt st (.assign [.tname v] .econst)) [] = st
          rw [hassign]
          rfl
        rw [hthn, hthn]
      rw [h1]
      have h2 := ih k4
      rw [hrest] at h2
      exact h2

/-- Loop snippets are invisible to the extractor (`range` is never a
node). -/
theorem visit_loops (st : GState) (r : Rng)
    (hrange : lookupA st.nodeTypes "range" = none) :
    ∀ n k, visitStmtList st (generate_loop_code_snippet r n k).1 = st := by
  intro n
  induction n with
  | zero =>
      intro k
      rfl
  | succ n ih =>
      intro k
      rcases hg1 : generate_random_string r 5 k with ⟨v, k1⟩
      rcases hrest : generate_loop_code_snippet r n (k1 + 1) with ⟨rest, k3⟩
      simp only [generate_loop_code_snippet, hg1, hrest]
      show visitStmtList (visitStmt st (.sfor (bcall "range" [.econst]) [.spass]))
        rest = st
      have h1 : visitStmt st (.sfor (bcall "range" [.econst]) [.spass]) = st := by
        simp only [visitStmt]
        rw [bcall, visitExpr_call_bare st "range" [.econst] hrange (by decide)]
        rfl
      rw [h1]
      have h2 := ih (k1 + 1)
      rw [hrest] at h2
      exact h2

/-- Generated literals are invisible to the extractor (`complex` is never
a node). -/
theorem visit_literal (st : GState) (dt : Option String) (r : Rng) (k : Nat)
    (hcomplex : lookupA st.nodeTypes "complex" = none) :
    visitExpr st (generate_random_literal dt r k).1 = st := by
  unfold generate_random_literal
  split_ifs <;>
    first
      | rfl
      | (show visitExpr st (bcall "complex" [.econst, .econst]) = st
         rw [bcall, visitExpr_call_bare st "complex" _ hcomplex (by decide)]
         rfl)

/-- The duplicated-edge shape contributed by one dependency or driver
call: one edge for a function callee, two for a class callee (the
constructor call and the `run` call each record one). -/
def depE (kind from2 to2 : String) : List (String × String) :=
  if kind = "function" then [(from2, to2)] else [(from2, to2), (from2, to2)]

/-- Dispatch of `visit_Call` under a known current context. -/
theorem visitExpr_call_dispatch (st : GState) (cur : String) (f : Expr)
    (args : List Expr) (hc : st.current = some cur) :
    visitExpr st (.ecall f args)
      = visitExprList (visitExpr (callEdgeLogic st cur f) f) args := by
  conv_lhs => rw [visitExpr]
  rw [hc]

/-- Visiting the statements generated for one dependency call records
exactly the parent-to-current edge, once for a function parent and twice
for a class parent. -/
theorem visit_depCall (st : GState) (cur : String) (P : NodeInfo)
    (it : Option String) (r : Rng) (k : Nat)
    (hcur : st.current = some cur)
    (hkind : P.kind = "function" ∨ P.kind = "class")
    (hreg : lookupA st.nodeTypes P.name = some P.kind)
    (hrun : P.name ≠ "run")
    (hcomplex : lookupA st.nodeTypes "complex" = none) :
    ∃ im, visitStmtList st (depCallStmts P it r k).1
      = { st with
          edges := st.edges ++ depE P.kind P.name cur
          instanceMaps := im } := by
  have hedge : ∀ (st2 : GState) (args : List Expr),
      st2.nodeTypes = st.nodeTypes → st2.current = some cur →
      (∀ st3 : GState, st3.nodeTypes = st.nodeTypes → visitExprList st3 args = st3) →
      visitExpr st2 (.ecall (.ename P.name) args)
        = { st2 with edges := st2.edges ++ [(P.name, cur)] } := by
    intro st2 args hnt hc hargs
    rw [visitExpr_call_dispatch st2 cur (.ename P.name) args hc]
    have hcel : callEdgeLogic st2 cur (.ename P.name)
        = { st2 with edges := st2.edges ++ [(P.name, cur)] } := by
      have hcond : ¬(P.name = "run" ∧ st2.classStack ≠ []) := fun h => hrun h.1
      simp only [callEdgeLogic, if_neg hcond, hnt, hreg]
      simp
    rw [hcel]
    rw [show visitExpr { st2 with edges := st2.edges ++ [(P.name, cur)] }
      (.ename P.name) = { st2 with edges := st2.edges ++ [(P.name, cur)] } from rfl]
    exact hargs _ hnt
  have hargs_pm : ∀ st3 : GState, st3.nodeTypes = st.nodeTypes →
      visitExprList st3 [pm] = st3 := fun st3 _ => rfl
  have hargs_lit : ∀ (k2 : Nat) (dt : Option String) (st3 : GState),
      st3.nodeTypes = st.nodeTypes →
      visitExprList st3 [(generate_random_literal dt r k2).1] = st3 := by
    intro k2 dt st3 h3
    rw [visitExprList_one]
    exact visit_literal st3 dt r k2 (by rw [h3]; exact hcomplex)
  have hargs_nil : ∀ st3 : GState, st3.nodeTypes = st.nodeTypes →
      visitExprList st3 [] = st3 := fun st3 _ => rfl
  rcases hkind with hk | hk
  · -- function parent: a single bare call statement
    have hsplit : ∀ (arg : Expr),
        (∀ st3 : GState, st3.nodeTypes = st.nodeTypes →
          visitExprList st3 [arg] = st3) →
        visitStmtList st [.exprStmt (.ecall (.ename P.name) [arg])]
          = { st with
              edges := st.edges ++ depE P.kind P.name cur
              instanceMaps := st.instanceMaps } := by
      intro arg harg
      show visitStmtList (visitStmt st (.exprStmt (.ecall (.ename P.name) [arg]))) []
        = _
      simp only [visitStmt, visitStmtList]
      rw [hedge st [arg] rfl hcur harg]
      rw [depE, if_pos hk]
    by_cases hit : P.input_type = it
    · simp only [depCallStmts, if_pos hk, if_pos hit]
      exact ⟨st.instanceMaps, hsplit pm hargs_pm⟩
    · rcases hlit : generate_random_literal P.input_type r k with ⟨lit, k1⟩
      simp only [depCallStmts, if_pos hk, if_neg hit, hlit]
      refine ⟨st.instanceMaps, ?_⟩
      exact hsplit lit (by
        intro st3 h3
        have h4 := hargs_lit k P.input_type st3 h3
        rw [hlit] at h4
        exact h4)
  · -- class parent: a constructor assignment plus an attribute run call
    have hne : ¬ P.kind = "function" := by
      rw [hk]
      decide
    have hmain : ∀ (arg : Expr) (iv : String),
        (∀ st3 : GState, st3.nodeTypes = st.nodeTypes →
          visitExprList st3 [arg] = st3) →
        visitStmtList st
          [.assign [.tname iv] (.ecall (.ename P.name) []),
           .exprStmt (.ecall (.eattr (.ename iv) "run") [arg])]
          = { st with
              edges := st.edges ++ depE P.kind P.name cur
              instanceMaps := dinsert st.instanceMaps cur
                (dinsert ((lookupA st.instanceMaps cur).getD []) iv P.name) } := by
      intro arg iv harg
      show visitStmtList (visitStmt st (.assign [.tname iv]
          (.ecall (.ename P.name) [])))
          [.exprStmt (.ecall (.eattr (.ename iv) "run") [arg])]
        = _
      have hbind : assignBindLogic st [.tname iv] (.ecall (.ename P.name) [])
          = { st with
              instanceMaps := dinsert st.instanceMaps cur
                (dinsert ((lookupA st.instanceMaps cur).getD []) iv P.name) } := by
        rw [hk] at hreg
        simp only [assignBindLogic, hcur, hreg]
        simp
      have hstepA : visitStmt st (.assign [.tname iv] (.ecall (.ename P.name) []))
          = { st with
              edges := st.edges ++ [(P.name, cur)]
              instanceMaps := dinsert st.instanceMaps cur
                (dinsert ((lookupA st.instanceMaps cur).getD []) iv P.name) } := by
        simp only [visitStmt]
        rw [hbind]
        rw [hedge { st with
              instanceMaps := dinsert st.instanceMaps cur
                (dinsert ((lookupA st.instanceMaps cur).getD []) iv P.name) }
            [] rfl hcur hargs_nil]
      rw [hstepA]
      show visitStmtList (visitStmt
        { st with
          edges := st.edges ++ [(P.name, cur)]
          instanceMaps := dinsert st.instanceMaps cur
            (dinsert ((lookupA st.instanceMaps cur).getD []) iv P.name) }
        (.exprStmt (.ecall (.eattr (.ename iv) "run") [arg]))) [] = _
      have hstepB : visitStmt
          { st with
            edges := st.edges ++ [(P.name, cur)]
            instanceMaps := dinsert st.instanceMaps cur
              (dinsert ((lookupA st.instanceMaps cur).getD []) iv P.name) }
          (.exprStmt (.ecall (.eattr (.ename iv) "run") [arg]))
          = { st with
              edges := st.edges ++ depE P.kind P.name cur
              instanceMaps := dinsert st.instanceMaps cur
                (dinsert ((lookupA st.instanceMaps cur).getD []) iv P.name) } := by
        simp only [visitStmt]
        rw [visitExpr_call_dispatch
          { st with
            edges := st.edges ++ [(P.name, cur)]
            instanceMaps := dinsert st.instanceMaps cur
              (dinsert ((lookupA st.instanceMaps cur).getD []) iv P.name) }
          cur (.eattr (.ename iv) "run") [arg] hcur]
        have hcel2 : callEdgeLogic
            { st with
              edges := st.edges ++ [(P.name, cur)]
              instanceMaps := dinsert st.instanceMaps cur
                (dinsert ((lookupA st.instanceMaps cur).getD []) iv P.name) }
            cur (.eattr (.ename iv) "run")
            = { st with
                edges := st.edges ++ depE P.kind P.name cur
                instanceMaps := dinsert st.instanceMaps cur
                  (dinsert ((lookupA st.instanceMaps cur).getD []) iv P.name) } := by
          simp only [callEdgeLogic, if_pos rfl, lookupA_dinsert_self,
            Option.getD_some, hreg]
          simp only [depE, if_neg hne]
          simp [List.append_assoc]
        rw [hcel2]
        rw [show visitExpr
            { st with
              edges := st.edges ++ depE P.kind P.name cur
              instanceMaps := dinsert st.instanceMaps cur
                (dinsert ((lookupA st.instanceMaps cur).getD []) iv P.name) }
            (.eattr (.ename iv) "run")
            = { st with
                edges := st.edges ++ depE P.kind P.name cur
                instanceMaps := dinsert st.instanceMaps cur
                  (dinsert ((lookupA st.instanceMaps cur).getD []) iv P.name) }
          from rfl]
        exact harg _ rfl
      rw [hstepB]
      rfl
    rcases hgs : generate_random_string r 5 k with ⟨iv, k1⟩
    by_cases hit : P.input_type = it
    · simp only [depCallStmts, if_neg hne, hgs, if_pos hit]
      exact ⟨_, hmain pm iv hargs_pm⟩
    · rcases hlit : generate_random_literal P.input_type r k1 with ⟨lit, k2⟩
      simp only [depCallStmts, if_neg hne, hgs, if_neg hit, hlit]
      exact ⟨_, hmain lit iv (by
        intro st3 h3
        have h4 := hargs_lit k1 P.input_type st3 h3
        rw [hlit] at h4
        exact h4)⟩

/-- Visiting a generated method body records exactly the dependency-call
edges: filler, branching, loops and the transformation line are invisible. -/
theorem visit_method_body (st : GState) (it ot : Option String)
    (fl bc lc : Nat) (deps : List Nat) (nodeList : List NodeInfo) (r : Rng)
    (k : Nat) (E : List (String × String))
    (IM : Nat → List (String × List (String × String)))
    (hclean : ∀ s ∈ snippetNames, lookupA st.nodeTypes s = none)
    (hot : ∀ s, ot = some s → lookupA st.nodeTypes s = none ∧ s ≠ "run")
    (hdep : ∀ k2 : Nat,
      visitStmtList st (depSection deps nodeList it r k2).1
        = { st with edges := st.edges ++ E, instanceMaps := IM k2 }) :
    ∃ k2, visitStmtList st (generate_method_body it ot fl bc lc deps nodeList r k).1
      = { st with edges := st.edges ++ E, instanceMaps := IM k2 } := by
  rcases h1 : generate_random_filler_lines r fl k with ⟨fill, k1⟩
  rcases h2 : generate_branching_code_snippet r bc k1 with ⟨brs, k2⟩
  rcases h3 : generate_loop_code_snippet r lc k2 with ⟨lps, k3⟩
  have hd := hdep k3
  rcases h4 : depSection deps nodeList it r k3 with ⟨dcs, k4⟩
  rw [h4] at hd
  rcases h5 : get_random_transformation_code it ot r k4 with ⟨rhs, k5⟩
  simp only [generate_method_body, h1, h2, h3, h4, h5]
  refine ⟨k3, ?_⟩
  rw [visitStmtList_append, visitStmtList_append, visitStmtList_append,
    visitStmtList_append]
  have hfill : visitStmtList st fill = st := by
    have hv := visit_filler st r fl k
    rw [h1] at hv
    exact hv
  have hbrs : visitStmtList st brs = st := by
    have hv := visit_branching st r bc k1
    rw [h2] at hv
    exact hv
  have hlps : visitStmtList st lps = st := by
    have hv := visit_loops st r (hclean "range" (by decide)) lc k2
    rw [h3] at hv
    exact hv
  rw [hfill, hbrs, hlps, hd]
  have hcleanD : ∀ s ∈ snippetNames,
      lookupA ({ st with edges := st.edges ++ E, instanceMaps := IM k3 } :
        GState).nodeTypes s = none := fun s hs => hclean s hs
  have hotD : ∀ s, ot = some s →
      lookupA ({ st with edges := st.edges ++ E, instanceMaps := IM k3 } :
        GState).nodeTypes s = none ∧ s ≠ "run" := fun s hs => hot s hs
  have hra : visitStmt { st with edges := st.edges ++ E, instanceMaps := IM k3 }
      (.assign [.tname "result"] rhs)
      = { st with edges := st.edges ++ E, instanceMaps := IM k3 } := by
    have hv := visit_result_assign
      { st with edges := st.edges ++ E, instanceMaps := IM k3 } it ot r k4
      hcleanD hotD
    rw [h5] at hv
    exact hv
  show visitStmtList (visitStmt _ (.assign [.tname "result"] rhs))
    [.ret (.ename "result")] = _
  rw [hra]
  rfl

/-- `random.choice` of a nonempty list is one of its elements. -/
theorem choice_mem {α : Type} [Inhabited α] (r : Rng) (k : Nat) (l : List α)
    (h : l ≠ []) : (r.choice k l).1 ∈ l := by
  simp only [Rng.choice]
  have hlen : 0 < l.length := List.length_pos.mpr h
  rw [List.getD_eq_getElem l default (Nat.mod_lt _ hlen)]
  exact List.getElem_mem ..

/-- A list of individually invisible statements is invisible. -/
theorem visitStmtList_inert_of_all (stX : GState) :
    ∀ ss : List Stmt, (∀ s ∈ ss, visitStmt stX s = stX) →
      visitStmtList stX ss = stX := by
  intro ss
  induction ss with
  | nil =>
      intro _
      rfl
  | cons s rest ih =>
      intro h
      show visitStmtList (visitStmt stX s) rest = stX
      rw [h s (List.mem_cons_self _ _)]
      exact ih (fun s2 h2 => h s2 (List.mem_cons_of_mem _ h2))

/-- A dependency-free extra method inside a class body is invisible. -/
theorem visit_methodDef_inert (stX : GState) (nm : String) (eit eot : String)
    (fe bf lf : Nat) (nodeList : List NodeInfo) (r : Rng) (kb : Nat)
    (hstk : stX.classStack ≠ [])
    (hclean : ∀ s ∈ snippetNames, lookupA stX.nodeTypes s = none)
    (heot : eot ∈ snippetNames ∧ eot ≠ "run") :
    visitStmt stX (.functionDef nm
      (generate_method_body (some eit) (some eot) fe bf lf [] nodeList r kb).1)
      = stX := by
  simp only [visitStmt, if_pos hstk]
  obtain ⟨k2, hmb⟩ := visit_method_body stX (some eit) (some eot) fe bf lf []
    nodeList r kb [] (fun _ => stX.instanceMaps) hclean
    (fun s hs => by
      injection hs with hs2
      subst hs2
      exact ⟨hclean eot heot.1, heot.2⟩)
    (fun k3 => by
      show visitStmtList stX [] = _
      show stX = _
      simp)
  rw [hmb]
  simp

/-- Every statement accumulated by the extra-methods fold of a class
section is a dependency-free method with `DATA_TYPES` signature. -/
theorem extras_fold_shape_aux (r : Rng) (nodeList : List NodeInfo)
    (fe bf lf : Nat) (P : Stmt → Prop)
    (hP : ∀ nm eit eot kb, eit ∈ DATA_TYPES → eot ∈ DATA_TYPES →
      P (.functionDef nm
        (generate_method_body (some eit) (some eot) fe bf lf [] nodeList r kb).1)) :
    ∀ (js : List Nat) (acc : List Stmt) (k : Nat),
      (∀ s ∈ acc, P s) →
      ∀ s ∈ (js.foldl
          (fun (p : List Stmt × Nat) j =>
            let (eit, ka) := r.choice p.2 DATA_TYPES
            let (eot, kb) := r.choice ka DATA_TYPES
            let (ebody, kc) := generate_method_body (some eit) (some eot)
              fe bf lf [] nodeList r kb
            (p.1 ++ [Stmt.functionDef ("method_" ++ toString j) ebody], kc))
          (acc, k)).1, P s := by
  intro js
  induction js with
  | nil =>
      intro acc k hacc s hs
      exact hacc s hs
  | cons j js ih =>
      intro acc k hacc s hs
      rw [List.foldl_cons] at hs
      rcases hc1 : r.choice k DATA_TYPES with ⟨eit, ka⟩
      rcases hc2 : r.choice ka DATA_TYPES with ⟨eot, kb⟩
      rcases hc3 : generate_method_body (some eit) (some eot) fe bf lf []
        nodeList r kb with ⟨ebody, kc⟩
      simp only [hc1, hc2, hc3] at hs
      refine ih _ _ ?_ s hs
      intro s2 hs2
      rcases List.mem_append.mp hs2 with h | h
      · exact hacc s2 h
      · rw [List.mem_singleton.mp h]
        have he1 : eit ∈ DATA_TYPES := by
          have := choice_mem r k DATA_TYPES (by decide)
          rw [hc1] at this
          exact this
        have he2 : eot ∈ DATA_TYPES := by
          have := choice_mem r ka DATA_TYPES (by decide)
          rw [hc2] at this
          exact this
        have := hP ("method_" ++ toString j) eit eot kb he1 he2
        rw [hc3] at this
        exact this

/-- Membership form of `extras_fold_shape_aux` for `extrasFold`. -/
theorem extras_fold_shape (r : Rng) (nodeList : List NodeInfo)
    (fe bf lf : Nat) (P : Stmt → Prop)
    (hP : ∀ nm eit eot kb, eit ∈ DATA_TYPES → eot ∈ DATA_TYPES →
      P (.functionDef nm
        (generate_method_body (some eit) (some eot) fe bf lf [] nodeList r kb).1))
    (n k : Nat) : ∀ s ∈ (extrasFold nodeList fe bf lf r n k).1, P s :=
  extras_fold_shape_aux r nodeList fe bf lf P hP (List.range n) [] k
    (fun s hs => absurd hs (List.not_mem_nil s))

/-- Visiting one emitted node section registers the node under its kind
and records exactly the edges of its dependency calls. -/
theorem visit_genSection (st : GState) (node : NodeInfo)
    (nodeList : List NodeInfo) (adjC : List (List Nat)) (i : Nat)
    (avg bf lf : Nat) (r : Rng) (k : Nat)
    (E : List (String × String))
    (hstack : st.classStack = [])
    (hclean : ∀ s ∈ snippetNames, lookupA st.nodeTypes s = none)
    (hkind : node.kind = "function" ∨ node.kind = "class")
    (hname1 : node.name ∉ snippetNames)
    (hot : ∀ s, node.output_type = some s → s ∈ snippetNames ∧ s ≠ "run")
    (hdep : ∀ (st2 : GState) (k2 : Nat),
      st2.nodeTypes = dinsert st.nodeTypes node.name node.kind →
      st2.current = some node.name →
      ∃ im, visitStmtList st2 (depSection (adjC.getD i []) nodeList
          node.input_type r k2).1
        = { st2 with edges := st2.edges ++ E, instanceMaps := im }) :
    ∃ im, visitStmt st (genSection avg bf lf nodeList adjC r i node k).1
      = { st with
          nodeTypes := dinsert st.nodeTypes node.name node.kind
          edges := st.edges ++ E
          instanceMaps := im } := by
  rcases hg : r.gaussLen k with ⟨est, k1⟩
  have hDT : ∀ x ∈ DATA_TYPES, x ∈ snippetNames ∧ x ≠ "run" := by decide
  rcases hkind with hkf | hkc
  · -- function node
    rcases hb : generate_method_body node.input_type node.output_type
        (est - bf - lf) bf lf (adjC.getD i []) nodeList r k1 with ⟨body, k2⟩
    simp only [genSection, hg, if_pos hkf, hb]
    have hcond : ¬(st.classStack ≠ []) := by
      rw [hstack]
      simp
    simp only [visitStmt, if_neg hcond]
    have hclean1 : ∀ s ∈ snippetNames,
        lookupA (dinsert st.nodeTypes node.name "function") s = none := by
      intro s hs
      rw [lookupA_dinsert_ne st.nodeTypes node.name s "function"
        (fun h => hname1 (h ▸ hs))]
      exact hclean s hs
    have hdep1 : ∀ k2', ∃ im, visitStmtList
        { st with
          nodeTypes := dinsert st.nodeTypes node.name "function"
          current := some node.name
          instanceMaps := dinsert st.instanceMaps node.name [] }
        (depSection (adjC.getD i []) nodeList node.input_type r k2').1
        = { ({ st with
              nodeTypes := dinsert st.nodeTypes node.name "function"
              current := some node.name
              instanceMaps := dinsert st.instanceMaps node.name [] } : GState) with
            edges := st.edges ++ E
            instanceMaps := im } := by
      intro k2'
      exact hdep _ k2' (by rw [hkf]) rfl
    choose IM hIM using hdep1
    obtain ⟨k3, hmb⟩ := visit_method_body
      { st with
        nodeTypes := dinsert st.nodeTypes node.name "function"
        current := some node.name
        instanceMaps := dinsert st.instanceMaps node.name [] }
      node.input_type node.output_type (est - bf - lf) bf lf (adjC.getD i [])
      nodeList r k1 E IM
      (fun s hs => hclean1 s hs)
      (fun s hs => ⟨hclean1 s (hot s hs).1, (hot s hs).2⟩)
      hIM
    rw [hb] at hmb
    refine ⟨IM k3, ?_⟩
    rw [hmb, hkf]
  · -- class node
    have hne : ¬ node.kind = "function" := by
      rw [hkc]
      decide
    rcases hrb : generate_method_body node.input_type node.output_type
        (est / 2 - bf - lf) bf lf (adjC.getD i []) nodeList r k1 with ⟨runBody, k2⟩
    rcases hnx : r.randint k2 1 3 with ⟨numX, k3⟩
    rcases hex : extrasFold nodeList (est / 3 - bf - lf) bf lf r numX k3
      with ⟨extras, k4⟩
    simp only [genSection, hg, if_neg hne, hrb, hnx, hex]
    simp only [visitStmt]
    have hclean1 : ∀ s ∈ snippetNames,
        lookupA (dinsert st.nodeTypes node.name "class") s = none := by
      intro s hs
      rw [lookupA_dinsert_ne st.nodeTypes node.name s "class"
        (fun h => hname1 (h ▸ hs))]
      exact hclean s hs
    have hdep1 : ∀ k2', ∃ im, visitStmtList
        { st with
          nodeTypes := dinsert st.nodeTypes node.name "class"
          classStack := node.name :: st.classStack
          current := some node.name
          instanceMaps := dinsert st.instanceMaps node.name [] }
        (depSection (adjC.getD i []) nodeList node.input_type r k2').1
        = { ({ st with
              nodeTypes := dinsert st.nodeTypes node.name "class"
              classStack := node.name :: st.classStack
              current := some node.name
              instanceMaps := dinsert st.instanceMaps node.name [] } : GState) with
            edges := st.edges ++ E
            instanceMaps := im } := by
      intro k2'
      exact hdep _ k2' (by rw [hkc]) rfl
    choose IM hIM using hdep1
    obtain ⟨k5, hmb⟩ := visit_method_body
      { st with
        nodeTypes := dinsert st.nodeTypes node.name "class"
        classStack := node.name :: st.classStack
        current := some node.name
        instanceMaps := dinsert st.instanceMaps node.name [] }
      node.input_type node.output_type (est / 2 - bf - lf) bf lf (adjC.getD i [])
      nodeList r k1 E IM
      (fun s hs => hclean1 s hs)
      (fun s hs => ⟨hclean1 s (hot s hs).1, (hot s hs).2⟩)
      hIM
    rw [hrb] at hmb
    have hstk1 : ({ st with
        nodeTypes := dinsert st.nodeTypes node.name "class"
        classStack := node.name :: st.classStack
        current := some node.name
        instanceMaps := dinsert st.instanceMaps node.name [] } : GState).classStack
        ≠ [] := by
      simp
    have hinit : visitStmt
        { st with
          nodeTypes := dinsert st.nodeTypes node.name "class"
          classStack := node.name :: st.classStack
          current := some node.name
          instanceMaps := dinsert st.instanceMaps node.name [] }
        (.functionDef "__init__" [.spass])
        = { st with
            nodeTypes := dinsert st.nodeTypes node.name "class"
            classStack := node.name :: st.classStack
            current := some node.name
            instanceMaps := dinsert st.instanceMaps node.name [] } := by
      simp only [visitStmt, if_pos hstk1]
      rfl
    have hrun : visitStmt
        { st with
          nodeTypes := dinsert st.nodeTypes node.name "class"
          classStack := node.name :: st.classStack
          current := some node.name
          instanceMaps := dinsert st.instanceMaps node.name [] }
        (.functionDef "run" runBody)
        = { ({ st with
              nodeTypes := dinsert st.nodeTypes node.name "class"
              classStack := node.name :: st.classStack
              current := some node.name
              instanceMaps := dinsert st.instanceMaps node.name [] } : GState) with
            edges := st.edges ++ E
            instanceMaps := IM k5 } := by
      simp only [visitStmt, if_pos hstk1]
      exact hmb
    have h12 : visitStmtList
        { st with
          nodeTypes := dinsert st.nodeTypes node.name "class"
          classStack := node.name :: st.classStack
          current := some node.name
          instanceMaps := dinsert st.instanceMaps node.name [] }
        [.functionDef "__init__" [.spass], .functionDef "run" runBody]
        = { ({ st with
              nodeTypes := dinsert st.nodeTypes node.name "class"
              classStack := node.name :: st.classStack
              current := some node.name
              instanceMaps := dinsert st.instanceMaps node.name [] } : GState) with
            edges := st.edges ++ E
            instanceMaps := IM k5 } := by
      show visitStmtList (visitStmt _ (.functionDef "__init__" [.spass]))
        [.functionDef "run" runBody] = _
      rw [hinit]
      show visitStmtList (visitStmt _ (.functionDef "run" runBody)) [] = _
      rw [hrun]
      rfl
    have hextr : visitStmtList
        { st with
          nodeTypes := dinsert st.nodeTypes node.name "class"
          classStack := node.name :: st.classStack
          current := some node.name
          edges := st.edges ++ E
          instanceMaps := IM k5 }
        extras
        = { st with
            nodeTypes := dinsert st.nodeTypes node.name "class"
            classStack := node.name :: st.classStack
            current := some node.name
            edges := st.edges ++ E
            instanceMaps := IM k5 } := by
      apply visitStmtList_inert_of_all
      intro s hs
      have hshape := extras_fold_shape r nodeList (est / 3 - bf - lf) bf lf
        (fun s2 => visitStmt
          { st with
            nodeTypes := dinsert st.nodeTypes node.name "class"
            classStack := node.name :: st.classStack
            current := some node.name
            edges := st.edges ++ E
            instanceMaps := IM k5 } s2
          = { st with
              nodeTypes := dinsert st.nodeTypes node.name "class"
              classStack := node.name :: st.classStack
              current := some node.name
              edges := st.edges ++ E
              instanceMaps := IM k5 })
        (fun nm eit eot kb he1 he2 =>
          visit_methodDef_inert _ nm eit eot _ bf lf nodeList r kb
            (by simp)
            (fun s2 hs2 => hclean1 s2 hs2)
            (hDT eot he2))
        numX k3
      rw [hex] at hshape
      exact hshape s hs
    refine ⟨IM k5, ?_⟩
    rw [visitStmtList_append, h12]
    have hextr2 : visitStmtList
        { ({ st with
            nodeTypes := dinsert st.nodeTypes node.name "class"
            classStack := node.name :: st.classStack
            current := some node.name
            instanceMaps := dinsert st.instanceMaps node.name [] } : GState) with
          edges := st.edges ++ E
          instanceMaps := IM k5 }
        extras
        = { ({ st with
            nodeTypes := dinsert st.nodeTypes node.name "class"
            classStack := node.name :: st.classStack
            current := some node.name
            instanceMaps := dinsert st.instanceMaps node.name [] } : GState) with
          edges := st.edges ++ E
          instanceMaps := IM k5 } := hextr
    rw [hextr2, hkc]
    rfl

/-- A bare call to a registered name records one edge to the current
context. -/
theorem visitExpr_call_registered (st : GState) (cur f tk : String)
    (args : List Expr)
    (hc : st.current = some cur)
    (hreg : lookupA st.nodeTypes f = some tk)
    (hrun : f ≠ "run")
    (hargs : ∀ st3 : GState, st3.nodeTypes = st.nodeTypes →
      visitExprList st3 args = st3) :
    visitExpr st (.ecall (.ename f) args)
      = { st with edges := st.edges ++ [(f, cur)] } := by
  rw [visitExpr_call_dispatch st cur (.ename f) args hc]
  have hcel : callEdgeLogic st cur (.ename f)
      = { st with edges := st.edges ++ [(f, cur)] } := by
    have hcond : ¬(f = "run" ∧ st.classStack ≠ []) := fun h => hrun h.1
    simp only [callEdgeLogic, if_neg hcond, hreg]
    simp
  rw [hcel]
  rw [show visitExpr { st with edges := st.edges ++ [(f, cur)] } (.ename f)
    = { st with edges := st.edges ++ [(f, cur)] } from rfl]
  exact hargs _ rfl

/-- An `inst.run(...)` call whose receiver is bound to a registered class
records one edge to the current context. -/
theorem visitExpr_attr_run_registered (st : GState) (cur iv f tk : String)
    (args : List Expr)
    (hc : st.current = some cur)
    (hmap : lookupA ((lookupA st.instanceMaps cur).getD []) iv = some f)
    (hreg : lookupA st.nodeTypes f = some tk)
    (hargs : ∀ st3 : GState, st3.nodeTypes = st.nodeTypes →
      visitExprList st3 args = st3) :
    visitExpr st (.ecall (.eattr (.ename iv) "run") args)
      = { st with edges := st.edges ++ [(f, cur)] } := by
  rw [visitExpr_call_dispatch st cur (.eattr (.ename iv) "run") args hc]
  have hcel : callEdgeLogic st cur (.eattr (.ename iv) "run")
      = { st with edges := st.edges ++ [(f, cur)] } := by
    simp only [callEdgeLogic, if_pos rfl, hmap, hreg]
    simp
  rw [hcel]
  rw [show visitExpr { st with edges := st.edges ++ [(f, cur)] }
    (.eattr (.ename iv) "run") = { st with edges := st.edges ++ [(f, cur)] }
    from rfl]
  exact hargs _ rfl

/-- Assigning a generated literal changes nothing. -/
theorem visit_assign_literal (stX : GState) (tg : List Target)
    (dt : Option String) (r : Rng) (k : Nat)
    (hcomplex : lookupA stX.nodeTypes "complex" = none) :
    visitStmt stX (.assign tg (generate_random_literal dt r k).1) = stX := by
  simp only [visitStmt]
  have hb : assignBindLogic stX tg (generate_random_literal dt r k).1 = stX := by
    apply assignBind_clean
    intro cls args he
    revert he
    unfold generate_random_literal
    split_ifs <;> intro he <;>
      first
        | (cases he
           done)
        | (cases he
           rw [hcomplex]
           exact fun h => Option.noConfusion h)
  rw [hb]
  exact visit_literal stX dt r k hcomplex

/-- Visiting the driver statements emitted for node `i` in `main()`
records exactly the node-to-main edge(s). -/
theorem visit_mainStmtsFor (st : GState) (nodeList : List NodeInfo)
    (adj : List (List Nat)) (r : Rng) (i k : Nat)
    (hcur : st.current = some "main")
    (hkind : (nodeList.getD i dfltNode).kind = "function"
      ∨ (nodeList.getD i dfltNode).kind = "class")
    (hreg : lookupA st.nodeTypes (nodeList.getD i dfltNode).name
      = some (nodeList.getD i dfltNode).kind)
    (hrun : (nodeList.getD i dfltNode).name ≠ "run")
    (hcomplex : lookupA st.nodeTypes "complex" = none) :
    ∃ im, visitStmtList st (mainStmtsFor nodeList adj r i k).1
      = { st with
          edges := st.edges ++ depE (nodeList.getD i dfltNode).kind
            (nodeList.getD i dfltNode).name "main"
          instanceMaps := im } := by
  have hargs_triv : ∀ st3 : GState, st3.nodeTypes = st.nodeTypes →
      visitExprList st3 [Expr.ename "parameter_value"] = st3 := fun st3 _ => rfl
  have htail : ∀ st4 : GState,
      visitStmt st4 (.assign [.tother] (.ename "output_value")) = st4 := by
    intro st4
    simp only [visitStmt]
    rw [assignBind_clean st4 _ _ (fun cls args h => by cases h)]
    rfl
  have hfun2 : (nodeList.getD i dfltNode).kind = "function" →
      visitStmtList st
        [Stmt.assign [.tname "output_value"]
          (bcall (nodeList.getD i dfltNode).name [.ename "parameter_value"]),
         Stmt.assign [.tother] (.ename "output_value")]
        = { st with
            edges := st.edges ++ depE (nodeList.getD i dfltNode).kind
              (nodeList.getD i dfltNode).name "main"
            instanceMaps := st.instanceMaps } := by
    intro hkf
    have hstep : visitStmt st (.assign [.tname "output_value"]
        (bcall (nodeList.getD i dfltNode).name [.ename "parameter_value"]))
        = { st with edges := st.edges ++ [((nodeList.getD i dfltNode).name, "main")] } := by
      simp only [visitStmt]
      have hb : assignBindLogic st [.tname "output_value"]
          (bcall (nodeList.getD i dfltNode).name [.ename "parameter_value"]) = st := by
        apply assignBind_clean
        intro cls args he
        rw [bcall] at he
        injection he with h1 h2
        injection h1 with h3
        rw [← h3, hreg, hkf]
        simp
      rw [hb, bcall]
      exact visitExpr_call_registered st "main" (nodeList.getD i dfltNode).name
        (nodeList.getD i dfltNode).kind _ hcur hreg hrun hargs_triv
    show visitStmtList (visitStmt st _) [Stmt.assign [.tother] (.ename "output_value")] = _
    rw [hstep]
    show visitStmtList (visitStmt _ (.assign [.tother] (.ename "output_value"))) [] = _
    rw [htail]
    rw [depE, if_pos hkf]
    rfl
  have hcls2 : (nodeList.getD i dfltNode).kind = "class" →
      visitStmtList st
        [Stmt.assign [.tname ("instance_" ++ toString i)]
          (bcall (nodeList.getD i dfltNode).name []),
         Stmt.assign [.tname "output_value"]
          (acall (.ename ("instance_" ++ toString i)) "run"
            [.ename "parameter_value"]),
         Stmt.assign [.tother] (.ename "output_value")]
        = { st with
            edges := st.edges ++ depE (nodeList.getD i dfltNode).kind
              (nodeList.getD i dfltNode).name "main"
            instanceMaps := dinsert st.instanceMaps "main"
              (dinsert ((lookupA st.instanceMaps "main").getD [])
                ("instance_" ++ toString i) (nodeList.getD i dfltNode).name) } := by
    intro hkc
    have hne : ¬ (nodeList.getD i dfltNode).kind = "function" := by
      rw [hkc]
      decide
    have hbind : assignBindLogic st [.tname ("instance_" ++ toString i)]
        (.ecall (.ename (nodeList.getD i dfltNode).name) [])
        = { st with
            instanceMaps := dinsert st.instanceMaps "main"
              (dinsert ((lookupA st.instanceMaps "main").getD [])
                ("instance_" ++ toString i) (nodeList.getD i dfltNode).name) } := by
      rw [hkc] at hreg
      simp only [assignBindLogic, hcur, hreg]
      simp
    have hstepA : visitStmt st (.assign [.tname ("instance_" ++ toString i)]
        (bcall (nodeList.getD i dfltNode).name []))
        = { st with
            edges := st.edges ++ [((nodeList.getD i dfltNode).name, "main")]
            instanceMaps := dinsert st.instanceMaps "main"
              (dinsert ((lookupA st.instanceMaps "main").getD [])
                ("instance_" ++ toString i) (nodeList.getD i dfltNode).name) } := by
      simp only [visitStmt, bcall]
      rw [hbind]
      rw [visitExpr_call_registered
        { st with
          instanceMaps := dinsert st.instanceMaps "main"
            (dinsert ((lookupA st.instanceMaps "main").getD [])
              ("instance_" ++ toString i) (nodeList.getD i dfltNode).name) }
        "main" (nodeList.getD i dfltNode).name (nodeList.getD i dfltNode).kind
        [] hcur hreg hrun (fun st3 _ => rfl)]
    have hstepB : visitStmt
        { st with
          edges := st.edges ++ [((nodeList.getD i dfltNode).name, "main")]
          instanceMaps := dinsert st.instanceMaps "main"
            (dinsert ((lookupA st.instanceMaps "main").getD [])
              ("instance_" ++ toString i) (nodeList.getD i dfltNode).name) }
        (.assign [.tname "output_value"]
          (acall (.ename ("instance_" ++ toString i)) "run"
            [.ename "parameter_value"]))
        = { st with
            edges := (st.edges ++ [((nodeList.getD i dfltNode).name, "main")])
              ++ [((nodeList.getD i dfltNode).name, "main")]
            instanceMaps := dinsert st.instanceMaps "main"
              (dinsert ((lookupA st.instanceMaps "main").getD [])
                ("instance_" ++ toString i) (nodeList.getD i dfltNode).name) } := by
      simp only [visitStmt, acall]
      have hb2 : assignBindLogic
          { st with
            edges := st.edges ++ [((nodeList.getD i dfltNode).name, "main")]
            instanceMaps := dinsert st.instanceMaps "main"
              (dinsert ((lookupA st.instanceMaps "main").getD [])
                ("instance_" ++ toString i) (nodeList.getD i dfltNode).name) }
          [.tname "output_value"]
          (.ecall (.eattr (.ename ("instance_" ++ toString i)) "run")
            [.ename "parameter_value"]) = _ :=
        assignBind_clean _ _ _ (fun cls args h => by
          injection h with h1 h2
          cases h1)
      rw [hb2]
      exact visitExpr_attr_run_registered _ "main" ("instance_" ++ toString i)
        (nodeList.getD i dfltNode).name (nodeList.getD i dfltNode).kind
        [.ename "parameter_value"] hcur
        (by
          rw [lookupA_dinsert_self, Option.getD_some, lookupA_dinsert_self])
        hreg (fun st3 _ => rfl)
    show visitStmtList (visitStmt st _) [_, _] = _
    rw [hstepA]
    show visitStmtList (visitStmt _ _) [_] = _
    rw [hstepB]
    show visitStmtList (visitStmt _ (.assign [.tother] (.ename "output_value"))) [] = _
    rw [htail]
    show _ = ({ st with
        edges := st.edges ++ depE (nodeList.getD i dfltNode).kind
          (nodeList.getD i dfltNode).name "main"
        instanceMaps := dinsert st.instanceMaps "main"
          (dinsert ((lookupA st.instanceMaps "main").getD [])
            ("instance_" ++ toString i) (nodeList.getD i dfltNode).name) } : GState)
    rw [depE, if_neg hne]
    simp [visitStmtList, List.append_assoc]
  rcases hpar : adj.getD i [] with _ | ⟨d, ds⟩
  · rcases hlit : generate_random_literal (nodeList.getD i dfltNode).input_type
        r k with ⟨lit, kl⟩
    have hpa : visitStmt st (.assign [.tname "parameter_value"] lit) = st := by
      have hv := visit_assign_literal st [.tname "parameter_value"]
        (nodeList.getD i dfltNode).input_type r k hcomplex
      rw [hlit] at hv
      exact hv
    rcases hkind with hkf | hkc
    · simp only [mainStmtsFor, hpar, hlit, if_pos hkf, List.cons_append,
        List.nil_append]
      refine ⟨st.instanceMaps, ?_⟩
      show visitStmtList (visitStmt st (.assign [.tname "parameter_value"] lit))
        [_, _] = _
      rw [hpa]
      exact hfun2 hkf
    · have hne : ¬ (nodeList.getD i dfltNode).kind = "function" := by
        rw [hkc]
        decide
      simp only [mainStmtsFor, hpar, hlit, if_neg hne, List.cons_append,
        List.nil_append]
      refine ⟨dinsert st.instanceMaps "main"
        (dinsert ((lookupA st.instanceMaps "main").getD [])
          ("instance_" ++ toString i) (nodeList.getD i dfltNode).name), ?_⟩
      show visitStmtList (visitStmt st (.assign [.tname "parameter_value"] lit))
        [_, _, _] = _
      rw [hpa]
      exact hcls2 hkc
  · have hpa : visitStmt st (.assign [.tname "parameter_value"]
        (.egroup [.ename "results"])) = st := by
      simp only [visitStmt]
      rw [assignBind_clean st _ _ (fun cls args h => by cases h)]
      rfl
    rcases hkind with hkf | hkc
    · simp only [mainStmtsFor, hpar, if_pos hkf, List.cons_append,
        List.nil_append]
      refine ⟨st.instanceMaps, ?_⟩
      show visitStmtList (visitStmt st (.assign [.tname "parameter_value"]
        (.egroup [.ename "results"]))) [_, _] = _
      rw [hpa]
      exact hfun2 hkf
    · have hne : ¬ (nodeList.getD i dfltNode).kind = "function" := by
        rw [hkc]
        decide
      simp only [mainStmtsFor, hpar, if_neg hne, List.cons_append,
        List.nil_append]
      refine ⟨dinsert st.instanceMaps "main"
        (dinsert ((lookupA st.instanceMaps "main").getD [])
          ("instance_" ++ toString i) (nodeList.getD i dfltNode).name), ?_⟩
      show visitStmtList (visitStmt st (.assign [.tname "parameter_value"]
        (.egroup [.ename "results"]))) [_, _, _] = _
      rw [hpa]
      exact hcls2 hkc

/-- The edges the `main()` driver records, in emission order. -/
def mainEdges (nodeList : List NodeInfo) : List Nat → List (String × String)
  | [] => []
  | i :: rest => depE (nodeList.getD i dfltNode).kind
      (nodeList.getD i dfltNode).name "main" ++ mainEdges nodeList rest

/-- The driver fold's statement list starts with its accumulator. -/
theorem driver_fold_decomp (nodeList : List NodeInfo) (adj : List (List Nat))
    (r : Rng) :
    ∀ (ord : List Nat) (acc : List Stmt) (k : Nat),
      (ord.foldl (fun (p : List Stmt × Nat) i =>
          let (ss, k2) := mainStmtsFor nodeList adj r i p.2
          (p.1 ++ ss, k2)) (acc, k)).1
        = acc ++ (ord.foldl (fun (p : List Stmt × Nat) i =>
            let (ss, k2) := mainStmtsFor nodeList adj r i p.2
            (p.1 ++ ss, k2)) ([], k)).1 := by
  intro ord
  induction ord with
  | nil =>
      intro acc k
      simp
  | cons i rest ih =>
      intro acc k
      rw [List.foldl_cons, List.foldl_cons]
      rcases hms : mainStmtsFor nodeList adj r i k with ⟨ms, k2⟩
      simp only [hms]
      rw [ih (acc ++ ms) k2, ih ([] ++ ms) k2]
      simp

/-- Visiting the whole driver records exactly the node-to-main edges, in
order. -/
theorem visit_driver (nodeList : List NodeInfo) (adj : List (List Nat))
    (r : Rng) :
    ∀ (ord : List Nat) (st : GState) (k : Nat),
      st.current = some "main" →
      lookupA st.nodeTypes "complex" = none →
      (∀ i ∈ ord,
        ((nodeList.getD i dfltNode).kind = "function"
          ∨ (nodeList.getD i dfltNode).kind = "class") ∧
        lookupA st.nodeTypes (nodeList.getD i dfltNode).name
          = some (nodeList.getD i dfltNode).kind ∧
        (nodeList.getD i dfltNode).name ≠ "run") →
      ∃ im, visitStmtList st ((ord.foldl (fun (p : List Stmt × Nat) i =>
          let (ss, k2) := mainStmtsFor nodeList adj r i p.2
          (p.1 ++ ss, k2)) ([], k)).1)
        = { st with
            edges := (st.edges ++ mainEdges nodeList ord)
            instanceMaps := im } := by
  intro ord
  induction ord with
  | nil =>
      intro st k _ _ _
      refine ⟨st.instanceMaps, ?_⟩
      show st = _
      simp [mainEdges]
  | cons i rest ih =>
      intro st k hcur hcomplex hfacts
      rw [List.foldl_cons]
      rcases hms : mainStmtsFor nodeList adj r i k with ⟨ms, k2⟩
      simp only [hms, List.nil_append]
      rw [driver_fold_decomp nodeList adj r rest ms k2, visitStmtList_append]
      obtain ⟨hk, hr, hn⟩ := hfacts i (List.mem_cons_self _ _)
      obtain ⟨im1, h1⟩ := visit_mainStmtsFor st nodeList adj r i k hcur hk hr hn
        hcomplex
      rw [hms] at h1
      rw [h1]
      obtain ⟨im2, h2⟩ := ih
        { st with
          edges := st.edges ++ depE (nodeList.getD i dfltNode).kind
            (nodeList.getD i dfltNode).name "main"
          instanceMaps := im1 }
        k2 hcur hcomplex
        (fun j hj => hfacts j (List.mem_cons_of_mem _ hj))
      rw [h2]
      refine ⟨im2, ?_⟩
      simp [mainEdges, List.append_assoc]

/-- Visiting the `main()` body records exactly the driver edges. -/
theorem visit_mainBody (st : GState) (ord : List Nat)
    (nodeList : List NodeInfo) (adj : List (List Nat)) (r : Rng) (k : Nat)
    (hcur : st.current = some "main")
    (hclean : ∀ s ∈ snippetNames, lookupA st.nodeTypes s = none)
    (hfacts : ∀ i ∈ ord,
      ((nodeList.getD i dfltNode).kind = "function"
        ∨ (nodeList.getD i dfltNode).kind = "class") ∧
      lookupA st.nodeTypes (nodeList.getD i dfltNode).name
        = some (nodeList.getD i dfltNode).kind ∧
      (nodeList.getD i dfltNode).name ≠ "run") :
    ∃ im, visitStmtList st (mainBody ord nodeList adj r k).1
      = { st with
          edges := (st.edges ++ mainEdges nodeList ord)
          instanceMaps := im } := by
  obtain ⟨im, hdrv⟩ := visit_driver nodeList adj r ord st k hcur
    (hclean "complex" (by decide)) hfacts
  rcases hfold : ord.foldl (fun (p : List Stmt × Nat) i =>
      let (ss, k2) := mainStmtsFor nodeList adj r i p.2
      (p.1 ++ ss, k2)) ([], k) with ⟨driver, k1⟩
  rw [hfold] at hdrv
  simp only [mainBody, hfold]
  refine ⟨im, ?_⟩
  show visitStmtList (visitStmt st .spass) (([.assign [.tname "results"] .econst]
    ++ driver) ++ [.exprStmt (bcall "print" [.econst]),
      .sfor (acall (.ename "results") "items" [])
        [.exprStmt (bcall "print" [.egroup [.ename "key", .ename "value"]])]]) = _
  rw [show visitStmt st .spass = st from rfl]
  rw [visitStmtList_append, visitStmtList_append]
  have hres : visitStmtList st [.assign [.tname "results"] .econst] = st := by
    show visitStmtList (visitStmt st (.assign [.tname "results"] .econst)) [] = st
    rw [visitStmt_assign_clean st _ _ hclean (by decide)]
    rfl
  rw [hres, hdrv]
  have hprint : visitStmt
      ({ st with
          edges := st.edges ++ mainEdges nodeList ord
          instanceMaps := im } : GState)
      (.exprStmt (bcall "print" [.econst]))
      = { st with
          edges := st.edges ++ mainEdges nodeList ord
          instanceMaps := im } := by
    simp only [visitStmt, bcall]
    rw [visitExpr_call_bare
      ({ st with
          edges := st.edges ++ mainEdges nodeList ord
          instanceMaps := im } : GState)
      "print" [.econst] (hclean "print" (by decide)) (by decide)]
    rfl
  have hfor : visitStmt
      ({ st with
          edges := st.edges ++ mainEdges nodeList ord
          instanceMaps := im } : GState)
      (.sfor (acall (.ename "results") "items" [])
        [.exprStmt (bcall "print" [.egroup [.ename "key", .ename "value"]])])
      = { st with
          edges := st.edges ++ mainEdges nodeList ord
          instanceMaps := im } := by
    simp only [visitStmt, acall]
    rw [visitExpr_call_attr _ (.ename "results") "items" [] (by decide)]
    rw [show visitExpr ({ st with
          edges := st.edges ++ mainEdges nodeList ord
          instanceMaps := im } : GState) (.ename "results")
      = { st with
          edges := st.edges ++ mainEdges nodeList ord
          instanceMaps := im } from rfl]
    rw [show visitExprList ({ st with
          edges := st.edges ++ mainEdges nodeList ord
          instanceMaps := im } : GState) []
      = { st with
          edges := st.edges ++ mainEdges nodeList ord
          instanceMaps := im } from rfl]
    show visitStmtList (visitStmt _ (.exprStmt (bcall "print"
      [.egroup [.ename "key", .ename "value"]]))) [] = _
    have hp2 : visitStmt
        ({ st with
            edges := st.edges ++ mainEdges nodeList ord
            instanceMaps := im } : GState)
        (.exprStmt (bcall "print" [.egroup [.ename "key", .ename "value"]]))
        = { st with
            edges := st.edges ++ mainEdges nodeList ord
            instanceMaps := im } := by
      simp only [visitStmt, bcall]
      rw [visitExpr_call_bare
        ({ st with
            edges := st.edges ++ mainEdges nodeList ord
            instanceMaps := im } : GState)
        "print" [.egroup [.ename "key", .ename "value"]]
        (hclean "print" (by decide)) (by decide)]
      rfl
    rw [hp2]
    rfl
  show visitStmtList (visitStmt _ (.exprStmt (bcall "print" [.econst]))) [_] = _
  rw [hprint]
  show visitStmtList (visitStmt _ _) [] = _
  rw [hfor]
  rfl

/-- Visiting the emitted `main` definition registers `main` as a function
node and records the driver edges. -/
theorem visit_main_def (st : GState) (ord : List Nat)
    (nodeList : List NodeInfo) (adj : List (List Nat)) (r : Rng) (k : Nat)
    (hstack : st.classStack = [])
    (hclean : ∀ s ∈ snippetNames, lookupA st.nodeTypes s = none)
    (hmain : lookupA st.nodeTypes "main" = none)
    (hfacts : ∀ i ∈ ord,
      ((nodeList.getD i dfltNode).kind = "function"
        ∨ (nodeList.getD i dfltNode).kind = "class") ∧
      lookupA st.nodeTypes (nodeList.getD i dfltNode).name
        = some (nodeList.getD i dfltNode).kind ∧
      (nodeList.getD i dfltNode).name ≠ "run") :
    ∃ im, visitStmt st (.functionDef "main" (mainBody ord nodeList adj r k).1)
      = { st with
          nodeTypes := dinsert st.nodeTypes "main" "function"
          edges := (st.edges ++ mainEdges nodeList ord)
          instanceMaps := im } := by
  have hcond : ¬(st.classStack ≠ []) := by
    rw [hstack]
    simp
  simp only [visitStmt, if_neg hcond]
  have hclean1 : ∀ s ∈ snippetNames,
      lookupA (dinsert st.nodeTypes "main" "function") s = none := by
    intro s hs
    rw [lookupA_dinsert_ne st.nodeTypes "main" s "function"
      (fun h => by rw [h] at hs; exact absurd hs (by decide))]
    exact hclean s hs
  obtain ⟨im, hmb⟩ := visit_mainBody
    { st with
      nodeTypes := dinsert st.nodeTypes "main" "function"
      current := some "main"
      instanceMaps := dinsert st.instanceMaps "main" [] }
    ord nodeList adj r k rfl
    (fun s hs => hclean1 s hs)
    (fun i hi => by
      obtain ⟨h1, h2, h3⟩ := hfacts i hi
      refine ⟨h1, ?_, h3⟩
      show lookupA (dinsert st.nodeTypes "main" "function") _ = _
      rw [lookupA_dinsert_ne st.nodeTypes "main" _ "function" (fun h => by
        rw [h] at h2
        rw [hmain] at h2
        cases h2)]
      exact h2)
  refine ⟨im, ?_⟩
  rw [hmb]

/-- The `if __name__ == "__main__"` guard is invisible: at module level
there is no current context, so even the `main()` call records nothing. -/
theorem visit_guard (st : GState) (hcurnone : st.current = none) :
    visitStmt st (.sif (.egroup [.ename "__name__", .econst])
      [.exprStmt (bcall "main" [])] []) = st := by
  simp only [visitStmt]
  rw [show visitExpr st (.egroup [.ename "__name__", .econst]) = st from rfl]
  have hcall : visitStmt st (.exprStmt (bcall "main" [])) = st := by
    simp only [visitStmt, bcall, visitExpr, hcurnone]
    rfl
  show visitStmtList (visitStmtList st [.exprStmt (bcall "main" [])]) [] = st
  rw [show visitStmtList st [.exprStmt (bcall "main" [])]
    = visitStmt st (.exprStmt (bcall "main" [])) from rfl]
  rw [hcall]
  rfl

/-! ## The chain-mode round trip (claim C1) -/

/-- `build_adjacency_list` in `chain` mode is the chain construction. -/
theorem build_adjacency_chain (num conn : Nat) (r : Rng) (k : Nat) :
    build_adjacency_list num "chain" conn r k = (chainAdj num, k) := by
  unfold build_adjacency_list
  rw [if_pos rfl]

/-- The concrete five-node chain adjacency. -/
theorem chainAdj_five : chainAdj 5 = [[], [0], [1], [2], [3]] := by decide

/-- Kahn's pass on the five-node chain returns the identity order and
keeps the adjacency. -/
theorem remove_cycles_chain_five :
    remove_cycles_and_get_topological_order [[], [0], [1], [2], [3]]
      = ([0, 1, 2, 3, 4], [[], [0], [1], [2], [3]]) := by decide

/-- A unification step on a node with at most one parent never prunes
the adjacency. -/
theorem unifyStep_adj_short (r : Rng) (nodes : List NodeInfo)
    (adj : List (List Nat)) (k i : Nat) (h : (adj.getD i []).length ≤ 1) :
    (unifyStep r (nodes, adj, k) i).2.1 = adj := by
  rcases hp : adj.getD i [] with _ | ⟨p0, ps⟩
  · rcases hC : r.choice k DATA_TYPES with ⟨t, k1⟩
    rcases hO : r.choice k1 DATA_TYPES with ⟨ot, k2⟩
    simp only [unifyStep, hp, hC, hO]
  · have hps : ps = [] := by
      rw [hp] at h
      simp only [List.length_cons] at h
      exact List.length_eq_zero.mp (by omega)
    subst hps
    have hd : (([p0] : List Nat).map
        (fun p => (nodes.getD p dfltNode).output_type)).dedup.length = 1 := by
      simp
    rcases hO : r.choice k DATA_TYPES with ⟨ot, k2⟩
    simp only [unifyStep, hp, if_pos hd, hO]

/-- Folded unification steps keep a short-rowed adjacency unchanged. -/
theorem unify_fold_adj_short (r : Rng) :
    ∀ (ord : List Nat) (nodes : List NodeInfo) (adj : List (List Nat)) (k : Nat),
      (∀ c, (adj.getD c []).length ≤ 1) →
      (ord.foldl (unifyStep r) (nodes, adj, k)).2.1 = adj := by
  intro ord
  induction ord with
  | nil =>
      intro nodes adj k _
      rfl
  | cons i rest ih =>
      intro nodes adj k hshort
      rw [List.foldl_cons]
      rcases hst : unifyStep r (nodes, adj, k) i with ⟨nodes2, adj2, k2⟩
      have hadj2 : adj2 = adj := by
        have h2 := unifyStep_adj_short r nodes adj k i (hshort i)
        rw [hst] at h2
        exact h2
      rw [hadj2]
      exact ih nodes2 adj k2 hshort

/-- A unification step only rewrites the record at its own index. -/
theorem unifyStep_getD_ne (r : Rng) (nodes : List NodeInfo)
    (adj : List (List Nat)) (k i j : Nat) (h : i ≠ j) :
    ((unifyStep r (nodes, adj, k) j).1).getD i dfltNode = nodes.getD i dfltNode := by
  obtain ⟨it, k2, adj2, ot, heq, -⟩ := unifyStep_cases r nodes adj k j
  rw [heq]
  exact getD_set_ne nodes j i _ dfltNode (fun hh => h hh.symm)

/-- A unification step keeps every record's name and kind. -/
theorem unifyStep_namekind (r : Rng) (nodes : List NodeInfo)
    (adj : List (List Nat)) (k i j : Nat) :
    (((unifyStep r (nodes, adj, k) j).1).getD i dfltNode).name
        = (nodes.getD i dfltNode).name ∧
    (((unifyStep r (nodes, adj, k) j).1).getD i dfltNode).kind
        = (nodes.getD i dfltNode).kind := by
  obtain ⟨it, k2, adj2, ot, heq, -⟩ := unifyStep_cases r nodes adj k j
  rw [heq]
  by_cases hij : i = j
  · subst hij
    by_cases hlt : i < nodes.length
    · rw [getD_set_eq nodes i _ dfltNode hlt]
      exact ⟨rfl, rfl⟩
    · rw [List.set_eq_of_length_le (by omega)]
      exact ⟨rfl, rfl⟩
  · rw [getD_set_ne nodes j i _ dfltNode (fun hh => hij hh.symm)]
    exact ⟨rfl, rfl⟩

/-- A unification step keeps the number of records. -/
theorem unifyStep_nodes_length (r : Rng) (nodes : List NodeInfo)
    (adj : List (List Nat)) (k i : Nat) :
    ((unifyStep r (nodes, adj, k) i).1).length = nodes.length := by
  obtain ⟨it, k2, adj2, ot, heq, -⟩ := unifyStep_cases r nodes adj k i
  rw [heq]
  exact List.length_set ..

/-- The unification fold keeps the number of records. -/
theorem unify_fold_nodes_length (r : Rng) :
    ∀ (ord : List Nat) (nodes : List NodeInfo) (adj : List (List Nat)) (k : Nat),
      ((ord.foldl (unifyStep r) (nodes, adj, k)).1).length = nodes.length := by
  intro ord
  induction ord with
  | nil =>
      intro nodes adj k
      rfl
  | cons i rest ih =>
      intro nodes adj k
      rw [List.foldl_cons]
      rcases hst : unifyStep r (nodes, adj, k) i with ⟨nodes2, adj2, k2⟩
      have h1 := unifyStep_nodes_length r nodes adj k i
      rw [hst] at h1
      rw [ih nodes2 adj2 k2, h1]

/-- The unification fold keeps every record's name and kind. -/
theorem unify_fold_namekind (r : Rng) :
    ∀ (ord : List Nat) (nodes : List NodeInfo) (adj : List (List Nat)) (k i : Nat),
      (((ord.foldl (unifyStep r) (nodes, adj, k)).1).getD i dfltNode).name
          = (nodes.getD i dfltNode).name ∧
      (((ord.foldl (unifyStep r) (nodes, adj, k)).1).getD i dfltNode).kind
          = (nodes.getD i dfltNode).kind := by
  intro ord
  induction ord with
  | nil =>
      intro nodes adj k i
      exact ⟨rfl, rfl⟩
  | cons j rest ih =>
      intro nodes adj k i
      rw [List.foldl_cons]
      rcases hst : unifyStep r (nodes, adj, k) j with ⟨nodes2, adj2, k2⟩
      have h1 := unifyStep_namekind r nodes adj k i j
      rw [hst] at h1
      obtain ⟨g1, g2⟩ := ih nodes2 adj2 k2 i
      exact ⟨by rw [g1, h1.1], by rw [g2, h1.2]⟩

/-- The fold leaves records at unprocessed indices untouched. -/
theorem unify_fold_getD_notin (r : Rng) :
    ∀ (ord : List Nat) (nodes : List NodeInfo) (adj : List (List Nat)) (k i : Nat),
      i ∉ ord →
      ((ord.foldl (unifyStep r) (nodes, adj, k)).1).getD i dfltNode
        = nodes.getD i dfltNode := by
  intro ord
  induction ord with
  | nil =>
      intro nodes adj k i _
      rfl
  | cons j rest ih =>
      intro nodes adj k i hni
      rw [List.foldl_cons]
      rcases hst : unifyStep r (nodes, adj, k) j with ⟨nodes2, adj2, k2⟩
      have h1 := unifyStep_getD_ne r nodes adj k i j
        (fun h => hni (h ▸ List.mem_cons_self _ _))
      rw [hst] at h1
      rw [ih nodes2 adj2 k2 i (fun h => hni (List.mem_cons_of_mem _ h)), h1]

/-- After its own step, a record's output type is a drawn `DATA_TYPES`
element. -/
theorem unifyStep_output (r : Rng) (nodes : List NodeInfo)
    (adj : List (List Nat)) (k i : Nat) (hlen : i < nodes.length) :
    ∃ t ∈ DATA_TYPES,
      (((unifyStep r (nodes, adj, k) i).1).getD i dfltNode).output_type = some t := by
  rcases hp : adj.getD i [] with _ | ⟨p0, ps⟩
  · rcases hC : r.choice k DATA_TYPES with ⟨t, k1⟩
    rcases hO : r.choice k1 DATA_TYPES with ⟨ot, k2⟩
    have hm : ot ∈ DATA_TYPES := by
      have h0 := choice_mem r k1 DATA_TYPES (by decide)
      rw [hO] at h0
      exact h0
    refine ⟨ot, hm, ?_⟩
    simp only [unifyStep, hp, hC, hO]
    rw [getD_set_eq nodes i _ dfltNode hlen]
  · by_cases hd : ((p0 :: ps).map
        (fun p => (nodes.getD p dfltNode).output_type)).dedup.length = 1
    · rcases hO : r.choice k DATA_TYPES with ⟨ot, k2⟩
      have hm : ot ∈ DATA_TYPES := by
        have h0 := choice_mem r k DATA_TYPES (by decide)
        rw [hO] at h0
        exact h0
      refine ⟨ot, hm, ?_⟩
      simp only [unifyStep, hp, if_pos hd, hO]
      rw [getD_set_eq nodes i _ dfltNode hlen]
    · rcases hC : r.choice k ((p0 :: ps).map
          (fun p => (nodes.getD p dfltNode).output_type)) with ⟨chosen, k1⟩
      rcases hO : r.choice k1 DATA_TYPES with ⟨ot, k2⟩
      have hm : ot ∈ DATA_TYPES := by
        have h0 := choice_mem r k1 DATA_TYPES (by decide)
        rw [hO] at h0
        exact h0
      refine ⟨ot, hm, ?_⟩
      simp only [unifyStep, hp, if_neg hd, hC, hO]
      rw [getD_set_eq nodes i _ dfltNode hlen]

/-- Every processed record ends with a drawn output type. -/
theorem unify_fold_output (r : Rng) :
    ∀ (ord : List Nat), ord.Nodup →
      ∀ (nodes : List NodeInfo) (adj : List (List Nat)) (k i : Nat),
        i ∈ ord → i < nodes.length →
        ∃ t ∈ DATA_TYPES,
          (((ord.foldl (unifyStep r) (nodes, adj, k)).1).getD i dfltNode).output_type
            = some t := by
  intro ord
  induction ord with
  | nil =>
      intro _ nodes adj k i hi
      cases hi
  | cons j rest ih =>
      intro hnd nodes adj k i hi hlen
      rw [List.foldl_cons]
      rcases hst : unifyStep r (nodes, adj, k) j with ⟨nodes2, adj2, k2⟩
      rcases List.mem_cons.mp hi with hij | hir
      · subst hij
        obtain ⟨t, ht, hout⟩ := unifyStep_output r nodes adj k i hlen
        rw [hst] at hout
        refine ⟨t, ht, ?_⟩
        rw [unify_fold_getD_notin r rest nodes2 adj2 k2 i
          (List.nodup_cons.mp hnd).1, hout]
      · have hlen2 : i < nodes2.length := by
          have h2 := unifyStep_nodes_length r nodes adj k j
          rw [hst] at h2
          have h2' : nodes2.length = nodes.length := h2
          omega
        exact ih (List.nodup_cons.mp hnd).2 nodes2 adj2 k2 i hir hlen2

/-- Length-five lists are determined by their five entries. -/
theorem list_eq_five {α : Type} (d : α) (l : List α) (h : l.length = 5) :
    l = [l.getD 0 d, l.getD 1 d, l.getD 2 d, l.getD 3 d, l.getD 4 d] := by
  rcases l with _ | ⟨a, _ | ⟨b, _ | ⟨c, _ | ⟨e, _ | ⟨f, _ | ⟨g, t⟩⟩⟩⟩⟩⟩
  all_goals first
    | rfl
    | (simp only [List.length_cons, List.length_nil] at h; omega)

/-- Inserting an absent key appends it. -/
theorem dinsert_append {κ α : Type} [DecidableEq κ] (l : List (κ × α)) (k : κ)
    (v : α) (h : lookupA l k = none) : dinsert l k v = l ++ [(k, v)] := by
  induction l with
  | nil => rfl
  | cons hd t ih =>
      obtain ⟨k0, v0⟩ := hd
      by_cases hk : k0 = k
      · simp only [lookupA, if_pos hk] at h
        exact Option.noConfusion h
      · simp only [lookupA, if_neg hk] at h
        simp only [dinsert, if_neg hk, List.cons_append]
        rw [ih h]

/-- Inserting a non-snippet name keeps the snippet names unregistered. -/
theorem clean_dinsert (l : List (String × String)) (nm kd : String)
    (hl : ∀ s ∈ snippetNames, lookupA l s = none) (hnm : nm ∉ snippetNames) :
    ∀ s ∈ snippetNames, lookupA (dinsert l nm kd) s = none := by
  intro s hs
  rw [lookupA_dinsert_ne l nm s kd (fun h => hnm (h ▸ hs))]
  exact hl s hs

/-- Membership in the one- or two-copy edge list. -/
theorem depE_mem (kind f t : String) (x : String × String) :
    x ∈ depE kind f t ↔ x = (f, t) := by
  unfold depE
  split <;> simp

/-- Visiting a one-dependency section records exactly that dependency's
edge(s). -/
theorem visit_depSection_single (st : GState) (cur : String)
    (nodeList : List NodeInfo) (d : Nat) (it : Option String) (r : Rng) (k : Nat)
    (hcur : st.current = some cur)
    (hkind : (nodeList.getD d dfltNode).kind = "function"
      ∨ (nodeList.getD d dfltNode).kind = "class")
    (hreg : lookupA st.nodeTypes (nodeList.getD d dfltNode).name
      = some (nodeList.getD d dfltNode).kind)
    (hrun2 : (nodeList.getD d dfltNode).name ≠ "run")
    (hcomplex : lookupA st.nodeTypes "complex" = none) :
    ∃ im, visitStmtList st (depSection [d] nodeList it r k).1
      = { st with
          edges := st.edges ++ depE (nodeList.getD d dfltNode).kind
            (nodeList.getD d dfltNode).name cur
          instanceMaps := im } := by
  rcases hdc : depCallStmts (nodeList.getD d dfltNode) it r k with ⟨s1, k1⟩
  have hds : (depSection [d] nodeList it r k).1 = s1 ++ [] := by
    simp only [depSection, hdc]
  rw [hds, List.append_nil]
  obtain ⟨im, h⟩ := visit_depCall st cur (nodeList.getD d dfltNode) it r k
    hcur hkind hreg hrun2 hcomplex
  rw [hdc] at h
  exact ⟨im, h⟩

/-- Visiting the section of a node with no dependencies registers the
node and records no edge. -/
theorem visit_section_nodep (st : GState) (node : NodeInfo)
    (nodeList : List NodeInfo) (adjC : List (List Nat)) (i : Nat)
    (avg bf lf : Nat) (r : Rng) (k : Nat)
    (hrow : adjC.getD i [] = [])
    (hstack : st.classStack = [])
    (hclean : ∀ s ∈ snippetNames, lookupA st.nodeTypes s = none)
    (hkind : node.kind = "function" ∨ node.kind = "class")
    (hname1 : node.name ∉ snippetNames)
    (hot : ∀ s, node.output_type = some s → s ∈ snippetNames ∧ s ≠ "run") :
    ∃ im, visitStmt st (genSection avg bf lf nodeList adjC r i node k).1
      = { st with
          nodeTypes := dinsert st.nodeTypes node.name node.kind
          edges := st.edges
          instanceMaps := im } := by
  have hdep : ∀ (st2 : GState) (k2 : Nat),
      st2.nodeTypes = dinsert st.nodeTypes node.name node.kind →
      st2.current = some node.name →
      ∃ im, visitStmtList st2 (depSection (adjC.getD i []) nodeList
          node.input_type r k2).1
        = { st2 with edges := st2.edges ++ [], instanceMaps := im } := by
    intro st2 k2 _ _
    refine ⟨st2.instanceMaps, ?_⟩
    rw [hrow]
    show st2 = _
    simp
  obtain ⟨im, h⟩ := visit_genSection st node nodeList adjC i avg bf lf r k []
    hstack hclean hkind hname1 hot hdep
  refine ⟨im, ?_⟩
  rw [h]
  simp

/-- Visiting the section of a node whose single dependency is already
registered registers the node and records exactly the dependency
edge(s). -/
theorem visit_section_dep (st : GState) (node : NodeInfo)
    (nodeList : List NodeInfo) (adjC : List (List Nat)) (i d : Nat)
    (avg bf lf : Nat) (r : Rng) (k : Nat)
    (hrow : adjC.getD i [] = [d])
    (hstack : st.classStack = [])
    (hclean : ∀ s ∈ snippetNames, lookupA st.nodeTypes s = none)
    (hkind : node.kind = "function" ∨ node.kind = "class")
    (hname1 : node.name ∉ snippetNames)
    (hot : ∀ s, node.output_type = some s → s ∈ snippetNames ∧ s ≠ "run")
    (hPkind : (nodeList.getD d dfltNode).kind = "function"
      ∨ (nodeList.getD d dfltNode).kind = "class")
    (hPreg : lookupA st.nodeTypes (nodeList.getD d dfltNode).name
      = some (nodeList.getD d dfltNode).kind)
    (hPne : (nodeList.getD d dfltNode).name ≠ node.name)
    (hPrun : (nodeList.getD d dfltNode).name ≠ "run") :
    ∃ im, visitStmt st (genSection avg bf lf nodeList adjC r i node k).1
      = { st with
          nodeTypes := dinsert st.nodeTypes node.name node.kind
          edges := st.edges ++ depE (nodeList.getD d dfltNode).kind
            (nodeList.getD d dfltNode).name node.name
          instanceMaps := im } := by
  have hdep : ∀ (st2 : GState) (k2 : Nat),
      st2.nodeTypes = dinsert st.nodeTypes node.name node.kind →
      st2.current = some node.name →
      ∃ im, visitStmtList st2 (depSection (adjC.getD i []) nodeList
          node.input_type r k2).1
        = { st2 with
            edges := st2.edges ++ depE (nodeList.getD d dfltNode).kind
              (nodeList.getD d dfltNode).name node.name
            instanceMaps := im } := by
    intro st2 k2 hnt hcur
    rw [hrow]
    refine visit_depSection_single st2 node.name nodeList d node.input_type r k2
      hcur hPkind ?_ hPrun ?_
    · rw [hnt, lookupA_dinsert_ne st.nodeTypes node.name
        (nodeList.getD d dfltNode).name node.kind hPne]
      exact hPreg
    · rw [hnt, lookupA_dinsert_ne st.nodeTypes node.name "complex" node.kind
        (fun h => hname1 (h ▸ (by decide : ("complex" : String) ∈ snippetNames)))]
      exact hclean "complex" (by decide)
  exact visit_genSection st node nodeList adjC i avg bf lf r k _
    hstack hclean hkind hname1 hot hdep

/-- Full computation of the chain-mode pipeline at five nodes: the
extracted node list is the five generated names followed by `main`, and
the extracted edge set consists of the four chain edges and the five
node-to-`main` driver edges — for every random stream and counter. -/
theorem chain5_pipeline (avg bf lf conn : Nat) (r : Rng) (k : Nat) :
    ∃ nodes edges,
      extract_graph (ast_unparse
          (generate_codebase 5 avg bf lf conn "chain" false r k).1)
        = .ok (nodes, edges)
      ∧ nodes
          = ((generate_codebase 5 avg bf lf conn "chain" false r k).2.1.map
              (fun nd => nd.name)) ++ ["main"]
      ∧ nodes.Nodup
      ∧ nodes.length = 6
      ∧ (∀ e, e ∈ edges ↔
          ((∃ i, i < 4
              ∧ e = (((generate_codebase 5 avg bf lf conn "chain" false
                    r k).2.1.getD i dfltNode).name,
                  ((generate_codebase 5 avg bf lf conn "chain" false
                    r k).2.1.getD (i + 1) dfltNode).name))
            ∨ (∃ i, i < 5
              ∧ e = (((generate_codebase 5 avg bf lf conn "chain" false
                    r k).2.1.getD i dfltNode).name, "main")))) := by
  -- the five placeholder kind draws
  rcases hc0 : r.choice k ["function", "class"] with ⟨t0, q0⟩
  rcases hc1 : r.choice q0 ["function", "class"] with ⟨t1, q1⟩
  rcases hc2 : r.choice q1 ["function", "class"] with ⟨t2, q2⟩
  rcases hc3 : r.choice q2 ["function", "class"] with ⟨t3, q3⟩
  rcases hc4 : r.choice q3 ["function", "class"] with ⟨t4, q4⟩
  have ht0 : t0 = "function" ∨ t0 = "class" := by
    have h0 := choice_mem r k ["function", "class"] (by decide)
    rw [hc0] at h0
    simpa using h0
  have ht1 : t1 = "function" ∨ t1 = "class" := by
    have h0 := choice_mem r q0 ["function", "class"] (by decide)
    rw [hc1] at h0
    simpa using h0
  have ht2 : t2 = "function" ∨ t2 = "class" := by
    have h0 := choice_mem r q1 ["function", "class"] (by decide)
    rw [hc2] at h0
    simpa using h0
  have ht3 : t3 = "function" ∨ t3 = "class" := by
    have h0 := choice_mem r q2 ["function", "class"] (by decide)
    rw [hc3] at h0
    simpa using h0
  have ht4 : t4 = "function" ∨ t4 = "class" := by
    have h0 := choice_mem r q3 ["function", "class"] (by decide)
    rw [hc4] at h0
    simpa using h0
  -- the placeholder records
  have hmp : makePlaceholders 5 false [[], [0], [1], [2], [3]] r k
      = ([⟨nodeName false t0 0 [], t0, none, none⟩,
          ⟨nodeName false t1 1 [0], t1, none, none⟩,
          ⟨nodeName false t2 2 [1], t2, none, none⟩,
          ⟨nodeName false t3 3 [2], t3, none, none⟩,
          ⟨nodeName false t4 4 [3], t4, none, none⟩], q4) := by
    simp only [makePlaceholders, show List.range 5 = [0, 1, 2, 3, 4] from rfl,
      List.foldl_cons, List.foldl_nil, hc0, hc1, hc2, hc3, hc4]
    rfl
  -- the unification pass
  rcases hfold : ([0, 1, 2, 3, 4] : List Nat).foldl (unifyStep r)
      ([⟨nodeName false t0 0 [], t0, none, none⟩,
        ⟨nodeName false t1 1 [0], t1, none, none⟩,
        ⟨nodeName false t2 2 [1], t2, none, none⟩,
        ⟨nodeName false t3 3 [2], t3, none, none⟩,
        ⟨nodeName false t4 4 [3], t4, none, none⟩],
       ([[], [0], [1], [2], [3]] : List (List Nat)), q4)
    with ⟨nodes2, adjB, kB⟩
  have hshort : ∀ c,
      (([[], [0], [1], [2], [3]] : List (List Nat)).getD c []).length ≤ 1 := by
    intro c
    match c with
    | 0 => decide
    | 1 => decide
    | 2 => decide
    | 3 => decide
    | 4 => decide
    | n + 5 =>
        rw [List.getD_eq_default _ _ (by show (5 : Nat) ≤ n + 5; omega)]
        decide
  have hadjB : adjB = [[], [0], [1], [2], [3]] := by
    have h2 := unify_fold_adj_short r [0, 1, 2, 3, 4]
      [⟨nodeName false t0 0 [], t0, none, none⟩,
       ⟨nodeName false t1 1 [0], t1, none, none⟩,
       ⟨nodeName false t2 2 [1], t2, none, none⟩,
       ⟨nodeName false t3 3 [2], t3, none, none⟩,
       ⟨nodeName false t4 4 [3], t4, none, none⟩]
      [[], [0], [1], [2], [3]] q4 hshort
    rw [hfold] at h2
    exact h2
  have hlen2 : nodes2.length = 5 := by
    have h2 := unify_fold_nodes_length r [0, 1, 2, 3, 4]
      [⟨nodeName false t0 0 [], t0, none, none⟩,
       ⟨nodeName false t1 1 [0], t1, none, none⟩,
       ⟨nodeName false t2 2 [1], t2, none, none⟩,
       ⟨nodeName false t3 3 [2], t3, none, none⟩,
       ⟨nodeName false t4 4 [3], t4, none, none⟩]
      [[], [0], [1], [2], [3]] q4
    rw [hfold] at h2
    exact h2
  obtain ⟨a0, ha0⟩ : ∃ x, nodes2.getD 0 dfltNode = x := ⟨_, rfl⟩
  obtain ⟨a1, ha1⟩ : ∃ x, nodes2.getD 1 dfltNode = x := ⟨_, rfl⟩
  obtain ⟨a2, ha2⟩ : ∃ x, nodes2.getD 2 dfltNode = x := ⟨_, rfl⟩
  obtain ⟨a3, ha3⟩ : ∃ x, nodes2.getD 3 dfltNode = x := ⟨_, rfl⟩
  obtain ⟨a4, ha4⟩ : ∃ x, nodes2.getD 4 dfltNode = x := ⟨_, rfl⟩
  have hN2 : nodes2 = [a0, a1, a2, a3, a4] := by
    conv_lhs => rw [list_eq_five dfltNode nodes2 hlen2]
    rw [ha0, ha1, ha2, ha3, ha4]
  have hnk0 : a0.name = nodeName false t0 0 [] ∧ a0.kind = t0 := by
    have h2 := unify_fold_namekind r [0, 1, 2, 3, 4]
      [⟨nodeName false t0 0 [], t0, none, none⟩,
       ⟨nodeName false t1 1 [0], t1, none, none⟩,
       ⟨nodeName false t2 2 [1], t2, none, none⟩,
       ⟨nodeName false t3 3 [2], t3, none, none⟩,
       ⟨nodeName false t4 4 [3], t4, none, none⟩]
      [[], [0], [1], [2], [3]] q4 0
    rw [hfold] at h2
    have h3 : (nodes2.getD 0 dfltNode).name = nodeName false t0 0 []
        ∧ (nodes2.getD 0 dfltNode).kind = t0 := h2
    rw [ha0] at h3
    exact h3
  have hnk1 : a1.name = nodeName false t1 1 [0] ∧ a1.kind = t1 := by
    have h2 := unify_fold_namekind r [0, 1, 2, 3, 4]
      [⟨nodeName false t0 0 [], t0, none, none⟩,
       ⟨nodeName false t1 1 [0], t1, none, none⟩,
       ⟨nodeName false t2 2 [1], t2, none, none⟩,
       ⟨nodeName false t3 3 [2], t3, none, none⟩,
       ⟨nodeName false t4 4 [3], t4, none, none⟩]
      [[], [0], [1], [2], [3]] q4 1
    rw [hfold] at h2
    have h3 : (nodes2.getD 1 dfltNode).name = nodeName false t1 1 [0]
        ∧ (nodes2.getD 1 dfltNode).kind = t1 := h2
    rw [ha1] at h3
    exact h3
  have hnk2 : a2.name = nodeName false t2 2 [1] ∧ a2.kind = t2 := by
    have h2 := unify_fold_namekind r [0, 1, 2, 3, 4]
      [⟨nodeName false t0 0 [], t0, none, none⟩,
       ⟨nodeName false t1 1 [0], t1, none, none⟩,
       ⟨nodeName false t2 2 [1], t2, none, none⟩,
       ⟨nodeName false t3 3 [2], t3, none, none⟩,
       ⟨nodeName false t4 4 [3], t4, none, none⟩]
      [[], [0], [1], [2], [3]] q4 2
    rw [hfold] at h2
    have h3 : (nodes2.getD 2 dfltNode).name = nodeName false t2 2 [1]
        ∧ (nodes2.getD 2 dfltNode).kind = t2 := h2
    rw [ha2] at h3
    exact h3
  have hnk3 : a3.name = nodeName false t3 3 [2] ∧ a3.kind = t3 := by
    have h2 := unify_fold_namekind r [0, 1, 2, 3, 4]
      [⟨nodeName false t0 0 [], t0, none, none⟩,
       ⟨nodeName false t1 1 [0], t1, none, none⟩,
       ⟨nodeName false t2 2 [1], t2, none, none⟩,
       ⟨nodeName false t3 3 [2], t3, none, none⟩,
       ⟨nodeName false t4 4 [3], t4, none, none⟩]
      [[], [0], [1], [2], [3]] q4 3
    rw [hfold] at h2
    have h3 : (nodes2.getD 3 dfltNode).name = nodeName false t3 3 [2]
        ∧ (nodes2.getD 3 dfltNode).kind = t3 := h2
    rw [ha3] at h3
    exact h3
  have hnk4 : a4.name = nodeName false t4 4 [3] ∧ a4.kind = t4 := by
    have h2 := unify_fold_namekind r [0, 1, 2, 3, 4]
      [⟨nodeName false t0 0 [], t0, none, none⟩,
       ⟨nodeName false t1 1 [0], t1, none, none⟩,
       ⟨nodeName false t2 2 [1], t2, none, none⟩,
       ⟨nodeName false t3 3 [2], t3, none, none⟩,
       ⟨nodeName false t4 4 [3], t4, none, none⟩]
      [[], [0], [1], [2], [3]] q4 4
    rw [hfold] at h2
    have h3 : (nodes2.getD 4 dfltNode).name = nodeName false t4 4 [3]
        ∧ (nodes2.getD 4 dfltNode).kind = t4 := h2
    rw [ha4] at h3
    exact h3
  have hout0 : ∃ t ∈ DATA_TYPES, a0.output_type = some t := by
    have h2 := unify_fold_output r [0, 1, 2, 3, 4] (by decide)
      [⟨nodeName false t0 0 [], t0, none, none⟩,
       ⟨nodeName false t1 1 [0], t1, none, none⟩,
       ⟨nodeName false t2 2 [1], t2, none, none⟩,
       ⟨nodeName false t3 3 [2], t3, none, none⟩,
       ⟨nodeName false t4 4 [3], t4, none, none⟩]
      [[], [0], [1], [2], [3]] q4 0 (by decide) (by show (0 : Nat) < 5; omega)
    rw [hfold] at h2
    have h3 : ∃ t ∈ DATA_TYPES, (nodes2.getD 0 dfltNode).output_type = some t := h2
    rw [ha0] at h3
    exact h3
  have hout1 : ∃ t ∈ DATA_TYPES, a1.output_type = some t := by
    have h2 := unify_fold_output r [0, 1, 2, 3, 4] (by decide)
      [⟨nodeName false t0 0 [], t0, none, none⟩,
       ⟨nodeName false t1 1 [0], t1, none, none⟩,
       ⟨nodeName false t2 2 [1], t2, none, none⟩,
       ⟨nodeName false t3 3 [2], t3, none, none⟩,
       ⟨nodeName false t4 4 [3], t4, none, none⟩]
      [[], [0], [1], [2], [3]] q4 1 (by decide) (by show (1 : Nat) < 5; omega)
    rw [hfold] at h2
    have h3 : ∃ t ∈ DATA_TYPES, (nodes2.getD 1 dfltNode).output_type = some t := h2
    rw [ha1] at h3
    exact h3
  have hout2 : ∃ t ∈ DATA_TYPES, a2.output_type = some t := by
    have h2 := unify_fold_output r [0, 1, 2, 3, 4] (by decide)
      [⟨nodeName false t0 0 [], t0, none, none⟩,
       ⟨nodeName false t1 1 [0], t1, none, none⟩,
       ⟨nodeName false t2 2 [1], t2, none, none⟩,
       ⟨nodeName false t3 3 [2], t3, none, none⟩,
       ⟨nodeName false t4 4 [3], t4, none, none⟩]
      [[], [0], [1], [2], [3]] q4 2 (by decide) (by show (2 : Nat) < 5; omega)
    rw [hfold] at h2
    have h3 : ∃ t ∈ DATA_TYPES, (nodes2.getD 2 dfltNode).output_type = some t := h2
    rw [ha2] at h3
    exact h3
  have hout3 : ∃ t ∈ DATA_TYPES, a3.output_type = some t := by
    have h2 := unify_fold_output r [0, 1, 2, 3, 4] (by decide)
      [⟨nodeName false t0 0 [], t0, none, none⟩,
       ⟨nodeName false t1 1 [0], t1, none, none⟩,
       ⟨nodeName false t2 2 [1], t2, none, none⟩,
       ⟨nodeName false t3 3 [2], t3, none, none⟩,
       ⟨nodeName false t4 4 [3], t4, none, none⟩]
      [[], [0], [1], [2], [3]] q4 3 (by decide) (by show (3 : Nat) < 5; omega)
    rw [hfold] at h2
    have h3 : ∃ t ∈ DATA_TYPES, (nodes2.getD 3 dfltNode).output_type = some t := h2
    rw [ha3] at h3
    exact h3
  have hout4 : ∃ t ∈ DATA_TYPES, a4.output_type = some t := by
    have h2 := unify_fold_output r [0, 1, 2, 3, 4] (by decide)
      [⟨nodeName false t0 0 [], t0, none, none⟩,
       ⟨nodeName false t1 1 [0], t1, none, none⟩,
       ⟨nodeName false t2 2 [1], t2, none, none⟩,
       ⟨nodeName false t3 3 [2], t3, none, none⟩,
       ⟨nodeName false t4 4 [3], t4, none, none⟩]
      [[], [0], [1], [2], [3]] q4 4 (by decide) (by show (4 : Nat) < 5; omega)
    rw [hfold] at h2
    have h3 : ∃ t ∈ DATA_TYPES, (nodes2.getD 4 dfltNode).output_type = some t := h2
    rw [ha4] at h3
    exact h3
  have huni : unify_types_based_on_adjacency
      [⟨nodeName false t0 0 [], t0, none, none⟩,
       ⟨nodeName false t1 1 [0], t1, none, none⟩,
       ⟨nodeName false t2 2 [1], t2, none, none⟩,
       ⟨nodeName false t3 3 [2], t3, none, none⟩,
       ⟨nodeName false t4 4 [3], t4, none, none⟩]
      [[], [0], [1], [2], [3]] r q4
      = (nodes2, [[], [0], [1], [2], [3]], kB) := by
    simp only [unify_types_based_on_adjacency, remove_cycles_chain_five]
    rw [hfold, hadjB]
  -- per-node case facts
  have hcase0 : (a0.kind = "function" ∧ a0.name = "Function_0")
      ∨ (a0.kind = "class" ∧ a0.name = "Class_0") := by
    rcases ht0 with h | h
    · exact Or.inl ⟨by rw [hnk0.2, h], by rw [hnk0.1, h]; decide⟩
    · exact Or.inr ⟨by rw [hnk0.2, h], by rw [hnk0.1, h]; decide⟩
  have hcase1 : (a1.kind = "function" ∧ a1.name = "Function_1")
      ∨ (a1.kind = "class" ∧ a1.name = "Class_1") := by
    rcases ht1 with h | h
    · exact Or.inl ⟨by rw [hnk1.2, h], by rw [hnk1.1, h]; decide⟩
    · exact Or.inr ⟨by rw [hnk1.2, h], by rw [hnk1.1, h]; decide⟩
  have hcase2 : (a2.kind = "function" ∧ a2.name = "Function_2")
      ∨ (a2.kind = "class" ∧ a2.name = "Class_2") := by
    rcases ht2 with h | h
    · exact Or.inl ⟨by rw [hnk2.2, h], by rw [hnk2.1, h]; decide⟩
    · exact Or.inr ⟨by rw [hnk2.2, h], by rw [hnk2.1, h]; decide⟩
  have hcase3 : (a3.kind = "function" ∧ a3.name = "Function_3")
      ∨ (a3.kind = "class" ∧ a3.name = "Class_3") := by
    rcases ht3 with h | h
    · exact Or.inl ⟨by rw [hnk3.2, h], by rw [hnk3.1, h]; decide⟩
    · exact Or.inr ⟨by rw [hnk3.2, h], by rw [hnk3.1, h]; decide⟩
  have hcase4 : (a4.kind = "function" ∧ a4.name = "Function_4")
      ∨ (a4.kind = "class" ∧ a4.name = "Class_4") := by
    rcases ht4 with h | h
    · exact Or.inl ⟨by rw [hnk4.2, h], by rw [hnk4.1, h]; decide⟩
    · exact Or.inr ⟨by rw [hnk4.2, h], by rw [hnk4.1, h]; decide⟩
  have hkd0 : a0.kind = "function" ∨ a0.kind = "class" := by
    rcases hcase0 with ⟨h, -⟩ | ⟨h, -⟩
    · exact Or.inl h
    · exact Or.inr h
  have hkd1 : a1.kind = "function" ∨ a1.kind = "class" := by
    rcases hcase1 with ⟨h, -⟩ | ⟨h, -⟩
    · exact Or.inl h
    · exact Or.inr h
  have hkd2 : a2.kind = "function" ∨ a2.kind = "class" := by
    rcases hcase2 with ⟨h, -⟩ | ⟨h, -⟩
    · exact Or.inl h
    · exact Or.inr h
  have hkd3 : a3.kind = "function" ∨ a3.kind = "class" := by
    rcases hcase3 with ⟨h, -⟩ | ⟨h, -⟩
    · exact Or.inl h
    · exact Or.inr h
  have hkd4 : a4.kind = "function" ∨ a4.kind = "class" := by
    rcases hcase4 with ⟨h, -⟩ | ⟨h, -⟩
    · exact Or.inl h
    · exact Or.inr h
  have hsn0 : a0.name ∉ snippetNames := by
    rcases hcase0 with ⟨-, h⟩ | ⟨-, h⟩ <;> rw [h] <;> decide
  have hsn1 : a1.name ∉ snippetNames := by
    rcases hcase1 with ⟨-, h⟩ | ⟨-, h⟩ <;> rw [h] <;> decide
  have hsn2 : a2.name ∉ snippetNames := by
    rcases hcase2 with ⟨-, h⟩ | ⟨-, h⟩ <;> rw [h] <;> decide
  have hsn3 : a3.name ∉ snippetNames := by
    rcases hcase3 with ⟨-, h⟩ | ⟨-, h⟩ <;> rw [h] <;> decide
  have hsn4 : a4.name ∉ snippetNames := by
    rcases hcase4 with ⟨-, h⟩ | ⟨-, h⟩ <;> rw [h] <;> decide
  have hrn0 : a0.name ≠ "run" := by
    rcases hcase0 with ⟨-, h⟩ | ⟨-, h⟩ <;> rw [h] <;> decide
  have hrn1 : a1.name ≠ "run" := by
    rcases hcase1 with ⟨-, h⟩ | ⟨-, h⟩ <;> rw [h] <;> decide
  have hrn2 : a2.name ≠ "run" := by
    rcases hcase2 with ⟨-, h⟩ | ⟨-, h⟩ <;> rw [h] <;> decide
  have hrn3 : a3.name ≠ "run" := by
    rcases hcase3 with ⟨-, h⟩ | ⟨-, h⟩ <;> rw [h] <;> decide
  have hrn4 : a4.name ≠ "run" := by
    rcases hcase4 with ⟨-, h⟩ | ⟨-, h⟩ <;> rw [h] <;> decide
  have hmn0 : a0.name ≠ "main" := by
    rcases hcase0 with ⟨-, h⟩ | ⟨-, h⟩ <;> rw [h] <;> decide
  have hmn1 : a1.name ≠ "main" := by
    rcases hcase1 with ⟨-, h⟩ | ⟨-, h⟩ <;> rw [h] <;> decide
  have hmn2 : a2.name ≠ "main" := by
    rcases hcase2 with ⟨-, h⟩ | ⟨-, h⟩ <;> rw [h] <;> decide
  have hmn3 : a3.name ≠ "main" := by
    rcases hcase3 with ⟨-, h⟩ | ⟨-, h⟩ <;> rw [h] <;> decide
  have hmn4 : a4.name ≠ "main" := by
    rcases hcase4 with ⟨-, h⟩ | ⟨-, h⟩ <;> rw [h] <;> decide
  have hne01 : a0.name ≠ a1.name := by
    rcases hcase0 with ⟨-, h⟩ | ⟨-, h⟩ <;> rcases hcase1 with ⟨-, g⟩ | ⟨-, g⟩ <;>
      rw [h, g] <;> decide
  have hne02 : a0.name ≠ a2.name := by
    rcases hcase0 with ⟨-, h⟩ | ⟨-, h⟩ <;> rcases hcase2 with ⟨-, g⟩ | ⟨-, g⟩ <;>
      rw [h, g] <;> decide
  have hne03 : a0.name ≠ a3.name := by
    rcases hcase0 with ⟨-, h⟩ | ⟨-, h⟩ <;> rcases hcase3 with ⟨-, g⟩ | ⟨-, g⟩ <;>
      rw [h, g] <;> decide
  have hne04 : a0.name ≠ a4.name := by
    rcases hcase0 with ⟨-, h⟩ | ⟨-, h⟩ <;> rcases hcase4 with ⟨-, g⟩ | ⟨-, g⟩ <;>
      rw [h, g] <;> decide
  have hne12 : a1.name ≠ a2.name := by
    rcases hcase1 with ⟨-, h⟩ | ⟨-, h⟩ <;> rcases hcase2 with ⟨-, g⟩ | ⟨-, g⟩ <;>
      rw [h, g] <;> decide
  have hne13 : a1.name ≠ a3.name := by
    rcases hcase1 with ⟨-, h⟩ | ⟨-, h⟩ <;> rcases hcase3 with ⟨-, g⟩ | ⟨-, g⟩ <;>
      rw [h, g] <;> decide
  have hne14 : a1.name ≠ a4.name := by
    rcases hcase1 with ⟨-, h⟩ | ⟨-, h⟩ <;> rcases hcase4 with ⟨-, g⟩ | ⟨-, g⟩ <;>
      rw [h, g] <;> decide
  have hne23 : a2.name ≠ a3.name := by
    rcases hcase2 with ⟨-, h⟩ | ⟨-, h⟩ <;> rcases hcase3 with ⟨-, g⟩ | ⟨-, g⟩ <;>
      rw [h, g] <;> decide
  have hne24 : a2.name ≠ a4.name := by
    rcases hcase2 with ⟨-, h⟩ | ⟨-, h⟩ <;> rcases hcase4 with ⟨-, g⟩ | ⟨-, g⟩ <;>
      rw [h, g] <;> decide
  have hne34 : a3.name ≠ a4.name := by
    rcases hcase3 with ⟨-, h⟩ | ⟨-, h⟩ <;> rcases hcase4 with ⟨-, g⟩ | ⟨-, g⟩ <;>
      rw [h, g] <;> decide
  have hDT : ∀ x ∈ DATA_TYPES, x ∈ snippetNames ∧ x ≠ "run" := by decide
  have hot0 : ∀ s, a0.output_type = some s → s ∈ snippetNames ∧ s ≠ "run" := by
    intro s hs
    obtain ⟨t, htm, hoo⟩ := hout0
    rw [hoo] at hs
    injection hs with hts
    rw [← hts]
    exact hDT t htm
  have hot1 : ∀ s, a1.output_type = some s → s ∈ snippetNames ∧ s ≠ "run" := by
    intro s hs
    obtain ⟨t, htm, hoo⟩ := hout1
    rw [hoo] at hs
    injection hs with hts
    rw [← hts]
    exact hDT t htm
  have hot2 : ∀ s, a2.output_type = some s → s ∈ snippetNames ∧ s ≠ "run" := by
    intro s hs
    obtain ⟨t, htm, hoo⟩ := hout2
    rw [hoo] at hs
    injection hs with hts
    rw [← hts]
    exact hDT t htm
  have hot3 : ∀ s, a3.output_type = some s → s ∈ snippetNames ∧ s ≠ "run" := by
    intro s hs
    obtain ⟨t, htm, hoo⟩ := hout3
    rw [hoo] at hs
    injection hs with hts
    rw [← hts]
    exact hDT t htm
  have hot4 : ∀ s, a4.output_type = some s → s ∈ snippetNames ∧ s ≠ "run" := by
    intro s hs
    obtain ⟨t, htm, hoo⟩ := hout4
    rw [hoo] at hs
    injection hs with hts
    rw [← hts]
    exact hDT t htm
  -- the emitted sections and driver
  rcases hs0 : genSection avg bf lf [a0, a1, a2, a3, a4]
      [[], [0], [1], [2], [3]] r 0 a0 kB with ⟨s0, w0⟩
  rcases hs1 : genSection avg bf lf [a0, a1, a2, a3, a4]
      [[], [0], [1], [2], [3]] r 1 a1 w0 with ⟨s1, w1⟩
  rcases hs2 : genSection avg bf lf [a0, a1, a2, a3, a4]
      [[], [0], [1], [2], [3]] r 2 a2 w1 with ⟨s2, w2⟩
  rcases hs3 : genSection avg bf lf [a0, a1, a2, a3, a4]
      [[], [0], [1], [2], [3]] r 3 a3 w2 with ⟨s3, w3⟩
  rcases hs4 : genSection avg bf lf [a0, a1, a2, a3, a4]
      [[], [0], [1], [2], [3]] r 4 a4 w3 with ⟨s4, w4⟩
  rcases hmb : mainBody [0, 1, 2, 3, 4] [a0, a1, a2, a3, a4]
      [[], [0], [1], [2], [3]] r w4 with ⟨mb, w5⟩
  have henum : ([a0, a1, a2, a3, a4] : List NodeInfo).enum
      = [(0, a0), (1, a1), (2, a2), (3, a3), (4, a4)] := rfl
  have hgc : generate_codebase 5 avg bf lf conn "chain" false r k
      = ([s0, s1, s2, s3, s4,
          .functionDef "main" mb,
          .sif (.egroup [.ename "__name__", .econst])
            [.exprStmt (bcall "main" [])] []],
         [a0, a1, a2, a3, a4], [[], [0], [1], [2], [3]], w5) := by
    simp only [generate_codebase, build_adjacency_chain, chainAdj_five,
      remove_cycles_chain_five, hmp, huni, hN2, henum,
      List.foldl_cons, List.foldl_nil, hs0, hs1, hs2, hs3, hs4, hmb,
      List.nil_append, List.cons_append]
  -- walk the extractor over the module
  have hlk1 : lookupA [(a0.name, a0.kind)] a1.name = none := by
    simp only [lookupA, if_neg hne01]
  have hlk2 : lookupA [(a0.name, a0.kind), (a1.name, a1.kind)] a2.name = none := by
    simp only [lookupA, if_neg hne02, if_neg hne12]
  have hlk3 : lookupA [(a0.name, a0.kind), (a1.name, a1.kind), (a2.name, a2.kind)]
      a3.name = none := by
    simp only [lookupA, if_neg hne03, if_neg hne13, if_neg hne23]
  have hlk4 : lookupA [(a0.name, a0.kind), (a1.name, a1.kind), (a2.name, a2.kind),
      (a3.name, a3.kind)] a4.name = none := by
    simp only [lookupA, if_neg hne04, if_neg hne14, if_neg hne24, if_neg hne34]
  have hlkm : lookupA [(a0.name, a0.kind), (a1.name, a1.kind), (a2.name, a2.kind),
      (a3.name, a3.kind), (a4.name, a4.kind)] "main" = none := by
    simp only [lookupA, if_neg hmn0, if_neg hmn1, if_neg hmn2, if_neg hmn3,
      if_neg hmn4]
  have hT2 : dinsert [(a0.name, a0.kind)] a1.name a1.kind
      = [(a0.name, a0.kind), (a1.name, a1.kind)] := by
    rw [dinsert_append _ _ _ hlk1]
    rfl
  have hT3 : dinsert [(a0.name, a0.kind), (a1.name, a1.kind)] a2.name a2.kind
      = [(a0.name, a0.kind), (a1.name, a1.kind), (a2.name, a2.kind)] := by
    rw [dinsert_append _ _ _ hlk2]
    rfl
  have hT4 : dinsert [(a0.name, a0.kind), (a1.name, a1.kind), (a2.name, a2.kind)]
      a3.name a3.kind
      = [(a0.name, a0.kind), (a1.name, a1.kind), (a2.name, a2.kind),
         (a3.name, a3.kind)] := by
    rw [dinsert_append _ _ _ hlk3]
    rfl
  have hT5 : dinsert [(a0.name, a0.kind), (a1.name, a1.kind), (a2.name, a2.kind),
      (a3.name, a3.kind)] a4.name a4.kind
      = [(a0.name, a0.kind), (a1.name, a1.kind), (a2.name, a2.kind),
         (a3.name, a3.kind), (a4.name, a4.kind)] := by
    rw [dinsert_append _ _ _ hlk4]
    rfl
  have hT6 : dinsert [(a0.name, a0.kind), (a1.name, a1.kind), (a2.name, a2.kind),
      (a3.name, a3.kind), (a4.name, a4.kind)] "main" "function"
      = [(a0.name, a0.kind), (a1.name, a1.kind), (a2.name, a2.kind),
         (a3.name, a3.kind), (a4.name, a4.kind), ("main", "function")] := by
    rw [dinsert_append _ _ _ hlkm]
    rfl
  have hclean1 : ∀ s ∈ snippetNames, lookupA [(a0.name, a0.kind)] s = none := by
    intro s hs
    simp only [lookupA,
      if_neg (show ¬ a0.name = s from fun h => hsn0 (by rw [h]; exact hs))]
  have hclean2 : ∀ s ∈ snippetNames,
      lookupA [(a0.name, a0.kind), (a1.name, a1.kind)] s = none := by
    intro s hs
    simp only [lookupA,
      if_neg (show ¬ a0.name = s from fun h => hsn0 (by rw [h]; exact hs)),
      if_neg (show ¬ a1.name = s from fun h => hsn1 (by rw [h]; exact hs))]
  have hclean3 : ∀ s ∈ snippetNames,
      lookupA [(a0.name, a0.kind), (a1.name, a1.kind), (a2.name, a2.kind)]
        s = none := by
    intro s hs
    simp only [lookupA,
      if_neg (show ¬ a0.name = s from fun h => hsn0 (by rw [h]; exact hs)),
      if_neg (show ¬ a1.name = s from fun h => hsn1 (by rw [h]; exact hs)),
      if_neg (show ¬ a2.name = s from fun h => hsn2 (by rw [h]; exact hs))]
  have hclean4 : ∀ s ∈ snippetNames,
      lookupA [(a0.name, a0.kind), (a1.name, a1.kind), (a2.name, a2.kind),
        (a3.name, a3.kind)] s = none := by
    intro s hs
    simp only [lookupA,
      if_neg (show ¬ a0.name = s from fun h => hsn0 (by rw [h]; exact hs)),
      if_neg (show ¬ a1.name = s from fun h => hsn1 (by rw [h]; exact hs)),
      if_neg (show ¬ a2.name = s from fun h => hsn2 (by rw [h]; exact hs)),
      if_neg (show ¬ a3.name = s from fun h => hsn3 (by rw [h]; exact hs))]
  have hclean5 : ∀ s ∈ snippetNames,
      lookupA [(a0.name, a0.kind), (a1.name, a1.kind), (a2.name, a2.kind),
        (a3.name, a3.kind), (a4.name, a4.kind)] s = none := by
    intro s hs
    simp only [lookupA,
      if_neg (show ¬ a0.name = s from fun h => hsn0 (by rw [h]; exact hs)),
      if_neg (show ¬ a1.name = s from fun h => hsn1 (by rw [h]; exact hs)),
      if_neg (show ¬ a2.name = s from fun h => hsn2 (by rw [h]; exact hs)),
      if_neg (show ¬ a3.name = s from fun h => hsn3 (by rw [h]; exact hs)),
      if_neg (show ¬ a4.name = s from fun h => hsn4 (by rw [h]; exact hs))]
  obtain ⟨im0, hv0⟩ := visit_section_nodep initGState a0 [a0, a1, a2, a3, a4]
    [[], [0], [1], [2], [3]] 0 avg bf lf r kB rfl rfl
    (fun s _ => rfl) hkd0 hsn0 hot0
  rw [hs0] at hv0
  have hv0X : visitStmt initGState s0
      = ⟨[(a0.name, a0.kind)], [], im0, none, []⟩ := hv0
  obtain ⟨im1, hv1⟩ := visit_section_dep
    (⟨[(a0.name, a0.kind)], [], im0, none, []⟩ : GState) a1
    [a0, a1, a2, a3, a4] [[], [0], [1], [2], [3]] 1 0 avg bf lf r w0
    rfl rfl hclean1 hkd1 hsn1 hot1
    hkd0 (by
      show lookupA [(a0.name, a0.kind)] a0.name = some a0.kind
      simp only [lookupA, if_pos rfl, if_true]) hne01 hrn0
  rw [hs1, hT2] at hv1
  have hv1X : visitStmt (⟨[(a0.name, a0.kind)], [], im0, none, []⟩ : GState) s1
      = ⟨[(a0.name, a0.kind), (a1.name, a1.kind)],
         depE a0.kind a0.name a1.name, im1, none, []⟩ := hv1
  obtain ⟨im2, hv2⟩ := visit_section_dep
    (⟨[(a0.name, a0.kind), (a1.name, a1.kind)],
      depE a0.kind a0.name a1.name, im1, none, []⟩ : GState) a2
    [a0, a1, a2, a3, a4] [[], [0], [1], [2], [3]] 2 1 avg bf lf r w1
    rfl rfl hclean2 hkd2 hsn2 hot2
    hkd1 (by
      show lookupA [(a0.name, a0.kind), (a1.name, a1.kind)] a1.name
        = some a1.kind
      simp only [lookupA, if_neg hne01, if_pos rfl, if_true]) hne12 hrn1
  rw [hs2, hT3] at hv2
  have hv2X : visitStmt (⟨[(a0.name, a0.kind), (a1.name, a1.kind)],
      depE a0.kind a0.name a1.name, im1, none, []⟩ : GState) s2
      = ⟨[(a0.name, a0.kind), (a1.name, a1.kind), (a2.name, a2.kind)],
         depE a0.kind a0.name a1.name ++ depE a1.kind a1.name a2.name,
         im2, none, []⟩ := hv2
  obtain ⟨im3, hv3⟩ := visit_section_dep
    (⟨[(a0.name, a0.kind), (a1.name, a1.kind), (a2.name, a2.kind)],
      depE a0.kind a0.name a1.name ++ depE a1.kind a1.name a2.name,
      im2, none, []⟩ : GState) a3
    [a0, a1, a2, a3, a4] [[], [0], [1], [2], [3]] 3 2 avg bf lf r w2
    rfl rfl hclean3 hkd3 hsn3 hot3
    hkd2 (by
      show lookupA [(a0.name, a0.kind), (a1.name, a1.kind), (a2.name, a2.kind)]
        a2.name = some a2.kind
      simp only [lookupA, if_neg hne02, if_neg hne12, if_pos rfl, if_true]) hne23 hrn2
  rw [hs3, hT4] at hv3
  have hv3X : visitStmt (⟨[(a0.name, a0.kind), (a1.name, a1.kind),
      (a2.name, a2.kind)],
      depE a0.kind a0.name a1.name ++ depE a1.kind a1.name a2.name,
      im2, none, []⟩ : GState) s3
      = ⟨[(a0.name, a0.kind), (a1.name, a1.kind), (a2.name, a2.kind),
          (a3.name, a3.kind)],
         (depE a0.kind a0.name a1.name ++ depE a1.kind a1.name a2.name)
           ++ depE a2.kind a2.name a3.name,
         im3, none, []⟩ := hv3
  obtain ⟨im4, hv4⟩ := visit_section_dep
    (⟨[(a0.name, a0.kind), (a1.name, a1.kind), (a2.name, a2.kind),
       (a3.name, a3.kind)],
      (depE a0.kind a0.name a1.name ++ depE a1.kind a1.name a2.name)
        ++ depE a2.kind a2.name a3.name,
      im3, none, []⟩ : GState) a4
    [a0, a1, a2, a3, a4] [[], [0], [1], [2], [3]] 4 3 avg bf lf r w3
    rfl rfl hclean4 hkd4 hsn4 hot4
    hkd3 (by
      show lookupA [(a0.name, a0.kind), (a1.name, a1.kind), (a2.name, a2.kind),
        (a3.name, a3.kind)] a3.name = some a3.kind
      simp only [lookupA, if_neg hne03, if_neg hne13, if_neg hne23,
        if_pos rfl, if_true]) hne34 hrn3
  rw [hs4, hT5] at hv4
  have hv4X : visitStmt (⟨[(a0.name, a0.kind), (a1.name, a1.kind),
      (a2.name, a2.kind), (a3.name, a3.kind)],
      (depE a0.kind a0.name a1.name ++ depE a1.kind a1.name a2.name)
        ++ depE a2.kind a2.name a3.name,
      im3, none, []⟩ : GState) s4
      = ⟨[(a0.name, a0.kind), (a1.name, a1.kind), (a2.name, a2.kind),
          (a3.name, a3.kind), (a4.name, a4.kind)],
         ((depE a0.kind a0.name a1.name ++ depE a1.kind a1.name a2.name)
           ++ depE a2.kind a2.name a3.name) ++ depE a3.kind a3.name a4.name,
         im4, none, []⟩ := hv4
  have hfacts : ∀ i ∈ ([0, 1, 2, 3, 4] : List Nat),
      ((([a0, a1, a2, a3, a4] : List NodeInfo).getD i dfltNode).kind = "function"
        ∨ (([a0, a1, a2, a3, a4] : List NodeInfo).getD i dfltNode).kind = "class") ∧
      lookupA [(a0.name, a0.kind), (a1.name, a1.kind), (a2.name, a2.kind),
          (a3.name, a3.kind), (a4.name, a4.kind)]
          (([a0, a1, a2, a3, a4] : List NodeInfo).getD i dfltNode).name
        = some (([a0, a1, a2, a3, a4] : List NodeInfo).getD i dfltNode).kind ∧
      (([a0, a1, a2, a3, a4] : List NodeInfo).getD i dfltNode).name ≠ "run" := by
    intro i hi
    simp only [List.mem_cons, List.not_mem_nil, or_false] at hi
    rcases hi with rfl | rfl | rfl | rfl | rfl
    · refine ⟨hkd0, ?_, hrn0⟩
      show lookupA [(a0.name, a0.kind), (a1.name, a1.kind), (a2.name, a2.kind),
        (a3.name, a3.kind), (a4.name, a4.kind)] a0.name = some a0.kind
      simp only [lookupA, if_pos rfl, if_true]
    · refine ⟨hkd1, ?_, hrn1⟩
      show lookupA [(a0.name, a0.kind), (a1.name, a1.kind), (a2.name, a2.kind),
        (a3.name, a3.kind), (a4.name, a4.kind)] a1.name = some a1.kind
      simp only [lookupA, if_neg hne01, if_pos rfl, if_true]
    · refine ⟨hkd2, ?_, hrn2⟩
      show lookupA [(a0.name, a0.kind), (a1.name, a1.kind), (a2.name, a2.kind),
        (a3.name, a3.kind), (a4.name, a4.kind)] a2.name = some a2.kind
      simp only [lookupA, if_neg hne02, if_neg hne12, if_pos rfl, if_true]
    · refine ⟨hkd3, ?_, hrn3⟩
      show lookupA [(a0.name, a0.kind), (a1.name, a1.kind), (a2.name, a2.kind),
        (a3.name, a3.kind), (a4.name, a4.kind)] a3.name = some a3.kind
      simp only [lookupA, if_neg hne03, if_neg hne13, if_neg hne23, if_pos rfl, if_true]
    · refine ⟨hkd4, ?_, hrn4⟩
      show lookupA [(a0.name, a0.kind), (a1.name, a1.kind), (a2.name, a2.kind),
        (a3.name, a3.kind), (a4.name, a4.kind)] a4.name = some a4.kind
      simp only [lookupA, if_neg hne04, if_neg hne14, if_neg hne24,
        if_neg hne34, if_pos rfl, if_true]
  obtain ⟨im5, hv5⟩ := visit_main_def
    (⟨[(a0.name, a0.kind), (a1.name, a1.kind), (a2.name, a2.kind),
       (a3.name, a3.kind), (a4.name, a4.kind)],
      ((depE a0.kind a0.name a1.name ++ depE a1.kind a1.name a2.name)
        ++ depE a2.kind a2.name a3.name) ++ depE a3.kind a3.name a4.name,
      im4, none, []⟩ : GState)
    [0, 1, 2, 3, 4] [a0, a1, a2, a3, a4] [[], [0], [1], [2], [3]] r w4
    rfl hclean5 hlkm hfacts
  rw [hmb, hT6] at hv5
  have hv5X : visitStmt (⟨[(a0.name, a0.kind), (a1.name, a1.kind),
      (a2.name, a2.kind), (a3.name, a3.kind), (a4.name, a4.kind)],
      ((depE a0.kind a0.name a1.name ++ depE a1.kind a1.name a2.name)
        ++ depE a2.kind a2.name a3.name) ++ depE a3.kind a3.name a4.name,
      im4, none, []⟩ : GState) (.functionDef "main" mb)
      = ⟨[(a0.name, a0.kind), (a1.name, a1.kind), (a2.name, a2.kind),
          (a3.name, a3.kind), (a4.name, a4.kind), ("main", "function")],
         (((depE a0.kind a0.name a1.name ++ depE a1.kind a1.name a2.name)
           ++ depE a2.kind a2.name a3.name) ++ depE a3.kind a3.name a4.name)
           ++ mainEdges [a0, a1, a2, a3, a4] [0, 1, 2, 3, 4],
         im5, none, []⟩ := hv5
  have hguard : visitStmt (⟨[(a0.name, a0.kind), (a1.name, a1.kind),
      (a2.name, a2.kind), (a3.name, a3.kind), (a4.name, a4.kind),
      ("main", "function")],
      (((depE a0.kind a0.name a1.name ++ depE a1.kind a1.name a2.name)
        ++ depE a2.kind a2.name a3.name) ++ depE a3.kind a3.name a4.name)
        ++ mainEdges [a0, a1, a2, a3, a4] [0, 1, 2, 3, 4],
      im5, none, []⟩ : GState)
      (.sif (.egroup [.ename "__name__", .econst])
        [.exprStmt (bcall "main" [])] [])
      = ⟨[(a0.name, a0.kind), (a1.name, a1.kind), (a2.name, a2.kind),
          (a3.name, a3.kind), (a4.name, a4.kind), ("main", "function")],
         (((depE a0.kind a0.name a1.name ++ depE a1.kind a1.name a2.name)
           ++ depE a2.kind a2.name a3.name) ++ depE a3.kind a3.name a4.name)
           ++ mainEdges [a0, a1, a2, a3, a4] [0, 1, 2, 3, 4],
         im5, none, []⟩ :=
    visit_guard _ rfl
  have hbg : buildGraph [s0, s1, s2, s3, s4,
      .functionDef "main" mb,
      .sif (.egroup [.ename "__name__", .econst])
        [.exprStmt (bcall "main" [])] []]
      = ⟨[(a0.name, a0.kind), (a1.name, a1.kind), (a2.name, a2.kind),
          (a3.name, a3.kind), (a4.name, a4.kind), ("main", "function")],
         (((depE a0.kind a0.name a1.name ++ depE a1.kind a1.name a2.name)
           ++ depE a2.kind a2.name a3.name) ++ depE a3.kind a3.name a4.name)
           ++ mainEdges [a0, a1, a2, a3, a4] [0, 1, 2, 3, 4],
         im5, none, []⟩ := by
    show visitStmtList initGState _ = _
    simp only [visitStmtList]
    rw [hv0X, hv1X, hv2X, hv3X, hv4X, hv5X, hguard]
  refine ⟨[a0.name, a1.name, a2.name, a3.name, a4.name, "main"],
    (((depE a0.kind a0.name a1.name ++ depE a1.kind a1.name a2.name)
      ++ depE a2.kind a2.name a3.name) ++ depE a3.kind a3.name a4.name)
      ++ mainEdges [a0, a1, a2, a3, a4] [0, 1, 2, 3, 4],
    ?_, ?_, ?_, ?_, ?_⟩
  · rw [hgc]
    show extract_graph (ast_unparse [s0, s1, s2, s3, s4,
      .functionDef "main" mb,
      .sif (.egroup [.ename "__name__", .econst])
        [.exprStmt (bcall "main" [])] []]) = _
    rw [extract_graph_eq_parse_then_build, ast_parse_unparse]
    simp only [Except.map, extractNodes, extractEdges, hbg]
    rfl
  · rw [hgc]
    rfl
  · rcases hcase0 with ⟨-, h0⟩ | ⟨-, h0⟩ <;>
      rcases hcase1 with ⟨-, h1⟩ | ⟨-, h1⟩ <;>
      rcases hcase2 with ⟨-, h2⟩ | ⟨-, h2⟩ <;>
      rcases hcase3 with ⟨-, h3⟩ | ⟨-, h3⟩ <;>
      rcases hcase4 with ⟨-, h4⟩ | ⟨-, h4⟩ <;>
      rw [h0, h1, h2, h3, h4] <;> decide
  · rfl
  · intro e
    rw [hgc]
    have hM : mainEdges [a0, a1, a2, a3, a4] [0, 1, 2, 3, 4]
        = depE a0.kind a0.name "main" ++ (depE a1.kind a1.name "main"
          ++ (depE a2.kind a2.name "main" ++ (depE a3.kind a3.name "main"
            ++ (depE a4.kind a4.name "main" ++ [])))) := rfl
    constructor
    · intro h
      simp only [hM, List.mem_append, depE_mem, List.not_mem_nil,
        or_false] at h
      rcases h with (((h | h) | h) | h) | (h | h | h | h | h)
      · exact Or.inl ⟨0, by omega, h⟩
      · exact Or.inl ⟨1, by omega, h⟩
      · exact Or.inl ⟨2, by omega, h⟩
      · exact Or.inl ⟨3, by omega, h⟩
      · exact Or.inr ⟨0, by omega, h⟩
      · exact Or.inr ⟨1, by omega, h⟩
      · exact Or.inr ⟨2, by omega, h⟩
      · exact Or.inr ⟨3, by omega, h⟩
      · exact Or.inr ⟨4, by omega, h⟩
    · intro h
      simp only [hM, List.mem_append, depE_mem, List.not_mem_nil, or_false]
      rcases h with ⟨i, hi, he⟩ | ⟨i, hi, he⟩
      · interval_cases i
        · exact Or.inl (Or.inl (Or.inl (Or.inl he)))
        · exact Or.inl (Or.inl (Or.inl (Or.inr he)))
        · exact Or.inl (Or.inl (Or.inr he))
        · exact Or.inl (Or.inr he)
      · interval_cases i
        · exact Or.inr (Or.inl he)
        · exact Or.inr (Or.inr (Or.inl he))
        · exact Or.inr (Or.inr (Or.inr (Or.inl he)))
        · exact Or.inr (Or.inr (Or.inr (Or.inr (Or.inl he))))
        · exact Or.inr (Or.inr (Or.inr (Or.inr (Or.inr he))))

/-- C1 (counterexample to the original claim): already at the all-zeros
oracle, extracting from a generated five-node chain codebase does not
yield five nodes — the emitted `main()` driver is itself registered as a
sixth node. -/
theorem chain5_roundtrip_counterexample :
    ∃ nodes edges,
      extract_graph (ast_unparse
          (generate_codebase 5 3 1 1 1 "chain" false rng0 0).1)
        = .ok (nodes, edges) ∧ nodes.length ≠ 5 := by
  obtain ⟨nodes, edges, hok, -, -, hlen, -⟩ := chain5_pipeline 3 1 1 1 rng0 0
  exact ⟨nodes, edges, hok, by omega⟩

/-- C1 (corrected): round trip in `chain` mode at `N = 5`, for every
random stream and counter. Extracting from the generated source text
yields six distinct nodes, not five: the five generated node names in
order followed by `main`; and the edge set is the four chain edges
`(name(i-1), name(i))` together with the five driver edges
`(name(i), "main")` recorded from the emitted `main()` body. -/
theorem chain5_roundtrip (avg bf lf conn : Nat) (r : Rng) (k : Nat) :
    ∃ nodes edges,
      extract_graph (ast_unparse
          (generate_codebase 5 avg bf lf conn "chain" false r k).1)
        = .ok (nodes, edges)
      ∧ nodes
          = ((generate_codebase 5 avg bf lf conn "chain" false r k).2.1.map
              (fun nd => nd.name)) ++ ["main"]
      ∧ nodes.Nodup
      ∧ nodes.length = 6
      ∧ (∀ e, e ∈ edges ↔
          ((∃ i, i < 4
              ∧ e = (((generate_codebase 5 avg bf lf conn "chain" false
                    r k).2.1.getD i dfltNode).name,
                  ((generate_codebase 5 avg bf lf conn "chain" false
                    r k).2.1.getD (i + 1) dfltNode).name))
            ∨ (∃ i, i < 5
              ∧ e = (((generate_codebase 5 avg bf lf conn "chain" false
                    r k).2.1.getD i dfltNode).name, "main")))) :=
  chain5_pipeline avg bf lf conn r k

end TopoProj
